import Mathlib

/-!
Shallow embedding of `vector<T>` (src/vector.h).

The container is a triple `(data_, size_, capacity_)` living next to a heap of raw blocks.
A block is a list of slots; a slot is `none` while it is raw memory and `some x` while it
holds a constructed `T` of value `x`.

Modelling decisions, all visible in the definitions below:

* `size_t` values are natural numbers and every arithmetic step the source performs on
  them wraps around at `SIZE_MOD = 2 ^ 64`: sums and products are reduced modulo
  `SIZE_MOD`, differences go through `size_sub`; `ptrdiff_t` values are integers.
* The element type comes with its `sizeof`, a positive `size_t` value (`ElemSize`).
  `new_buffer` asks `operator new` for `size * sizeof (T)` bytes, the product reduced
  modulo `SIZE_MOD` like every other `size_t` product, and the block obtained has as
  many slots as whole elements fit into that many bytes: when the product wraps around,
  the block is shorter than `size` slots.  `operator new (0)` yields a block without
  slots at a fresh address.
* Every operation of `T` that may throw (copy construction, copy assignment) and every
  allocation asks the fault oracle `F : Nat → Bool` at the current tick and then advances
  the tick; `F t = true` means that the `t`-th fallible step throws.  A copy that does
  not throw yields a value equal to its source.  Destructors do not throw.
* Using a slot that is not there, or reading or destroying a slot that holds no
  element, is undefined behaviour, reported as `Res.ub` (or `none` for non-throwing code).
  Forming an address is not checked, only using it.
* The trace records, in chronological order, what happened to heap slots and blocks; an
  allocation is recorded with the byte count that was passed to `operator new`.
  Temporaries that live outside the heap (the local `element_copy`, the temporary of
  `std::swap`) consume a tick but leave no trace entry.
* `const` reference parameters are passed by value: `push_back` copies its argument
  before it reallocates, so the value read is the one the reference had at the call.
-/

/-- Modulus of `size_t` arithmetic. -/
def SIZE_MOD : Nat := 2 ^ 64

/-- The value `sizeof (T)` of the element type: positive, and a `size_t`. -/
class ElemSize (T : Type) where
  bytes : Nat
  pos : 0 < bytes
  lt : bytes < SIZE_MOD

/-- In the examples the elements are numbers of four bytes, like `int`. -/
instance ElemSize.nat : ElemSize Nat := ⟨4, by decide, by decide⟩

/-- Raw pointer to the first slot of a block: `none` is `nullptr`, `some a` is block `a`. -/
abbrev Ptr := Option Nat

/-- Things that happen to heap memory, in the order they happen. -/
inductive Event where
  | alloc (a bytes : Nat)
  | release (a : Nat)
  | construct (a i : Nat)
  | destroy (a i : Nat)
  | assign (a i : Nat)
  deriving DecidableEq, Repr

/-- The heap (block `a` is `heap[a]`; a released block is `none`), the number of fallible
steps taken so far, and the trace. -/
structure World (T : Type) where
  heap : List (Option (List (Option T)))
  tick : Nat
  trace : List Event
  deriving DecidableEq, Repr

/-- Outcome of a call: normal return with a value and the state, an exception that
leaves a state behind, or undefined behaviour. -/
inductive Res (α σ : Type) where
  | ok (a : α) (s : σ)
  | thrown (s : σ)
  | ub
  deriving DecidableEq, Repr

/-- An address of the form `base + off`. -/
structure iterator where
  base : Ptr
  off : Int
  deriving DecidableEq, Repr

/-- The three private fields of `vector<T>`. -/
structure vector where
  data_ : Ptr
  size_ : Nat
  capacity_ : Nat
  deriving DecidableEq, Repr

section Primitives
variable {T : Type}

/-- The live block a pointer refers to, if any. -/
def World.block (w : World T) (p : Ptr) : Option (List (Option T)) :=
  match p with
  | none => none
  | some a =>
    match w.heap[a]? with
    | some (some b) => some b
    | _ => none

/-- Value of the element held in slot `p[i]`; `none` when there is no such element. -/
def World.read (w : World T) (p : Ptr) (i : Nat) : Option T :=
  match w.block p with
  | some b =>
    match b[i]? with
    | some (some x) => some x
    | _ => none
  | none => none

/-- Conversion of a `ptrdiff_t` to `size_t`. -/
def toSize (z : Int) : Nat := (z % (SIZE_MOD : Int)).toNat

/-- Subtraction `a - b` of `size_t` values: below zero the result wraps around. -/
def size_sub (a b : Nat) : Nat := if b ≤ a then a - b else a + SIZE_MOD - b

/-- Pointer difference `p - q`; defined only inside one block. -/
def ptr_diff (p q : iterator) : Option Int :=
  if p.base = q.base then some (p.off - q.off) else none

/-- Number of whole elements of type `T` that fit into `bytes` bytes. -/
def slot_count (T : Type) [ElemSize T] (bytes : Nat) : Nat := bytes / ElemSize.bytes T

/-- Allocation `operator new (bytes)`: a block of `bytes` bytes at a fresh address, seen as
the slots of type `T` that fit into it. -/
def operator_new [ElemSize T] (F : Nat → Bool) (bytes : Nat) (w : World T) :
    Res Nat (World T) :=
  if F w.tick then .thrown { w with tick := w.tick + 1 }
  else .ok w.heap.length
    { heap := w.heap ++ [some (List.replicate (slot_count T bytes) none)]
      tick := w.tick + 1
      trace := w.trace ++ [Event.alloc w.heap.length bytes] }

/-- Deallocation `operator delete (p)`; a null pointer is accepted and ignored. -/
def operator_delete (p : Ptr) (w : World T) : Option (World T) :=
  match p with
  | none => some w
  | some a =>
    match w.block (some a) with
    | some _ => some { w with heap := w.heap.set a none, trace := w.trace ++ [Event.release a] }
    | none => none

/-- Placement copy construction `new (p + i) T (x)`. -/
def construct_at (F : Nat → Bool) (p : Ptr) (i : Nat) (x : T) (w : World T) :
    Res Unit (World T) :=
  match p, w.block p with
  | some a, some b =>
    if i < b.length then
      if F w.tick then .thrown { w with tick := w.tick + 1 }
      else .ok ()
        { heap := w.heap.set a (some (b.set i (some x)))
          tick := w.tick + 1
          trace := w.trace ++ [Event.construct a i] }
    else .ub
  | _, _ => .ub

/-- Destructor call `p[i].~T()`. -/
def destroy_at (p : Ptr) (i : Nat) (w : World T) : Option (World T) :=
  match p, w.block p with
  | some a, some b =>
    match b[i]? with
    | some (some _) =>
      some { w with heap := w.heap.set a (some (b.set i none))
                    trace := w.trace ++ [Event.destroy a i] }
    | _ => none
  | _, _ => none

/-- Copy assignment `p[i] = x` to a live element. -/
def assign_at (F : Nat → Bool) (p : Ptr) (i : Nat) (x : T) (w : World T) :
    Res Unit (World T) :=
  match p, w.block p with
  | some a, some b =>
    match b[i]? with
    | some (some _) =>
      if F w.tick then .thrown { w with tick := w.tick + 1 }
      else .ok ()
        { heap := w.heap.set a (some (b.set i (some x)))
          tick := w.tick + 1
          trace := w.trace ++ [Event.assign a i] }
    | _ => .ub
  | _, _ => .ub

/-- Copy construction of a local object of type `T` from `x`. -/
def copy_temp (F : Nat → Bool) (x : T) (w : World T) : Res T (World T) :=
  if F w.tick then .thrown { w with tick := w.tick + 1 }
  else .ok x { w with tick := w.tick + 1 }

/-- The generic `std::swap (p[i], p[j])`: `T tmp (p[i]); p[i] = p[j]; p[j] = tmp;`. -/
def std_swap (F : Nat → Bool) (p : Ptr) (i j : Nat) (w : World T) : Res Unit (World T) :=
  match w.read p i with
  | none => .ub
  | some a =>
    match copy_temp F a w with
    | .ok tmp w1 =>
      match w1.read p j with
      | none => .ub
      | some b =>
        match assign_at F p i b w1 with
        | .ok _ w2 => assign_at F p j tmp w2
        | .thrown w2 => .thrown w2
        | .ub => .ub
    | .thrown w1 => .thrown w1
    | .ub => .ub

end Primitives

section Members
variable {T : Type}

/-- Source `vector<T>::vector()`: no storage, length and capacity `0`. -/
def vector.vector_default : vector := ⟨none, 0, 0⟩

/-- Source `vector<T>::new_buffer`: `size ? operator new (size * sizeof (T)) : nullptr`,
the product computed in `size_t`. -/
def vector.new_buffer [ElemSize T] (F : Nat → Bool) (size : Nat) (w : World T) :
    Res Ptr (World T) :=
  if size ≠ 0 then
    match operator_new F (size * ElemSize.bytes T % SIZE_MOD) w with
    | .ok a w1 => .ok (some a) w1
    | .thrown w1 => .thrown w1
    | .ub => .ub
  else .ok none w

/-- Source `vector<T>::remove_elements`: `while (starting_point > 0)` destroy
`data_container[--starting_point]`. -/
def vector.remove_elements (data_container : Ptr) : Nat → World T → Option (World T)
  | 0, w => some w
  | starting_point + 1, w =>
    match destroy_at data_container starting_point w with
    | some w1 => vector.remove_elements data_container starting_point w1
    | none => none

/-- The `for` loop inside the `try` block of `copy_elements`.  The first number is
`upper_limit - loop`, the iterations still to run; an exception leaves with the value
of `loop` at which it was raised. -/
def vector.copy_elements_loop (F : Nat → Bool) (src dst : Ptr) :
    Nat → Nat → World T → Res Unit (Nat × World T)
  | 0, loop, w => .ok () (loop, w)
  | n + 1, loop, w =>
    match w.read src loop with
    | none => .ub
    | some x =>
      match construct_at F dst loop x w with
      | .ok _ w1 => vector.copy_elements_loop F src dst n (loop + 1) w1
      | .thrown w1 => .thrown (loop, w1)
      | .ub => .ub

/-- Source `vector<T>::copy_elements`: the loop, and the `catch (...)` handler that
destroys what was built, releases `to` and rethrows. -/
def vector.copy_elements (F : Nat → Bool) (src dst : Ptr) (upper_limit : Nat) (w : World T) :
    Res Unit (World T) :=
  match vector.copy_elements_loop F src dst upper_limit 0 w with
  | .ok _ (_, w1) => .ok () w1
  | .thrown (loop, w1) =>
    match vector.remove_elements dst loop w1 with
    | some w2 =>
      match operator_delete dst w2 with
      | some w3 => .thrown w3
      | none => .ub
    | none => .ub
  | .ub => .ub

/-- Source `vector<T>::vector(vector const &)`.  An exception leaves no object behind,
only the world. -/
def vector.vector_copy [ElemSize T] (F : Nat → Bool) (that : vector) (w : World T) :
    Res vector (World T) :=
  match vector.new_buffer F that.size_ w with
  | .ok p w1 =>
    match vector.copy_elements F that.data_ p that.size_ w1 with
    | .ok _ w2 => .ok ⟨p, that.size_, that.size_⟩ w2
    | .thrown w2 => .thrown w2
    | .ub => .ub
  | .thrown w1 => .thrown w1
  | .ub => .ub

/-- Source `vector<T>::operator[]`. -/
def vector.operator_index (v : vector) (w : World T) (i : Nat) : Option T :=
  w.read v.data_ i

/-- Source `vector<T>::data`. -/
def vector.data (v : vector) : Ptr := v.data_

/-- Source `vector<T>::size`. -/
def vector.size (v : vector) : Nat := v.size_

/-- Source `vector<T>::capacity`. -/
def vector.capacity (v : vector) : Nat := v.capacity_

/-- Source `vector<T>::empty`. -/
def vector.empty (v : vector) : Bool := v.size_ == 0

/-- Source `vector<T>::front`. -/
def vector.front (v : vector) (w : World T) : Option T := w.read v.data_ 0

/-- Source `vector<T>::back`: `data_[size_ - 1]`, the subtraction in `size_t`. -/
def vector.back (v : vector) (w : World T) : Option T :=
  w.read v.data_ (size_sub v.size_ 1)

/-- Source `vector<T>::begin`. -/
def vector.begin (v : vector) : iterator := ⟨v.data_, 0⟩

/-- Source `vector<T>::end`: `data_ + size_`. -/
def vector.end (v : vector) : iterator := ⟨v.data_, v.size_⟩

/-- Source `vector<T>::swap`: the three fields change places. -/
def vector.swap (v that : vector) : vector × vector :=
  (⟨that.data_, that.size_, that.capacity_⟩, ⟨v.data_, v.size_, v.capacity_⟩)

/-- Source `vector<T>::pop_back`: `data_[--size_].~T()`, the decrement in `size_t`. -/
def vector.pop_back (v : vector) (w : World T) : Option (vector × World T) :=
  match destroy_at v.data_ (size_sub v.size_ 1) w with
  | some w1 => some ({ v with size_ := size_sub v.size_ 1 }, w1)
  | none => none

/-- Source `vector<T>::clear`. -/
def vector.clear (v : vector) (w : World T) : Option (vector × World T) :=
  match vector.remove_elements v.data_ v.size_ w with
  | some w1 => some ({ v with size_ := 0 }, w1)
  | none => none

/-- Source `vector<T>::~vector`: `clear ()` then `operator delete (data_)`. -/
def vector.destructor (v : vector) (w : World T) : Option (World T) :=
  match v.clear w with
  | some (v1, w1) => operator_delete v1.data_ w1
  | none => none

/-- Source `vector<T>::operator=`: copy `that` into `tmp`, swap, destroy `tmp`. -/
def vector.operator_assign [ElemSize T] (F : Nat → Bool) (v that : vector) (w : World T) :
    Res Unit (vector × World T) :=
  match vector.vector_copy F that w with
  | .ok tmp w1 =>
    match (v.swap tmp).2.destructor w1 with
    | some w2 => .ok () ((v.swap tmp).1, w2)
    | none => .ub
  | .thrown w1 => .thrown (v, w1)
  | .ub => .ub

/-- Source `vector<T>::reserve`. -/
def vector.reserve [ElemSize T] (F : Nat → Bool) (v : vector) (s : Nat) (w : World T) :
    Res Unit (vector × World T) :=
  if s > v.capacity_ then
    match vector.new_buffer F s w with
    | .ok data_new w1 =>
      match vector.copy_elements F v.data_ data_new v.size_ w1 with
      | .ok _ w2 =>
        match vector.remove_elements v.data_ v.size_ w2 with
        | some w3 =>
          match operator_delete v.data_ w3 with
          | some w4 => .ok () ({ v with data_ := data_new, capacity_ := s }, w4)
          | none => .ub
        | none => .ub
      | .thrown w2 => .thrown (v, w2)
      | .ub => .ub
    | .thrown w1 => .thrown (v, w1)
    | .ub => .ub
  else .ok () (v, w)

/-- Source `vector<T>::shrink_to_fit`. -/
def vector.shrink_to_fit [ElemSize T] (F : Nat → Bool) (v : vector) (w : World T) :
    Res Unit (vector × World T) :=
  if v.size_ = v.capacity_ then .ok () (v, w)
  else
    match vector.vector_copy F v w with
    | .ok tmp w1 =>
      match (v.swap tmp).2.destructor w1 with
      | some w2 => .ok () ((v.swap tmp).1, w2)
      | none => .ub
    | .thrown w1 => .thrown (v, w1)
    | .ub => .ub

/-- Source `vector<T>::ensure_capacity`; `2 * capacity_` is computed in `size_t`. -/
def vector.ensure_capacity [ElemSize T] (F : Nat → Bool) (v : vector) (w : World T) :
    Res Unit (vector × World T) :=
  if v.size_ = v.capacity_ then
    v.reserve F (if v.capacity_ = 0 then 1 else 2 * v.capacity_ % SIZE_MOD) w
  else .ok () (v, w)

/-- Source `vector<T>::push_back`; `++size_` is computed in `size_t`. -/
def vector.push_back [ElemSize T] (F : Nat → Bool) (v : vector) (element : T) (w : World T) :
    Res Unit (vector × World T) :=
  if v.size_ = v.capacity_ then
    match copy_temp F element w with
    | .ok element_copy w1 =>
      match v.ensure_capacity F w1 with
      | .ok _ (v1, w2) =>
        match construct_at F v1.data_ v1.size_ element_copy w2 with
        | .ok _ w3 => .ok () ({ v1 with size_ := (v1.size_ + 1) % SIZE_MOD }, w3)
        | .thrown w3 => .thrown (v1, w3)
        | .ub => .ub
      | .thrown s => .thrown s
      | .ub => .ub
    | .thrown w1 => .thrown (v, w1)
    | .ub => .ub
  else
    match construct_at F v.data_ v.size_ element w with
    | .ok _ w1 => .ok () ({ v with size_ := (v.size_ + 1) % SIZE_MOD }, w1)
    | .thrown w1 => .thrown (v, w1)
    | .ub => .ub

/-- The loop of `insert`: `for (size_t i = size_ - 1; i > index; i--)` swap `data_[i]`
with `data_[i - 1]`.  The number is the current `i`. -/
def vector.insert_loop (F : Nat → Bool) (data : Ptr) (index : Nat) :
    Nat → World T → Res Unit (World T)
  | 0, w => .ok () w
  | i + 1, w =>
    if i + 1 > index then
      match std_swap F data (i + 1) i w with
      | .ok _ w1 => vector.insert_loop F data index i w1
      | .thrown w1 => .thrown w1
      | .ub => .ub
    else .ok () w

/-- Source `vector<T>::insert`.  The comparison `i > index` converts `index` to `size_t`. -/
def vector.insert [ElemSize T] (F : Nat → Bool) (v : vector) (pos : iterator) (element : T)
    (w : World T) :
    Res iterator (vector × World T) :=
  match ptr_diff pos ⟨v.data_, 0⟩ with
  | none => .ub
  | some index =>
    match v.push_back F element w with
    | .ok _ (v1, w1) =>
      match vector.insert_loop F v1.data_ (toSize index)
          (size_sub v1.size_ 1) w1 with
      | .ok _ w2 => .ok ⟨v1.data_, index⟩ (v1, w2)
      | .thrown w2 => .thrown (v1, w2)
      | .ub => .ub
    | .thrown s => .thrown s
    | .ub => .ub

/-- First loop of `erase`: `for (size_t i = start; i < size_ - delta; i++)` assign
`data_[i + delta]` to `data_[i]`.  The first number is the count of iterations still to
run, the second is `i`; `i + delta` is computed in `size_t`, and `i++` stays below the
loop bound, so it cannot wrap. -/
def vector.erase_shift (F : Nat → Bool) (data : Ptr) (delta : Nat) :
    Nat → Nat → World T → Res Unit (World T)
  | 0, _, w => .ok () w
  | n + 1, i, w =>
    match w.read data ((i + delta) % SIZE_MOD) with
    | none => .ub
    | some x =>
      match assign_at F data i x w with
      | .ok _ w1 => vector.erase_shift F data delta n (i + 1) w1
      | .thrown w1 => .thrown w1
      | .ub => .ub

/-- Second loop of `erase`: `for (size_t i = 0; i < delta; i++) pop_back ()`. -/
def vector.erase_pops : Nat → vector → World T → Option (vector × World T)
  | 0, v, w => some (v, w)
  | n + 1, v, w =>
    match v.pop_back w with
    | some (v1, w1) => vector.erase_pops n v1 w1
    | none => none

/-- Source `vector<T>::erase(const_iterator, const_iterator)`; `size_ - delta` is
computed in `size_t`. -/
def vector.erase (F : Nat → Bool) (v : vector) (first last : iterator) (w : World T) :
    Res iterator (vector × World T) :=
  match ptr_diff last first, ptr_diff first ⟨v.data_, 0⟩ with
  | some delta, some start =>
    if delta > 0 then
      match vector.erase_shift F v.data_ (toSize delta)
          (size_sub v.size_ (toSize delta) - toSize start) (toSize start) w with
      | .ok _ w1 =>
        match vector.erase_pops (toSize delta) v w1 with
        | some (v1, w2) => .ok ⟨v1.data_, start⟩ (v1, w2)
        | none => .ub
      | .thrown w1 => .thrown (v, w1)
      | .ub => .ub
    else .ok ⟨v.data_, start⟩ (v, w)
  | _, _ => .ub

/-- Source `vector<T>::erase(const_iterator)`: `erase (pos, pos + 1)`. -/
def vector.erase_pos (F : Nat → Bool) (v : vector) (pos : iterator) (w : World T) :
    Res iterator (vector × World T) :=
  v.erase F pos ⟨pos.base, pos.off + 1⟩ w

end Members

section Representation
variable {T : Type}

/-- Contents of a block of `cap` slots whose first slots hold `xs` and whose other slots
are raw. -/
def slotsOf (xs : List T) (cap : Nat) : List (Option T) :=
  xs.map some ++ List.replicate (cap - xs.length) none

/-- The storage behind `p` is a block of `cap` slots holding `xs`; with capacity `0`
there is no block and `p` is null. -/
def Stores (w : World T) : Ptr → Nat → List T → Prop
  | none, cap, _ => cap = 0
  | some a, cap, xs => 0 < cap ∧ w.heap[a]? = some (some (slotsOf xs cap))

/-- Well-formed vector holding the elements `xs`: the invariants of the data model
(`0 ≤ length ≤ capacity`, slots below the length live, slots above raw, null storage
exactly when the capacity is `0`), with the size in bytes of the `capacity` slots in the
range of `size_t`, as the size of every block is. -/
def vector.Holds [ElemSize T] (v : vector) (w : World T) (xs : List T) : Prop :=
  v.size_ = xs.length ∧ xs.length ≤ v.capacity_ ∧ v.capacity_ * ElemSize.bytes T < SIZE_MOD ∧
    Stores w v.data_ v.capacity_ xs

instance Stores.decide [DecidableEq T] (w : World T) (p : Ptr) (cap : Nat) (xs : List T) :
    Decidable (Stores w p cap xs) := by
  cases p <;> unfold Stores <;> infer_instance

instance vector.Holds.decide [ElemSize T] [DecidableEq T] (v : vector) (w : World T) (xs : List T) :
    Decidable (v.Holds w xs) := by
  unfold vector.Holds; infer_instance

/-- No fallible step ever throws. -/
def NoFault (F : Nat → Bool) : Prop := ∀ t, F t = false

/-- The empty world: no block was ever allocated. -/
def World.init : World T := ⟨[], 0, []⟩

/-- Calling `push_back` with each value of the list in turn. -/
def push_all [ElemSize T] (F : Nat → Bool) :
    List T → vector → World T → Res Unit (vector × World T)
  | [], v, w => .ok () (v, w)
  | x :: xs, v, w =>
    match v.push_back F x w with
    | .ok _ (v1, w1) => push_all F xs v1 w1
    | .thrown s => .thrown s
    | .ub => .ub

/-- Construction events for the slots `loop, loop + 1, …` of block `a`, `n` of them. -/
def constructs (a loop n : Nat) : List Event := (List.range' loop n).map (Event.construct a)

/-- Destruction events for the slots `k - 1, …, 0` of block `a`. -/
def destroys (a k : Nat) : List Event := (List.range k).reverse.map (Event.destroy a)

/-- Destruction events of `remove_elements (p, k)`; none through the null pointer, where
`k` is `0`. -/
def destroysP : Ptr → Nat → List Event
  | none, _ => []
  | some a, k => destroys a k

/-- Release event of `operator delete (p)`; none for the null pointer. -/
def releaseP : Ptr → List Event
  | none => []
  | some a => [Event.release a]

/-- The heap after `operator delete (p)`. -/
def freeBlock (h : List (Option (List (Option T)))) : Ptr → List (Option (List (Option T)))
  | none => h
  | some a => h.set a none

/-- Contents during the first loop of `erase`, when `i` has been reached: the slots
`[s, i)` already hold the values that were `d` places further on. -/
def shifted (xs : List T) (s d i : Nat) : List T :=
  xs.take s ++ ((xs.drop (s + d)).take (i - s) ++ xs.drop i)

/-- The block a copy construction from a vector holding `ys` appends to the heap: none
when `ys` is empty. -/
def copyBlock (ys : List T) : List (Option (List (Option T))) :=
  if ys.length = 0 then [] else [some (slotsOf ys ys.length)]

/-- The pointer a copy construction of `n` elements returns on a heap of `k` blocks: null
for `n = 0`, the fresh address `k` otherwise. -/
def copyPtr (k n : Nat) : Ptr := if n = 0 then none else some k

/-- Shape of length and capacity after pushes onto an empty vector: both `0`, or the
capacity is a power of two, at least the length and less than twice the length. -/
def Pow2Cap (size cap : Nat) : Prop :=
  (size = 0 ∧ cap = 0) ∨ (∃ j, cap = 2 ^ j) ∧ size ≤ cap ∧ cap < 2 * size

/-- Invariant I1 of the data model, in its own words: `0 ≤ length ≤ capacity`, and when
there is capacity the storage is a live block of `capacity` slots whose slots
`[0, length)` each hold a constructed element and whose slots `[length, capacity)` are
raw. -/
def Inv1 (v : vector) (w : World T) : Prop :=
  v.size_ ≤ v.capacity_ ∧
  (0 < v.capacity_ → ∃ b, w.block v.data_ = some b ∧ b.length = v.capacity_ ∧
    (∀ i, i < v.size_ → ∃ x, b[i]? = some (some x)) ∧
    (∀ i, v.size_ ≤ i → i < v.capacity_ → b[i]? = some none))

/-- Invariant I2 of the data model: capacity `0` implies a null storage pointer. -/
def Inv2 (v : vector) : Prop := v.capacity_ = 0 → v.data_ = none

/-- The byte count `size * sizeof (T)` that `new_buffer (size)` passes to `operator new`. -/
def buffer_bytes (T : Type) [ElemSize T] (size : Nat) : Nat :=
  size * ElemSize.bytes T % SIZE_MOD

/-- The number of slots of the block that `new_buffer (size)` obtains from `operator new`. -/
def buffer_slots (T : Type) [ElemSize T] (size : Nat) : Nat :=
  slot_count T (buffer_bytes T size)

end Representation
section SlotLemmas
variable {T : Type}

theorem slotsOf_length (xs : List T) (cap : Nat) (h : xs.length ≤ cap) :
    (slotsOf xs cap).length = cap := by
  simp [slotsOf]; omega

theorem slotsOf_getElem? (xs : List T) (cap j : Nat) :
    (slotsOf xs cap)[j]? =
      if j < xs.length then Option.map some xs[j]? else if j < cap then some none else none := by
  simp only [slotsOf, List.getElem?_append, List.length_map, List.getElem?_map,
    List.getElem?_replicate]
  split_ifs <;> first | rfl | omega

theorem slotsOf_getElem?_lt (xs : List T) (cap i : Nat) (h : i < xs.length) :
    (slotsOf xs cap)[i]? = some (some xs[i]) := by
  simp [slotsOf_getElem?, h]

theorem slotsOf_getElem?_ge (xs : List T) (cap i : Nat) (h : xs.length ≤ i) (h2 : i < cap) :
    (slotsOf xs cap)[i]? = some none := by
  simp [slotsOf_getElem?, h2, Nat.not_lt.mpr h]

theorem slotsOf_set_push (xs : List T) (cap : Nat) (x : T) (h : xs.length < cap) :
    (slotsOf xs cap).set xs.length (some x) = slotsOf (xs ++ [x]) cap := by
  apply List.ext_getElem?
  intro j
  rw [List.getElem?_set, slotsOf_length _ _ (Nat.le_of_lt h), slotsOf_getElem?, slotsOf_getElem?]
  simp only [List.length_append, List.length_cons, List.length_nil, List.getElem?_append]
  by_cases h1 : xs.length = j
  · subst h1; simp [h]
  · by_cases h2 : j < xs.length
    · have h3 : j < xs.length + 1 := by omega
      simp [h1, h2, h3]
    · have h3 : ¬ j < xs.length + 1 := by omega
      simp [h1, h2, h3]

theorem slotsOf_set_pop (xs : List T) (cap : Nat) (x : T) (h : xs.length < cap) :
    (slotsOf (xs ++ [x]) cap).set xs.length none = slotsOf xs cap := by
  apply List.ext_getElem?
  intro j
  rw [List.getElem?_set, slotsOf_length _ _ (by simp; omega), slotsOf_getElem?, slotsOf_getElem?]
  simp only [List.length_append, List.length_cons, List.length_nil, List.getElem?_append]
  by_cases h1 : xs.length = j
  · subst h1; simp [h]
  · by_cases h2 : j < xs.length
    · have h3 : j < xs.length + 1 := by omega
      simp [h1, h2, h3]
    · have h3 : ¬ j < xs.length + 1 := by omega
      simp [h1, h2, h3]

theorem slotsOf_set_lt (xs : List T) (cap i : Nat) (y : T) (h : i < xs.length)
    (hc : xs.length ≤ cap) :
    (slotsOf xs cap).set i (some y) = slotsOf (xs.set i y) cap := by
  apply List.ext_getElem?
  intro j
  rw [List.getElem?_set, slotsOf_length _ _ hc, slotsOf_getElem?, slotsOf_getElem?]
  simp only [List.length_set, List.getElem?_set]
  by_cases h1 : i = j
  · subst h1; simp [h]; omega
  · simp [h1]

end SlotLemmas

section HeapLemmas
variable {T : Type}

theorem set_same {α : Type} (l : List α) (a : Nat) (v : α) (h : l[a]? = some v) :
    l.set a v = l := by
  apply List.ext_getElem?
  intro j
  rw [List.getElem?_set]
  split_ifs with h1 h2
  · subst h1; exact h.symm
  · subst h1; simp at h2; rw [List.getElem?_eq_none (by omega)]
  · rfl

theorem lt_of_getElem?_some {α : Type} (l : List α) (a : Nat) (v : α) (h : l[a]? = some v) :
    a < l.length := by
  rcases List.getElem?_eq_some.mp h with ⟨h1, _⟩
  exact h1

theorem destroys_succ (a k : Nat) : destroys a (k + 1) = Event.destroy a k :: destroys a k := by
  simp [destroys, List.range_succ]

theorem constructs_succ (a loop n : Nat) :
    constructs a loop (n + 1) = Event.construct a loop :: constructs a (loop + 1) n := by
  simp [constructs, List.range'_succ]

theorem block_eq (w : World T) (a : Nat) (b : List (Option T)) (h : w.heap[a]? = some (some b)) :
    w.block (some a) = some b := by
  simp [World.block, h]

theorem read_eq (w : World T) (a i : Nat) (b : List (Option T)) (x : T)
    (h : w.heap[a]? = some (some b)) (hi : b[i]? = some (some x)) :
    w.read (some a) i = some x := by
  simp [World.read, World.block, h, hi]

theorem construct_at_eq (F : Nat → Bool) (w : World T) (a i : Nat) (x : T) (b : List (Option T))
    (h : w.heap[a]? = some (some b)) (hi : i < b.length) :
    construct_at F (some a) i x w =
      if F w.tick then .thrown { w with tick := w.tick + 1 }
      else .ok ()
        { heap := w.heap.set a (some (b.set i (some x)))
          tick := w.tick + 1
          trace := w.trace ++ [Event.construct a i] } := by
  simp [construct_at, World.block, h, hi]

theorem destroy_at_eq (w : World T) (a i : Nat) (x : T) (b : List (Option T))
    (h : w.heap[a]? = some (some b)) (hi : b[i]? = some (some x)) :
    destroy_at (some a) i w =
      some { w with heap := w.heap.set a (some (b.set i none))
                    trace := w.trace ++ [Event.destroy a i] } := by
  simp [destroy_at, World.block, h, hi]

theorem assign_at_eq (F : Nat → Bool) (w : World T) (a i : Nat) (x y : T) (b : List (Option T))
    (h : w.heap[a]? = some (some b)) (hi : b[i]? = some (some y)) :
    assign_at F (some a) i x w =
      if F w.tick then .thrown { w with tick := w.tick + 1 }
      else .ok ()
        { heap := w.heap.set a (some (b.set i (some x)))
          tick := w.tick + 1
          trace := w.trace ++ [Event.assign a i] } := by
  simp [assign_at, World.block, h, hi]

theorem operator_delete_eq (w : World T) (a : Nat) (b : List (Option T))
    (h : w.heap[a]? = some (some b)) :
    operator_delete (some a) w =
      some { w with heap := w.heap.set a none, trace := w.trace ++ [Event.release a] } := by
  simp [operator_delete, World.block, h]

theorem fault_dichotomy (F : Nat → Bool) (t n : Nat) :
    (∀ j, j < n → F (t + j) = false) ∨
      ∃ j, j < n ∧ (∀ i, i < j → F (t + i) = false) ∧ F (t + j) = true := by
  induction n with
  | zero => left; intro j hj; omega
  | succ n ih =>
    rcases ih with h | ⟨j, hj, h1, h2⟩
    · by_cases hn : F (t + n) = true
      · right; exact ⟨n, by omega, h, hn⟩
      · left
        intro j hj
        by_cases hjn : j = n
        · subst hjn; simpa using hn
        · exact h j (by omega)
    · right; exact ⟨j, by omega, h1, h2⟩

theorem remove_elements_spec (ys : List T) (d cap : Nat) (hc : ys.length ≤ cap) :
    ∀ (k : Nat) (w : World T), k ≤ ys.length →
      w.heap[d]? = some (some (slotsOf (ys.take k) cap)) →
      vector.remove_elements (some d) k w =
        some ⟨w.heap.set d (some (slotsOf [] cap)), w.tick, w.trace ++ destroys d k⟩ := by
  intro k
  induction k with
  | zero =>
    intro w _ hd
    simp only [List.take_zero] at hd
    simp [vector.remove_elements, destroys, set_same _ _ _ hd]
  | succ k ih =>
    intro w hk hd
    have hk1 : k < ys.length := by omega
    have htake : ys.take (k + 1) = ys.take k ++ [ys[k]] := by
      rw [List.take_succ, List.getElem?_eq_getElem hk1]; rfl
    have hlen : (ys.take k).length = k := by simp; omega
    rw [htake] at hd
    have hrd : (slotsOf (ys.take k ++ [ys[k]]) cap)[k]? = some (some ys[k]) := by
      rw [slotsOf_getElem?_lt _ _ _ (by simp; omega)]
      simp [List.getElem_append_right, hlen]
    rw [vector.remove_elements, destroy_at_eq w d k ys[k] _ hd hrd]
    have hpop := slotsOf_set_pop (ys.take k) cap ys[k] (by omega)
    rw [hlen] at hpop
    simp only [hpop]
    rw [ih _ (by omega)]
    · simp [List.set_set, destroys_succ]
    · simp [List.getElem?_set_self (lt_of_getElem?_some _ _ _ hd)]

end HeapLemmas
section CopyLemmas
variable {T : Type}

theorem take_succ_getElem (xs : List T) (k : Nat) (hk : k < xs.length) :
    xs.take (k + 1) = xs.take k ++ [xs[k]] := by
  rw [List.take_succ, List.getElem?_eq_getElem hk]; rfl

theorem copy_elements_loop_spec (F : Nat → Bool) (xs : List T) (s d cap : Nat)
    (bs : List (Option T)) (hc : xs.length ≤ cap) (hsd : s ≠ d)
    (hbs : ∀ j (hj : j < xs.length), bs[j]? = some (some xs[j])) :
    ∀ (n loop : Nat) (w : World T), loop + n = xs.length →
      w.heap[s]? = some (some bs) →
      w.heap[d]? = some (some (slotsOf (xs.take loop) cap)) →
      ((∀ j, j < n → F (w.tick + j) = false) →
        vector.copy_elements_loop F (some s) (some d) n loop w =
          .ok () (xs.length, ⟨w.heap.set d (some (slotsOf xs cap)), w.tick + n,
            w.trace ++ constructs d loop n⟩)) ∧
      (∀ j, j < n → (∀ i, i < j → F (w.tick + i) = false) → F (w.tick + j) = true →
        vector.copy_elements_loop F (some s) (some d) n loop w =
          .thrown (loop + j, ⟨w.heap.set d (some (slotsOf (xs.take (loop + j)) cap)),
            w.tick + j + 1, w.trace ++ constructs d loop j⟩)) := by
  intro n
  induction n with
  | zero =>
    intro loop w hl _ hd
    constructor
    · intro _
      have h1 : xs.take loop = xs := List.take_of_length_le (by omega)
      rw [h1] at hd
      have h2 : loop = xs.length := by omega
      simp [vector.copy_elements_loop, constructs, set_same _ _ _ hd, h2]
    · intro j hj; omega
  | succ n ih =>
    intro loop w hl hs hd
    have hlt : loop < xs.length := by omega
    have hlen : (xs.take loop).length = loop := by simp; omega
    have hrd : w.read (some s) loop = some xs[loop] := read_eq w s loop bs _ hs (hbs loop hlt)
    have hcon := construct_at_eq F w d loop xs[loop] _ hd
      (by rw [slotsOf_length _ _ (by omega)]; omega)
    have hpush := slotsOf_set_push (xs.take loop) cap xs[loop] (by omega)
    rw [hlen, ← take_succ_getElem xs loop hlt] at hpush
    rw [hpush] at hcon
    have hdlt := lt_of_getElem?_some _ _ _ hd
    constructor
    · intro hF
      have hF0 : F w.tick = false := by simpa using hF 0 (by omega)
      rw [vector.copy_elements_loop, hrd]
      simp only [hcon, hF0, Bool.false_eq_true, if_false]
      have := (ih (loop + 1)
        ⟨w.heap.set d (some (slotsOf (xs.take (loop + 1)) cap)), w.tick + 1,
          w.trace ++ [Event.construct d loop]⟩ (by omega)
        (by simpa [List.getElem?_set_ne (Ne.symm hsd)] using hs)
        (by simp [List.getElem?_set_self hdlt])).1
        (by intro j hj; have := hF (j + 1) (by omega); simpa [Nat.add_assoc, Nat.add_comm 1 j] using this)
      rw [this]
      simp [List.set_set, constructs_succ, Nat.add_assoc, Nat.add_comm 1 n]
    · intro j hj hFi hFj
      rw [vector.copy_elements_loop, hrd]
      cases j with
      | zero =>
        have hF0 : F w.tick = true := by simpa using hFj
        simp [hcon, hF0, constructs, set_same _ _ _ hd]
      | succ j =>
        have hF0 : F w.tick = false := by simpa using hFi 0 (by omega)
        simp only [hcon, hF0, Bool.false_eq_true, if_false]
        have := (ih (loop + 1)
          ⟨w.heap.set d (some (slotsOf (xs.take (loop + 1)) cap)), w.tick + 1,
            w.trace ++ [Event.construct d loop]⟩ (by omega)
          (by simpa [List.getElem?_set_ne (Ne.symm hsd)] using hs)
          (by simp [List.getElem?_set_self hdlt])).2 j (by omega)
          (by intro i hi; have := hFi (i + 1) (by omega); simpa [Nat.add_assoc, Nat.add_comm 1 i] using this)
          (by simpa [Nat.add_assoc, Nat.add_comm 1 j] using hFj)
        rw [this]
        simp [List.set_set, constructs_succ, Nat.add_assoc, Nat.add_comm 1 j]

theorem construct_at_past_end (F : Nat → Bool) (w : World T) (a i : Nat) (x : T)
    (b : List (Option T)) (h : w.heap[a]? = some (some b)) (hi : b.length ≤ i) :
    construct_at F (some a) i x w = .ub := by
  simp [construct_at, World.block, h, Nat.not_lt.mpr hi]

/-- The copy loop into a block with fewer slots than there are elements to copy: it
writes past the end of the block unless a copy into one of the slots throws first. -/
theorem copy_elements_loop_short (F : Nat → Bool) (xs : List T) (s d cap : Nat)
    (bs : List (Option T)) (hc : cap < xs.length) (hsd : s ≠ d)
    (hbs : ∀ j (hj : j < xs.length), bs[j]? = some (some xs[j])) :
    ∀ (n loop : Nat) (w : World T), loop + n = xs.length → loop ≤ cap →
      w.heap[s]? = some (some bs) →
      w.heap[d]? = some (some (slotsOf (xs.take loop) cap)) →
      ((∀ j, loop + j < cap → F (w.tick + j) = false) →
        vector.copy_elements_loop F (some s) (some d) n loop w = .ub) ∧
      (∀ j, loop + j < cap → (∀ i, i < j → F (w.tick + i) = false) → F (w.tick + j) = true →
        vector.copy_elements_loop F (some s) (some d) n loop w =
          .thrown (loop + j, ⟨w.heap.set d (some (slotsOf (xs.take (loop + j)) cap)),
            w.tick + j + 1, w.trace ++ constructs d loop j⟩)) := by
  intro n
  induction n with
  | zero => intro loop w hl hlc _ _; omega
  | succ n ih =>
    intro loop w hl hlc hs hd
    have hlt : loop < xs.length := by omega
    have hlen : (xs.take loop).length = loop := by simp; omega
    have hrd : w.read (some s) loop = some xs[loop] := read_eq w s loop bs _ hs (hbs loop hlt)
    by_cases hend : loop = cap
    · have hub := construct_at_past_end F w d loop xs[loop] _ hd
        (by rw [slotsOf_length _ _ (by omega)]; omega)
      constructor
      · intro _
        rw [vector.copy_elements_loop, hrd]
        simp only [hub]
      · intro j hj; omega
    · have hcon := construct_at_eq F w d loop xs[loop] _ hd
        (by rw [slotsOf_length _ _ (by omega)]; omega)
      have hpush := slotsOf_set_push (xs.take loop) cap xs[loop] (by omega)
      rw [hlen, ← take_succ_getElem xs loop hlt] at hpush
      rw [hpush] at hcon
      have hdlt := lt_of_getElem?_some _ _ _ hd
      constructor
      · intro hF
        have hF0 : F w.tick = false := by simpa using hF 0 (by omega)
        rw [vector.copy_elements_loop, hrd]
        simp only [hcon, hF0, Bool.false_eq_true, if_false]
        exact (ih (loop + 1)
          ⟨w.heap.set d (some (slotsOf (xs.take (loop + 1)) cap)), w.tick + 1,
            w.trace ++ [Event.construct d loop]⟩ (by omega) (by omega)
          (by simpa [List.getElem?_set_ne (Ne.symm hsd)] using hs)
          (by simp [List.getElem?_set_self hdlt])).1
          (by
            intro j hj
            have := hF (j + 1) (by omega)
            simpa [Nat.add_assoc, Nat.add_comm 1 j] using this)
      · intro j hj hFi hFj
        rw [vector.copy_elements_loop, hrd]
        cases j with
        | zero =>
          have hF0 : F w.tick = true := by simpa using hFj
          simp [hcon, hF0, constructs, set_same _ _ _ hd]
        | succ j =>
          have hF0 : F w.tick = false := by simpa using hFi 0 (by omega)
          simp only [hcon, hF0, Bool.false_eq_true, if_false]
          have := (ih (loop + 1)
            ⟨w.heap.set d (some (slotsOf (xs.take (loop + 1)) cap)), w.tick + 1,
              w.trace ++ [Event.construct d loop]⟩ (by omega) (by omega)
            (by simpa [List.getElem?_set_ne (Ne.symm hsd)] using hs)
            (by simp [List.getElem?_set_self hdlt])).2 j (by omega)
            (by
              intro i hi
              have := hFi (i + 1) (by omega)
              simpa [Nat.add_assoc, Nat.add_comm 1 i] using this)
            (by simpa [Nat.add_assoc, Nat.add_comm 1 j] using hFj)
          rw [this]
          simp [List.set_set, constructs_succ, Nat.add_assoc, Nat.add_comm 1 j]

end CopyLemmas
section CopyLemmas2
variable {T : Type}

theorem copy_elements_zero (F : Nat → Bool) (src dst : Ptr) (w : World T) :
    vector.copy_elements F src dst 0 w = .ok () w := by
  simp [vector.copy_elements, vector.copy_elements_loop]

theorem copy_elements_ok (F : Nat → Bool) (xs : List T) (s d cap : Nat)
    (bs : List (Option T)) (hc : xs.length ≤ cap) (hsd : s ≠ d)
    (hbs : ∀ j (hj : j < xs.length), bs[j]? = some (some xs[j])) (w : World T)
    (hs : w.heap[s]? = some (some bs)) (hd : w.heap[d]? = some (some (slotsOf [] cap)))
    (hF : ∀ j, j < xs.length → F (w.tick + j) = false) :
    vector.copy_elements F (some s) (some d) xs.length w =
      .ok () ⟨w.heap.set d (some (slotsOf xs cap)), w.tick + xs.length,
        w.trace ++ constructs d 0 xs.length⟩ := by
  have := (copy_elements_loop_spec F xs s d cap bs hc hsd hbs xs.length 0 w (by omega) hs
    (by simpa using hd)).1 hF
  simp [vector.copy_elements, this]

theorem copy_elements_thrown (F : Nat → Bool) (xs : List T) (s d cap : Nat)
    (bs : List (Option T)) (hsd : s ≠ d)
    (hbs : ∀ j (hj : j < xs.length), bs[j]? = some (some xs[j])) (w : World T)
    (hs : w.heap[s]? = some (some bs)) (hd : w.heap[d]? = some (some (slotsOf [] cap)))
    (j : Nat) (hj : j < xs.length) (hjc : j < cap)
    (hFi : ∀ i, i < j → F (w.tick + i) = false) (hFj : F (w.tick + j) = true) :
    vector.copy_elements F (some s) (some d) xs.length w =
      .thrown ⟨w.heap.set d none, w.tick + j + 1,
        w.trace ++ (constructs d 0 j ++ (destroys d j ++ [Event.release d]))⟩ := by
  have : vector.copy_elements_loop F (some s) (some d) xs.length 0 w =
      .thrown (0 + j, ⟨w.heap.set d (some (slotsOf (xs.take (0 + j)) cap)),
        w.tick + j + 1, w.trace ++ constructs d 0 j⟩) := by
    by_cases hc : xs.length ≤ cap
    · exact (copy_elements_loop_spec F xs s d cap bs hc hsd hbs xs.length 0 w (by omega) hs
        (by simpa using hd)).2 j hj hFi hFj
    · exact (copy_elements_loop_short F xs s d cap bs (by omega) hsd hbs xs.length 0 w
        (by omega) (by omega) hs (by simpa using hd)).2 j (by omega) hFi hFj
  have hdlt := lt_of_getElem?_some _ _ _ hd
  have hlen : (xs.take j).length = j := by simp; omega
  have hrem := remove_elements_spec (xs.take j) d cap (by omega) j
    ⟨w.heap.set d (some (slotsOf (xs.take j) cap)), w.tick + j + 1,
      w.trace ++ constructs d 0 j⟩ (by omega)
    (by simp [List.getElem?_set_self hdlt, List.take_take])
  simp only [Nat.zero_add] at this
  simp only [vector.copy_elements, this, hrem, List.set_set]
  rw [operator_delete_eq _ d (slotsOf [] cap) (by simp [List.getElem?_set_self hdlt])]
  simp [List.set_set]

/-- Copying more elements than the destination block has slots, when no copy into one of
its slots throws: the next construction is past the end of the block. -/
theorem copy_elements_short (F : Nat → Bool) (xs : List T) (s d cap : Nat)
    (bs : List (Option T)) (hc : cap < xs.length) (hsd : s ≠ d)
    (hbs : ∀ j (hj : j < xs.length), bs[j]? = some (some xs[j])) (w : World T)
    (hs : w.heap[s]? = some (some bs)) (hd : w.heap[d]? = some (some (slotsOf [] cap)))
    (hF : ∀ j, j < cap → F (w.tick + j) = false) :
    vector.copy_elements F (some s) (some d) xs.length w = .ub := by
  have := (copy_elements_loop_short F xs s d cap bs hc hsd hbs xs.length 0 w (by omega)
    (by omega) hs (by simpa using hd)).1 (fun j hj => hF j (by omega))
  simp [vector.copy_elements, this]

end CopyLemmas2
section AllocCopy
variable {T : Type}

theorem set_append_last {α : Type} (h : List α) (b v : α) :
    (h ++ [b]).set h.length v = h ++ [v] := by
  rw [List.set_append_right _ _ (Nat.le_refl _)]; simp

theorem slotsOf_nil (cap : Nat) : slotsOf ([] : List T) cap = List.replicate cap none := by
  simp [slotsOf]

theorem le_mul_bytes [ElemSize T] (n : Nat) : n ≤ n * ElemSize.bytes T :=
  Nat.le_mul_of_pos_right n ElemSize.pos

theorem buffer_bytes_fit [ElemSize T] (n : Nat) (h : n * ElemSize.bytes T < SIZE_MOD) :
    buffer_bytes T n = n * ElemSize.bytes T := by
  rw [buffer_bytes, Nat.mod_eq_of_lt h]

theorem buffer_slots_fit [ElemSize T] (n : Nat) (h : n * ElemSize.bytes T < SIZE_MOD) :
    buffer_slots T n = n := by
  rw [buffer_slots, buffer_bytes_fit n h, slot_count, Nat.mul_div_cancel _ ElemSize.pos]

theorem new_buffer_gen [ElemSize T] (F : Nat → Bool) (n : Nat) (w : World T) (hn : n ≠ 0) :
    vector.new_buffer F n w =
      if F w.tick then .thrown { w with tick := w.tick + 1 }
      else .ok (some w.heap.length)
        ⟨w.heap ++ [some (slotsOf [] (buffer_slots T n))], w.tick + 1,
          w.trace ++ [Event.alloc w.heap.length (buffer_bytes T n)]⟩ := by
  simp only [vector.new_buffer, operator_new, hn, ne_eq, not_false_eq_true, if_true, slotsOf_nil,
    buffer_slots, buffer_bytes]
  by_cases hF : F w.tick = true <;> simp [hF]

theorem new_buffer_eq [ElemSize T] (F : Nat → Bool) (n : Nat) (w : World T) (hn : n ≠ 0)
    (hb : n * ElemSize.bytes T < SIZE_MOD) :
    vector.new_buffer F n w =
      if F w.tick then .thrown { w with tick := w.tick + 1 }
      else .ok (some w.heap.length)
        ⟨w.heap ++ [some (slotsOf [] n)], w.tick + 1,
          w.trace ++ [Event.alloc w.heap.length (n * ElemSize.bytes T)]⟩ := by
  rw [new_buffer_gen F n w hn, buffer_slots_fit n hb, buffer_bytes_fit n hb]

/-- Copying the elements of a stored sequence into a block freshly obtained from
`new_buffer`, when no step throws. -/
theorem fresh_copy_ok (F : Nat → Bool) (xs : List T) (src : Ptr) (cap n b : Nat)
    (h : List (Option (List (Option T))))
    (t : Nat) (tr : List Event) (hS : Stores (⟨h, t, tr⟩ : World T) src cap xs)
    (hc : xs.length ≤ cap) (hn : xs.length ≤ n)
    (hF : ∀ j, j < xs.length → F (t + 1 + j) = false) :
    vector.copy_elements F src (some h.length) xs.length
        ⟨h ++ [some (slotsOf [] n)], t + 1, tr ++ [Event.alloc h.length b]⟩ =
      .ok () ⟨h ++ [some (slotsOf xs n)], t + 1 + xs.length,
        tr ++ (Event.alloc h.length b :: constructs h.length 0 xs.length)⟩ := by
  cases src with
  | none =>
    simp only [Stores] at hS
    have : xs = [] := by
      cases xs with
      | nil => rfl
      | cons x xs => simp at hc; omega
    subst this
    simp [copy_elements_zero, constructs]
  | some s =>
    simp only [Stores] at hS
    have hslt := lt_of_getElem?_some _ _ _ hS.2
    have := copy_elements_ok F xs s h.length n (slotsOf xs cap) hn (by omega)
      (fun j hj => slotsOf_getElem?_lt xs cap j hj)
      ⟨h ++ [some (slotsOf [] n)], t + 1, tr ++ [Event.alloc h.length b]⟩
      (by simpa [List.getElem?_append_left hslt] using hS.2)
      (by simp) hF
    rw [this]
    simp [set_append_last]

/-- The same copy when the element with index `j` is the first whose copy throws; the
block need only have a slot with index `j`. -/
theorem fresh_copy_thrown (F : Nat → Bool) (xs : List T) (src : Ptr) (cap n b : Nat)
    (h : List (Option (List (Option T))))
    (t : Nat) (tr : List Event) (hS : Stores (⟨h, t, tr⟩ : World T) src cap xs)
    (hc : xs.length ≤ cap)
    (j : Nat) (hj : j < xs.length) (hjn : j < n) (hFi : ∀ i, i < j → F (t + 1 + i) = false)
    (hFj : F (t + 1 + j) = true) :
    vector.copy_elements F src (some h.length) xs.length
        ⟨h ++ [some (slotsOf [] n)], t + 1, tr ++ [Event.alloc h.length b]⟩ =
      .thrown ⟨h ++ [none], t + 1 + j + 1,
        tr ++ (Event.alloc h.length b ::
          (constructs h.length 0 j ++ (destroys h.length j ++ [Event.release h.length])))⟩ := by
  cases src with
  | none =>
    simp only [Stores] at hS
    omega
  | some s =>
    simp only [Stores] at hS
    have hslt := lt_of_getElem?_some _ _ _ hS.2
    have := copy_elements_thrown F xs s h.length n (slotsOf xs cap) (by omega)
      (fun j hj => slotsOf_getElem?_lt xs cap j hj)
      ⟨h ++ [some (slotsOf [] n)], t + 1, tr ++ [Event.alloc h.length b]⟩
      (by simpa [List.getElem?_append_left hslt] using hS.2)
      (by simp) j hj hjn hFi hFj
    rw [this]
    simp [set_append_last]

/-- The same copy into a block with fewer slots than there are elements, when no copy
into one of its slots throws: undefined behaviour. -/
theorem fresh_copy_short (F : Nat → Bool) (xs : List T) (src : Ptr) (cap n b : Nat)
    (h : List (Option (List (Option T))))
    (t : Nat) (tr : List Event) (hS : Stores (⟨h, t, tr⟩ : World T) src cap xs)
    (hc : xs.length ≤ cap) (hn : n < xs.length)
    (hF : ∀ j, j < n → F (t + 1 + j) = false) :
    vector.copy_elements F src (some h.length) xs.length
        ⟨h ++ [some (slotsOf [] n)], t + 1, tr ++ [Event.alloc h.length b]⟩ = .ub := by
  cases src with
  | none =>
    simp only [Stores] at hS
    omega
  | some s =>
    simp only [Stores] at hS
    have hslt := lt_of_getElem?_some _ _ _ hS.2
    exact copy_elements_short F xs s h.length n (slotsOf xs cap) hn (by omega)
      (fun j hj => slotsOf_getElem?_lt xs cap j hj)
      ⟨h ++ [some (slotsOf [] n)], t + 1, tr ++ [Event.alloc h.length b]⟩
      (by simpa [List.getElem?_append_left hslt] using hS.2)
      (by simp) hF

end AllocCopy
section CopyCtor
variable {T : Type}

theorem Stores_append (h : List (Option (List (Option T)))) (t t' : Nat) (tr tr' : List Event)
    (l : List (Option (List (Option T)))) (p : Ptr) (cap : Nat) (xs : List T)
    (hS : Stores (⟨h, t, tr⟩ : World T) p cap xs) :
    Stores (⟨h ++ l, t', tr'⟩ : World T) p cap xs := by
  cases p with
  | none => simpa [Stores] using hS
  | some a =>
    simp only [Stores] at hS ⊢
    refine ⟨hS.1, ?_⟩
    rw [List.getElem?_append_left (lt_of_getElem?_some _ _ _ hS.2)]
    exact hS.2

theorem Holds_append [ElemSize T] (v : vector) (h : List (Option (List (Option T)))) (t t' : Nat)
    (tr tr' : List Event) (l : List (Option (List (Option T)))) (xs : List T)
    (hH : v.Holds (⟨h, t, tr⟩ : World T) xs) :
    v.Holds (⟨h ++ l, t', tr'⟩ : World T) xs :=
  ⟨hH.1, hH.2.1, hH.2.2.1, Stores_append h t t' tr tr' l _ _ _ hH.2.2.2⟩

theorem Holds_cap_lt [ElemSize T] (v : vector) (w : World T) (xs : List T) (hH : v.Holds w xs) :
    v.capacity_ < SIZE_MOD :=
  Nat.lt_of_le_of_lt (le_mul_bytes v.capacity_) hH.2.2.1

theorem Holds_len_bytes [ElemSize T] (v : vector) (w : World T) (xs : List T) (hH : v.Holds w xs) :
    xs.length * ElemSize.bytes T < SIZE_MOD :=
  Nat.lt_of_le_of_lt (Nat.mul_le_mul_right _ hH.2.1) hH.2.2.1

theorem vector_copy_nil [ElemSize T] (F : Nat → Bool) (that : vector) (w : World T)
    (h : that.size_ = 0) :
    vector.vector_copy F that w = .ok ⟨none, 0, 0⟩ w := by
  simp [vector.vector_copy, vector.new_buffer, h, copy_elements_zero]

theorem vector_copy_alloc_fail [ElemSize T] (F : Nat → Bool) (that : vector) (w : World T)
    (h : that.size_ ≠ 0) (hF : F w.tick = true) :
    vector.vector_copy F that w = .thrown { w with tick := w.tick + 1 } := by
  simp [vector.vector_copy, new_buffer_gen F _ w h, hF]

theorem vector_copy_ok [ElemSize T] (F : Nat → Bool) (that : vector) (w : World T) (xs : List T)
    (hH : that.Holds w xs) (hne : xs.length ≠ 0)
    (hF : ∀ j, j < xs.length + 1 → F (w.tick + j) = false) :
    vector.vector_copy F that w =
      .ok ⟨some w.heap.length, xs.length, xs.length⟩
        ⟨w.heap ++ [some (slotsOf xs xs.length)], w.tick + 1 + xs.length,
          w.trace ++ (Event.alloc w.heap.length (xs.length * ElemSize.bytes T) ::
            constructs w.heap.length 0 xs.length)⟩ := by
  have hb := Holds_len_bytes that w xs hH
  obtain ⟨h, t, tr⟩ := w
  obtain ⟨hsz, hcap, _, hS⟩ := hH
  have hF0 : F t = false := by simpa using hF 0 (by omega)
  have hcopy := fresh_copy_ok F xs that.data_ that.capacity_ xs.length
    (xs.length * ElemSize.bytes T) h t tr hS hcap
    (Nat.le_refl _) (fun j hj => by have := hF (1 + j) (by omega); simpa [Nat.add_assoc] using this)
  simp only [vector.vector_copy, hsz, new_buffer_eq F _ _ hne hb, hF0, Bool.false_eq_true,
    if_false, hcopy]

theorem vector_copy_thrown [ElemSize T] (F : Nat → Bool) (that : vector) (w : World T) (xs : List T)
    (hH : that.Holds w xs) (j : Nat) (hj : j < xs.length)
    (hFi : ∀ i, i < j + 1 → F (w.tick + i) = false) (hFj : F (w.tick + (j + 1)) = true) :
    vector.vector_copy F that w =
      .thrown ⟨w.heap ++ [none], w.tick + 1 + j + 1,
        w.trace ++ (Event.alloc w.heap.length (xs.length * ElemSize.bytes T) ::
          (constructs w.heap.length 0 j ++
            (destroys w.heap.length j ++ [Event.release w.heap.length])))⟩ := by
  have hb := Holds_len_bytes that w xs hH
  obtain ⟨h, t, tr⟩ := w
  obtain ⟨hsz, hcap, _, hS⟩ := hH
  have hF0 : F t = false := by simpa using hFi 0 (by omega)
  have hne : xs.length ≠ 0 := by omega
  have hcopy := fresh_copy_thrown F xs that.data_ that.capacity_ xs.length
    (xs.length * ElemSize.bytes T) h t tr hS hcap j hj hj
    (fun i hi => by have := hFi (1 + i) (by omega); simpa [Nat.add_assoc] using this)
    (by simpa [Nat.add_assoc, Nat.add_comm 1 j] using hFj)
  simp only [vector.vector_copy, hsz, new_buffer_eq F _ _ hne hb, hF0, Bool.false_eq_true,
    if_false, hcopy]

theorem Holds_fresh [ElemSize T] (xs : List T) (h : List (Option (List (Option T)))) (t : Nat)
    (tr : List Event) (n : Nat) (hn : xs.length ≤ n) (hn0 : 0 < n)
    (hm : n * ElemSize.bytes T < SIZE_MOD) :
    vector.Holds ⟨some h.length, xs.length, n⟩ (⟨h ++ [some (slotsOf xs n)], t, tr⟩ : World T) xs := by
  refine ⟨rfl, hn, hm, ?_⟩
  simp [Stores, hn0]

end CopyCtor
section CopyCtorClaims
variable {T : Type}

theorem Holds_index [ElemSize T] (v : vector) (w : World T) (xs : List T) (hH : v.Holds w xs)
    (i : Nat) (hi : i < xs.length) : v.operator_index w i = some xs[i] := by
  obtain ⟨_, hcap, _, hS⟩ := hH
  cases hd : v.data_ with
  | none => rw [hd] at hS; simp only [Stores] at hS; omega
  | some a =>
    rw [hd] at hS
    simp only [Stores] at hS
    simp only [vector.operator_index, hd]
    exact read_eq w a i _ _ hS.2 (slotsOf_getElem?_lt xs _ i hi)

/-- C4: a copy construction that returns yields a vector of the same length, with capacity
equal to that length, with the same element at every index, and leaves `other` and every
block that existed before untouched; with length `0` it returns the null pointer and the
world is not touched at all.  When no step throws the construction does return. -/
theorem vector_copy_success [ElemSize T] (F : Nat → Bool) (other : vector) (w : World T)
    (xs : List T)
    (hH : other.Holds w xs) :
    (NoFault F → ∃ v w', vector.vector_copy F other w = .ok v w') ∧
    ∀ v w', vector.vector_copy F other w = .ok v w' →
      v.size = other.size ∧ v.capacity = other.size ∧
      (∀ i, i < v.size →
        v.operator_index w' i = other.operator_index w i ∧ v.operator_index w' i = xs[i]?) ∧
      v.Holds w' xs ∧ other.Holds w' xs ∧ (∃ l, w'.heap = w.heap ++ l) ∧
      (other.size = 0 → v.data = none ∧ w' = w) := by
  have hsz := hH.1
  by_cases hne : xs.length = 0
  · have hnil : xs = [] := List.length_eq_zero.mp hne
    have hr := vector_copy_nil F other w (by omega)
    refine ⟨fun _ => ⟨_, _, hr⟩, ?_⟩
    intro v w' hv
    rw [hr] at hv
    injection hv with hv1 hv2
    subst hv1 hv2
    subst hnil
    refine ⟨by simp [vector.size, hsz], by simp [vector.capacity, vector.size, hsz],
      by intro i hi; simp [vector.size] at hi, ?_, hH, ⟨[], by simp⟩, fun _ => ⟨rfl, rfl⟩⟩
    exact ⟨rfl, Nat.le_refl _, by simp [SIZE_MOD], by simp [Stores]⟩
  · have hok : (∀ j, j < xs.length + 1 → F (w.tick + j) = false) →
        ∀ v w', vector.vector_copy F other w = .ok v w' →
          v.size = other.size ∧ v.capacity = other.size ∧
          (∀ i, i < v.size →
            v.operator_index w' i = other.operator_index w i ∧
              v.operator_index w' i = xs[i]?) ∧
          v.Holds w' xs ∧ other.Holds w' xs ∧ (∃ l, w'.heap = w.heap ++ l) ∧
          (other.size = 0 → v.data = none ∧ w' = w) := by
      intro hF v w' hv
      rw [vector_copy_ok F other w xs hH hne hF] at hv
      injection hv with hv1 hv2
      subst hv1 hv2
      have hnew : vector.Holds ⟨some w.heap.length, xs.length, xs.length⟩
          (⟨w.heap ++ [some (slotsOf xs xs.length)], w.tick + 1 + xs.length,
            w.trace ++ (Event.alloc w.heap.length (xs.length * ElemSize.bytes T) ::
              constructs w.heap.length 0 xs.length)⟩ : World T) xs :=
        Holds_fresh xs w.heap _ _ xs.length (Nat.le_refl _) (by omega)
          (Holds_len_bytes other w xs hH)
      refine ⟨by simp [vector.size, hsz], by simp [vector.capacity, vector.size, hsz], ?_, hnew,
        Holds_append other w.heap w.tick _ w.trace _ _ xs hH, ⟨_, rfl⟩,
        fun h0 => by simp [vector.size] at h0; omega⟩
      intro i hi
      simp only [vector.size] at hi
      rw [Holds_index _ _ xs hnew i hi, Holds_index _ _ xs hH i hi]
      simp [List.getElem?_eq_getElem hi]
    constructor
    · intro hNF
      exact ⟨_, _, vector_copy_ok F other w xs hH hne (fun j _ => hNF _)⟩
    · rcases fault_dichotomy F w.tick (xs.length + 1) with hF | ⟨j, hj, hFi, hFj⟩
      · exact hok hF
      · intro v w' hv
        exfalso
        cases j with
        | zero =>
          rw [vector_copy_alloc_fail F other w (by omega) (by simpa using hFj)] at hv
          exact Res.noConfusion hv
        | succ j =>
          rw [vector_copy_thrown F other w xs hH j (by omega) hFi hFj] at hv
          exact Res.noConfusion hv

/-- Witness for C4 on the vector `[1, 2]` with capacity `4`. -/
theorem vector_copy_success_witness :
    vector.Holds ⟨some 0, 2, 4⟩ (⟨[some [some 1, some 2, none, none]], 0, []⟩ : World Nat) [1, 2] ∧
    ∀ v w', vector.vector_copy (fun _ => false) ⟨some 0, 2, 4⟩
        (⟨[some [some 1, some 2, none, none]], 0, []⟩ : World Nat) = .ok v w' →
      v.capacity = 2 :=
  ⟨by decide, fun v w' hv =>
    ((vector_copy_success (fun _ => false) ⟨some 0, 2, 4⟩
      (⟨[some [some 1, some 2, none, none]], 0, []⟩ : World Nat) [1, 2] (by decide)).2 v w' hv).2.1⟩

/-- C3: when the `k`-th element copy (counted from 1) of a copy construction throws, the
construction throws; what happened to memory is exactly: the block was allocated, the
elements `0 … k-2` were constructed in it, they were destroyed in the order `k-2 … 0`, and
the block was released; the source still holds the same elements with the same fields.
The allocation is the fallible step number `w.tick` and the copy of the `i`-th element is
step number `w.tick + i`. -/
theorem vector_copy_kth_throws [ElemSize T] (F : Nat → Bool) (other : vector) (w : World T)
    (xs : List T)
    (hH : other.Holds w xs) (k : Nat) (hk1 : 1 ≤ k) (hk : k ≤ xs.length)
    (hF : ∀ i, i < k → F (w.tick + i) = false) (hFk : F (w.tick + k) = true) :
    ∃ w', vector.vector_copy F other w = .thrown w' ∧
      w'.trace = w.trace ++ (Event.alloc w.heap.length (xs.length * ElemSize.bytes T) ::
        (constructs w.heap.length 0 (k - 1) ++
          (destroys w.heap.length (k - 1) ++ [Event.release w.heap.length]))) ∧
      (destroys w.heap.length (k - 1)).length = k - 1 ∧
      w'.heap = w.heap ++ [none] ∧ other.Holds w' xs := by
  obtain ⟨k, rfl⟩ : ∃ j, k = j + 1 := ⟨k - 1, by omega⟩
  refine ⟨_, vector_copy_thrown F other w xs hH k (by omega) hF hFk, ?_, ?_, ?_, ?_⟩
  · simp
  · simp [destroys]
  · rfl
  · exact Holds_append other w.heap w.tick _ w.trace _ _ xs hH

/-- Witness for C3: the third copy of `[1, 2, 3]` throws. -/
theorem vector_copy_kth_throws_witness :
    ∃ w', vector.vector_copy (fun t => t == 3) ⟨some 0, 3, 4⟩
        (⟨[some [some 1, some 2, some 3, none]], 0, []⟩ : World Nat) = .thrown w' ∧
      w'.trace = [Event.alloc 1 12, Event.construct 1 0, Event.construct 1 1,
        Event.destroy 1 1, Event.destroy 1 0, Event.release 1] := by
  obtain ⟨w', h1, h2, _⟩ := vector_copy_kth_throws (fun t => t == 3) ⟨some 0, 3, 4⟩
    (⟨[some [some 1, some 2, some 3, none]], 0, []⟩ : World Nat) [1, 2, 3] (by decide) 3
    (by decide) (by decide) (by decide) (by decide)
  exact ⟨w', h1, by rw [h2]; decide⟩

end CopyCtorClaims
section Reserve
variable {T : Type}

theorem freeBlock_length (h : List (Option (List (Option T)))) (p : Ptr) :
    (freeBlock h p).length = h.length := by
  cases p <;> simp [freeBlock]

/-- Destroying every element of a stored sequence and releasing its block. -/
theorem remove_and_delete (xs : List T) (p : Ptr) (cap : Nat)
    (h l : List (Option (List (Option T)))) (t : Nat) (tr : List Event)
    (hc : xs.length ≤ cap) (hS : Stores (⟨h, t, tr⟩ : World T) p cap xs) :
    ∃ w3, vector.remove_elements p xs.length (⟨h ++ l, t, tr⟩ : World T) = some w3 ∧
      operator_delete p w3 =
        some ⟨freeBlock h p ++ l, t, tr ++ (destroysP p xs.length ++ releaseP p)⟩ := by
  cases p with
  | none =>
    simp only [Stores] at hS
    have : xs = [] := by
      cases xs with
      | nil => rfl
      | cons x xs => simp at hc; omega
    subst this
    exact ⟨_, rfl, by simp [operator_delete, freeBlock, destroysP, releaseP]⟩
  | some a =>
    simp only [Stores] at hS
    have halt := lt_of_getElem?_some _ _ _ hS.2
    have hrem := remove_elements_spec xs a cap hc xs.length (⟨h ++ l, t, tr⟩ : World T)
      (Nat.le_refl _) (by simpa [List.getElem?_append_left halt] using hS.2)
    refine ⟨_, hrem, ?_⟩
    rw [operator_delete_eq _ a (slotsOf [] cap)
      (by simp [List.getElem?_set_self (show a < (h ++ l).length by simp; omega)])]
    have halt2 : a < (h.set a (some (slotsOf ([] : List T) cap))).length := by simpa using halt
    simp [List.set_set, freeBlock, destroysP, releaseP, List.set_append_left _ _ halt,
      List.set_append_left _ _ halt2]

theorem reserve_noop [ElemSize T] (F : Nat → Bool) (v : vector) (s : Nat) (w : World T)
    (h : s ≤ v.capacity_) : v.reserve F s w = .ok () (v, w) := by
  simp [vector.reserve, Nat.not_lt.mpr h]

theorem reserve_alloc_fail [ElemSize T] (F : Nat → Bool) (v : vector) (s : Nat) (w : World T)
    (h : v.capacity_ < s) (hF : F w.tick = true) :
    v.reserve F s w = .thrown (v, { w with tick := w.tick + 1 }) := by
  simp [vector.reserve, h, new_buffer_gen F s w (by omega), hF]

/-- A growing `reserve` when no step throws and the block obtained has room for the
elements, whatever the byte count came to. -/
theorem reserve_ok_gen [ElemSize T] (F : Nat → Bool) (v : vector) (s : Nat) (w : World T)
    (xs : List T)
    (hH : v.Holds w xs) (h : v.capacity_ < s) (hm : xs.length ≤ buffer_slots T s)
    (hF : ∀ j, j < xs.length + 1 → F (w.tick + j) = false) :
    v.reserve F s w =
      .ok () (⟨some w.heap.length, v.size_, s⟩,
        ⟨freeBlock w.heap v.data_ ++ [some (slotsOf xs (buffer_slots T s))],
          w.tick + 1 + xs.length,
          w.trace ++ (Event.alloc w.heap.length (buffer_bytes T s) ::
            constructs w.heap.length 0 xs.length ++
            (destroysP v.data_ xs.length ++ releaseP v.data_))⟩) := by
  obtain ⟨hp, t, tr⟩ := w
  obtain ⟨hsz, hcap, _, hS⟩ := hH
  have hF0 : F t = false := by simpa using hF 0 (by omega)
  have hcopy := fresh_copy_ok F xs v.data_ v.capacity_ (buffer_slots T s) (buffer_bytes T s)
    hp t tr hS hcap hm
    (fun j hj => by have := hF (1 + j) (by omega); simpa [Nat.add_assoc] using this)
  obtain ⟨w3, hrem, hdel⟩ := remove_and_delete xs v.data_ v.capacity_ hp
    [some (slotsOf xs (buffer_slots T s))]
    (t + 1 + xs.length)
    (tr ++ (Event.alloc hp.length (buffer_bytes T s) :: constructs hp.length 0 xs.length))
    hcap (by cases hd : v.data_ <;> simpa [Stores, hd] using hS)
  simp only [vector.reserve, h, if_true, gt_iff_lt, new_buffer_gen F s _ (show s ≠ 0 by omega),
    hF0, Bool.false_eq_true, if_false, hsz, hcopy, hrem, hdel]
  simp

/-- A growing `reserve` when the copy of the element with index `j` is the first step to
throw and the block obtained has a slot with index `j`. -/
theorem reserve_thrown_gen [ElemSize T] (F : Nat → Bool) (v : vector) (s : Nat) (w : World T)
    (xs : List T)
    (hH : v.Holds w xs) (h : v.capacity_ < s) (j : Nat) (hj : j < xs.length)
    (hjm : j < buffer_slots T s)
    (hFi : ∀ i, i < j + 1 → F (w.tick + i) = false) (hFj : F (w.tick + (j + 1)) = true) :
    v.reserve F s w =
      .thrown (v, ⟨w.heap ++ [none], w.tick + 1 + j + 1,
        w.trace ++ (Event.alloc w.heap.length (buffer_bytes T s) ::
          (constructs w.heap.length 0 j ++
            (destroys w.heap.length j ++ [Event.release w.heap.length])))⟩) := by
  obtain ⟨hp, t, tr⟩ := w
  obtain ⟨hsz, hcap, _, hS⟩ := hH
  have hF0 : F t = false := by simpa using hFi 0 (by omega)
  have hcopy := fresh_copy_thrown F xs v.data_ v.capacity_ (buffer_slots T s)
    (buffer_bytes T s) hp t tr hS hcap j hj hjm
    (fun i hi => by have := hFi (1 + i) (by omega); simpa [Nat.add_assoc] using this)
    (by simpa [Nat.add_assoc, Nat.add_comm 1 j] using hFj)
  simp only [vector.reserve, h, if_true, gt_iff_lt, new_buffer_gen F s _ (show s ≠ 0 by omega),
    hF0, Bool.false_eq_true, if_false, hsz, hcopy]

/-- A growing `reserve` whose byte count wrapped around to a block with fewer slots than
there are elements, when neither the allocation nor a copy into one of the slots throws:
the next element is built past the end of the block. -/
theorem reserve_short [ElemSize T] (F : Nat → Bool) (v : vector) (s : Nat) (w : World T)
    (xs : List T)
    (hH : v.Holds w xs) (h : v.capacity_ < s) (hm : buffer_slots T s < xs.length)
    (hF : ∀ j, j < buffer_slots T s + 1 → F (w.tick + j) = false) :
    v.reserve F s w = .ub := by
  obtain ⟨hp, t, tr⟩ := w
  obtain ⟨hsz, hcap, _, hS⟩ := hH
  have hF0 : F t = false := by simpa using hF 0 (by omega)
  have hcopy := fresh_copy_short F xs v.data_ v.capacity_ (buffer_slots T s)
    (buffer_bytes T s) hp t tr hS hcap hm
    (fun j hj => by have := hF (1 + j) (by omega); simpa [Nat.add_assoc] using this)
  simp only [vector.reserve, h, if_true, gt_iff_lt, new_buffer_gen F s _ (show s ≠ 0 by omega),
    hF0, Bool.false_eq_true, if_false, hsz, hcopy]

theorem reserve_ok [ElemSize T] (F : Nat → Bool) (v : vector) (s : Nat) (w : World T) (xs : List T)
    (hH : v.Holds w xs) (h : v.capacity_ < s) (hb : s * ElemSize.bytes T < SIZE_MOD)
    (hF : ∀ j, j < xs.length + 1 → F (w.tick + j) = false) :
    v.reserve F s w =
      .ok () (⟨some w.heap.length, v.size_, s⟩,
        ⟨freeBlock w.heap v.data_ ++ [some (slotsOf xs s)], w.tick + 1 + xs.length,
          w.trace ++ (Event.alloc w.heap.length (s * ElemSize.bytes T) ::
            constructs w.heap.length 0 xs.length ++
            (destroysP v.data_ xs.length ++ releaseP v.data_))⟩) := by
  have := reserve_ok_gen F v s w xs hH h
    (by rw [buffer_slots_fit s hb]; have := hH.2.1; omega) hF
  rw [buffer_slots_fit s hb, buffer_bytes_fit s hb] at this
  exact this

theorem reserve_thrown [ElemSize T] (F : Nat → Bool) (v : vector) (s : Nat) (w : World T)
    (xs : List T)
    (hH : v.Holds w xs) (h : v.capacity_ < s) (hb : s * ElemSize.bytes T < SIZE_MOD)
    (j : Nat) (hj : j < xs.length)
    (hFi : ∀ i, i < j + 1 → F (w.tick + i) = false) (hFj : F (w.tick + (j + 1)) = true) :
    v.reserve F s w =
      .thrown (v, ⟨w.heap ++ [none], w.tick + 1 + j + 1,
        w.trace ++ (Event.alloc w.heap.length (s * ElemSize.bytes T) ::
          (constructs w.heap.length 0 j ++
            (destroys w.heap.length j ++ [Event.release w.heap.length])))⟩) := by
  have := reserve_thrown_gen F v s w xs hH h j hj
    (by rw [buffer_slots_fit s hb]; have := hH.2.1; omega) hFi hFj
  rw [buffer_bytes_fit s hb] at this
  exact this

theorem Holds_after_reserve [ElemSize T] (v : vector) (s : Nat) (w : World T) (xs : List T)
    (hH : v.Holds w xs) (h : v.capacity_ < s) (hs : s * ElemSize.bytes T < SIZE_MOD)
    (t : Nat) (tr : List Event) :
    vector.Holds ⟨some w.heap.length, v.size_, s⟩
      (⟨freeBlock w.heap v.data_ ++ [some (slotsOf xs s)], t, tr⟩ : World T) xs := by
  have := Holds_fresh xs (freeBlock w.heap v.data_) t tr s (by have := hH.2.1; omega) (by omega) hs
  rw [freeBlock_length] at this
  rw [hH.1]
  exact this

/-- What a returning `reserve` did: nothing, or a move into a fresh block that has room
for the elements. -/
theorem reserve_ok_inv [ElemSize T] (F : Nat → Bool) (v : vector) (s : Nat) (w : World T)
    (xs : List T)
    (hH : v.Holds w xs) (v' : vector) (w' : World T)
    (hr : v.reserve F s w = .ok () (v', w')) :
    (s ≤ v.capacity_ ∧ v' = v ∧ w' = w) ∨
    (v.capacity_ < s ∧ xs.length ≤ buffer_slots T s ∧
      (∀ j, j < xs.length + 1 → F (w.tick + j) = false) ∧
      v' = ⟨some w.heap.length, v.size_, s⟩ ∧
      w' = ⟨freeBlock w.heap v.data_ ++ [some (slotsOf xs (buffer_slots T s))],
          w.tick + 1 + xs.length,
          w.trace ++ (Event.alloc w.heap.length (buffer_bytes T s) ::
            constructs w.heap.length 0 xs.length ++
            (destroysP v.data_ xs.length ++ releaseP v.data_))⟩) := by
  by_cases hle : s ≤ v.capacity_
  · left
    rw [reserve_noop F v s w hle] at hr
    injection hr with _ hr
    injection hr with hv1 hv2
    exact ⟨hle, hv1.symm, hv2.symm⟩
  · right
    have hlt : v.capacity_ < s := by omega
    by_cases hm : xs.length ≤ buffer_slots T s
    · rcases fault_dichotomy F w.tick (xs.length + 1) with hF | ⟨j, hj, hFi, hFj⟩
      · rw [reserve_ok_gen F v s w xs hH hlt hm hF] at hr
        injection hr with _ hr
        injection hr with hv1 hv2
        exact ⟨hlt, hm, hF, hv1.symm, hv2.symm⟩
      · exfalso
        cases j with
        | zero =>
          rw [reserve_alloc_fail F v s w hlt (by simpa using hFj)] at hr
          exact Res.noConfusion hr
        | succ j =>
          rw [reserve_thrown_gen F v s w xs hH hlt j (by omega) (by omega) hFi hFj] at hr
          exact Res.noConfusion hr
    · exfalso
      rcases fault_dichotomy F w.tick (buffer_slots T s + 1) with hF | ⟨j, hj, hFi, hFj⟩
      · rw [reserve_short F v s w xs hH hlt (by omega) hF] at hr
        exact Res.noConfusion hr
      · cases j with
        | zero =>
          rw [reserve_alloc_fail F v s w hlt (by simpa using hFj)] at hr
          exact Res.noConfusion hr
        | succ j =>
          rw [reserve_thrown_gen F v s w xs hH hlt j (by omega) (by omega) hFi hFj] at hr
          exact Res.noConfusion hr

/-- What a throwing `reserve` left behind: the same vector and every old block. -/
theorem reserve_thrown_inv [ElemSize T] (F : Nat → Bool) (v : vector) (s : Nat) (w : World T)
    (xs : List T)
    (hH : v.Holds w xs) (v' : vector) (w' : World T)
    (hr : v.reserve F s w = .thrown (v', w')) :
    v' = v ∧ ∃ l, w'.heap = w.heap ++ l := by
  have key : ∀ (l : List (Option (List (Option T)))) (t : Nat) (tr : List Event),
      v.reserve F s w = .thrown (v, ⟨w.heap ++ l, t, tr⟩) →
      v' = v ∧ ∃ l, w'.heap = w.heap ++ l := by
    intro l t tr h
    rw [h] at hr
    injection hr with hr
    injection hr with hv1 hv2
    subst hv1 hv2
    exact ⟨rfl, l, rfl⟩
  by_cases hle : s ≤ v.capacity_
  · rw [reserve_noop F v s w hle] at hr
    exact Res.noConfusion hr
  · have hlt : v.capacity_ < s := by omega
    by_cases hm : xs.length ≤ buffer_slots T s
    · rcases fault_dichotomy F w.tick (xs.length + 1) with hF | ⟨j, hj, hFi, hFj⟩
      · rw [reserve_ok_gen F v s w xs hH hlt hm hF] at hr
        exact Res.noConfusion hr
      · cases j with
        | zero =>
          exact key [] _ _ (by simpa using reserve_alloc_fail F v s w hlt (by simpa using hFj))
        | succ j =>
          exact key [none] _ _
            (reserve_thrown_gen F v s w xs hH hlt j (by omega) (by omega) hFi hFj)
    · rcases fault_dichotomy F w.tick (buffer_slots T s + 1) with hF | ⟨j, hj, hFi, hFj⟩
      · rw [reserve_short F v s w xs hH hlt (by omega) hF] at hr
        exact Res.noConfusion hr
      · cases j with
        | zero =>
          exact key [] _ _ (by simpa using reserve_alloc_fail F v s w hlt (by simpa using hFj))
        | succ j =>
          exact key [none] _ _
            (reserve_thrown_gen F v s w xs hH hlt j (by omega) (by omega) hFi hFj)

end Reserve
section ReserveClaims
variable {T : Type}

theorem read_fresh (xs : List T) (h : List (Option (List (Option T)))) (t : Nat)
    (tr : List Event) (c i : Nat) (hi : i < xs.length) :
    (⟨h ++ [some (slotsOf xs c)], t, tr⟩ : World T).read (some h.length) i = some xs[i] :=
  read_eq _ _ _ _ _ (by simp) (slotsOf_getElem?_lt xs c i hi)

/-- C8: a `reserve (n)` that returns keeps the length and the elements, and the capacity
becomes `n` when `n` exceeds it and stays as it was otherwise, that is `max capacity n`;
the vector is well formed again, on a block of `n` slots, when `n * sizeof (T)` is in the
range of `size_t`.  When no step throws, `reserve` does return if `n` is at most the
capacity or `n * sizeof (T)` is in the range of `size_t` or, the product having wrapped
around, the block obtained still has a slot for every element. -/
theorem reserve_success [ElemSize T] (F : Nat → Bool) (v : vector) (n : Nat) (w : World T)
    (xs : List T)
    (hH : v.Holds w xs) :
    (NoFault F →
      (n ≤ v.capacity ∨ n * ElemSize.bytes T < SIZE_MOD ∨ xs.length ≤ buffer_slots T n) →
      ∃ v' w', v.reserve F n w = .ok () (v', w')) ∧
    ∀ v' w', v.reserve F n w = .ok () (v', w') →
      v'.size = v.size ∧
      (∀ i, i < v.size →
        v'.operator_index w' i = v.operator_index w i ∧ v'.operator_index w' i = xs[i]?) ∧
      v'.capacity = max v.capacity n ∧
      (v.capacity < n → v'.capacity = n) ∧ (n ≤ v.capacity → v'.capacity = v.capacity) ∧
      (n ≤ v.capacity ∨ n * ElemSize.bytes T < SIZE_MOD → v'.Holds w' xs) := by
  constructor
  · intro hNF hroom
    by_cases hle : n ≤ v.capacity_
    · exact ⟨_, _, reserve_noop F v n w hle⟩
    · have hm : xs.length ≤ buffer_slots T n := by
        rcases hroom with h | h | h
        · exact absurd h hle
        · rw [buffer_slots_fit n h]; have := hH.2.1; omega
        · exact h
      exact ⟨_, _, reserve_ok_gen F v n w xs hH (by omega) hm (fun j _ => hNF _)⟩
  · intro v' w' hv
    rcases reserve_ok_inv F v n w xs hH v' w' hv with ⟨hle, h1, h2⟩ | ⟨hlt, hm, _, h1, h2⟩
    · subst h1 h2
      refine ⟨rfl, ?_, by simp [vector.capacity, hle],
        fun h => by simp [vector.capacity] at h; omega, fun _ => rfl, fun _ => hH⟩
      intro i hi
      have hi' : i < xs.length := by simp only [vector.size, hH.1] at hi; exact hi
      exact ⟨rfl, by rw [Holds_index _ _ xs hH i hi', List.getElem?_eq_getElem hi']⟩
    · subst h1 h2
      refine ⟨rfl, ?_, by simp [vector.capacity]; omega, fun _ => rfl,
        fun h => by simp [vector.capacity] at h; omega, ?_⟩
      · intro i hi
        have hi' : i < xs.length := by simp only [vector.size, hH.1] at hi; exact hi
        have hrd := read_fresh xs (freeBlock w.heap v.data_) (w.tick + 1 + xs.length)
          (w.trace ++ (Event.alloc w.heap.length (buffer_bytes T n) ::
            constructs w.heap.length 0 xs.length ++
            (destroysP v.data_ xs.length ++ releaseP v.data_))) (buffer_slots T n) i hi'
        rw [freeBlock_length] at hrd
        rw [Holds_index _ _ xs hH i hi', List.getElem?_eq_getElem hi']
        exact ⟨hrd, hrd⟩
      · intro hfit
        have hb : n * ElemSize.bytes T < SIZE_MOD := by
          rcases hfit with h | h
          · simp only [vector.capacity] at h; omega
          · exact h
        rw [buffer_slots_fit n hb]
        exact Holds_after_reserve v n w xs hH hlt hb _ _

/-- Witness for C8: growing `[1, 2]` from capacity `2` to capacity `5`. -/
theorem reserve_success_witness :
    vector.Holds ⟨some 0, 2, 2⟩ (⟨[some [some 1, some 2]], 0, []⟩ : World Nat) [1, 2] ∧
    ∀ v' w', vector.reserve (fun _ => false) ⟨some 0, 2, 2⟩ 5
        (⟨[some [some 1, some 2]], 0, []⟩ : World Nat) = .ok () (v', w') →
      v'.capacity = 5 ∧ v'.Holds w' [1, 2] :=
  ⟨by decide, fun v' w' hv =>
    have h := (reserve_success (fun _ => false) ⟨some 0, 2, 2⟩ 5
      (⟨[some [some 1, some 2]], 0, []⟩ : World Nat) [1, 2] (by decide)).2 v' w' hv
    ⟨h.2.2.2.1 (by decide), h.2.2.2.2.2 (Or.inr (by decide))⟩⟩

/-- C9: `reserve (n)` is not strong for every `n` above the capacity.  On `[1, 2, 3]` with
elements of four bytes, `reserve (2 ^ 62 + 1)` asks `operator new` for
`(2 ^ 62 + 1) * 4 mod 2 ^ 64 = 4` bytes, a block of one slot; the element with index `0`
is copied into it and the element with index `1` is built past its end, which is undefined
behaviour, before the copy of the element with index `2`, which was to throw, is reached.
With the same throwing copy, `reserve (6)` rolls back as the claim says. -/
theorem reserve_strong_lost_on_wrapped_byte_count :
    vector.Holds ⟨some 0, 3, 3⟩ (⟨[some [some 1, some 2, some 3]], 0, []⟩ : World Nat)
      [1, 2, 3] ∧
    buffer_bytes Nat (2 ^ 62 + 1) = 4 ∧ buffer_slots Nat (2 ^ 62 + 1) = 1 ∧
    vector.reserve (fun t => t == 3) ⟨some 0, 3, 3⟩ (2 ^ 62 + 1)
        (⟨[some [some 1, some 2, some 3]], 0, []⟩ : World Nat) = .ub ∧
    vector.reserve (fun t => t == 3) ⟨some 0, 3, 3⟩ 6
        (⟨[some [some 1, some 2, some 3]], 0, []⟩ : World Nat) =
      .thrown (⟨some 0, 3, 3⟩, ⟨[some [some 1, some 2, some 3], none], 4,
        [Event.alloc 1 24, Event.construct 1 0, Event.construct 1 1,
          Event.destroy 1 1, Event.destroy 1 0, Event.release 1]⟩) := by
  decide

/-- C10: `reserve (n)` with `n` at most the capacity returns and touches nothing: the
vector, hence the address given by `data ()`, and the whole world are as before. -/
theorem reserve_no_reallocation [ElemSize T] (F : Nat → Bool) (v : vector) (n : Nat) (w : World T)
    (hn : n ≤ v.capacity) :
    v.reserve F n w = .ok () (v, w) ∧
    ∀ v' w', v.reserve F n w = .ok () (v', w') → v'.data = v.data ∧ v' = v ∧ w' = w := by
  have hr := reserve_noop F v n w hn
  refine ⟨hr, ?_⟩
  intro v' w' hv
  rw [hr] at hv
  injection hv with _ hv
  injection hv with hv1 hv2
  subst hv1 hv2
  exact ⟨rfl, rfl, rfl⟩

/-- Witness for C10: `reserve (3)` on a vector of capacity `4`. -/
theorem reserve_no_reallocation_witness :
    vector.reserve (fun _ => true) ⟨some 0, 2, 4⟩ 3
        (⟨[some [some 1, some 2, none, none]], 0, []⟩ : World Nat) =
      .ok () (⟨some 0, 2, 4⟩, ⟨[some [some 1, some 2, none, none]], 0, []⟩) :=
  (reserve_no_reallocation (fun _ => true) ⟨some 0, 2, 4⟩ 3
    (⟨[some [some 1, some 2, none, none]], 0, []⟩ : World Nat) (by decide)).1

end ReserveClaims
section PushBack
variable {T : Type}

theorem Holds_of_heap_eq [ElemSize T] (v : vector) (w w' : World T) (xs : List T)
    (hH : v.Holds w xs)
    (h : w'.heap = w.heap) : v.Holds w' xs := by
  obtain ⟨h1, h2, h3, h4⟩ := hH
  refine ⟨h1, h2, h3, ?_⟩
  cases hd : v.data_ with
  | none => rw [hd] at h4; simpa [Stores] using h4
  | some a => rw [hd] at h4; simpa [Stores, h] using h4

/-- The capacity `ensure_capacity` asks for when the vector is full: when it exceeds the
capacity and the block obtained has more slots than the capacity, neither the doubling
nor the byte count wrapped around. -/
theorem grow_target_eq [ElemSize T] (c : Nat) (hc : c * ElemSize.bytes T < SIZE_MOD)
    (h : c < (if c = 0 then 1 else 2 * c % SIZE_MOD))
    (hm : c < buffer_slots T (if c = 0 then 1 else 2 * c % SIZE_MOD)) :
    (if c = 0 then 1 else 2 * c % SIZE_MOD) = (if c = 0 then 1 else 2 * c) ∧
      (c = 0 ∨ 2 * c < SIZE_MOD) ∧
      (if c = 0 then 1 else 2 * c) * ElemSize.bytes T < SIZE_MOD := by
  by_cases h0 : c = 0
  · simp only [h0, if_true, true_or, true_and, Nat.one_mul]
    exact ElemSize.lt
  · simp only [h0, if_false] at h hm ⊢
    have hlt : c < SIZE_MOD := Nat.lt_of_le_of_lt (le_mul_bytes c) hc
    have h2 : 2 * c < SIZE_MOD := by
      by_contra hcon
      have h3 : 2 * c % SIZE_MOD = 2 * c - SIZE_MOD := by
        rw [Nat.mod_eq_sub_mod (by omega), Nat.mod_eq_of_lt (by omega)]
      omega
    rw [Nat.mod_eq_of_lt h2] at hm
    refine ⟨Nat.mod_eq_of_lt h2, Or.inr h2, ?_⟩
    by_contra hcon
    have e : 2 * c * ElemSize.bytes T = 2 * (c * ElemSize.bytes T) := Nat.mul_assoc _ _ _
    have h3 : 2 * c * ElemSize.bytes T % SIZE_MOD = 2 * c * ElemSize.bytes T - SIZE_MOD := by
      rw [Nat.mod_eq_sub_mod (by omega), Nat.mod_eq_of_lt (by omega)]
    have h4 : buffer_slots T (2 * c) < c := by
      rw [buffer_slots, buffer_bytes, h3, slot_count]
      apply Nat.div_lt_of_lt_mul
      rw [Nat.mul_comm (ElemSize.bytes T) c, e]
      omega
    omega

/-- `push_back` into spare capacity: one construction in place. -/
theorem push_back_room [ElemSize T] (F : Nat → Bool) (v : vector) (x : T) (w : World T)
    (xs : List T)
    (hH : v.Holds w xs) (hlt : v.size_ < v.capacity_) :
    ∃ a, v.data_ = some a ∧
      v.push_back F x w =
        if F w.tick then .thrown (v, ⟨w.heap, w.tick + 1, w.trace⟩)
        else .ok () (⟨some a, v.size_ + 1, v.capacity_⟩,
          ⟨w.heap.set a (some (slotsOf (xs ++ [x]) v.capacity_)), w.tick + 1,
            w.trace ++ [Event.construct a v.size_]⟩) := by
  have hcl := Holds_cap_lt v w xs hH
  obtain ⟨hsz, hcap, hmod, hS⟩ := hH
  cases hd : v.data_ with
  | none => rw [hd] at hS; simp only [Stores] at hS; omega
  | some a =>
    rw [hd] at hS
    simp only [Stores] at hS
    refine ⟨a, rfl, ?_⟩
    have hcon := construct_at_eq F w a v.size_ x _ hS.2
      (by rw [slotsOf_length _ _ hcap]; exact hlt)
    have hpush := slotsOf_set_push xs v.capacity_ x (by omega)
    rw [← hsz] at hpush
    rw [hpush] at hcon
    have hne : v.size_ ≠ v.capacity_ := by omega
    have hm : (v.size_ + 1) % SIZE_MOD = v.size_ + 1 := Nat.mod_eq_of_lt (by omega)
    simp only [vector.push_back, hne, if_false, hd, hcon, hm]
    by_cases hF : F w.tick = true <;> simp [hF, hd]

end PushBack
section PushBack2
variable {T : Type}

/-- Constructing one more element in a block that was just filled by `reserve`. -/
theorem construct_after_reserve (F : Nat → Bool) (xs : List T) (x : T)
    (h : List (Option (List (Option T)))) (c t : Nat) (tr : List Event) (hc : xs.length < c) :
    construct_at F (some h.length) xs.length x (⟨h ++ [some (slotsOf xs c)], t, tr⟩ : World T) =
      if F t then .thrown ⟨h ++ [some (slotsOf xs c)], t + 1, tr⟩
      else .ok () ⟨h ++ [some (slotsOf (xs ++ [x]) c)], t + 1,
        tr ++ [Event.construct h.length xs.length]⟩ := by
  have hcon := construct_at_eq F (⟨h ++ [some (slotsOf xs c)], t, tr⟩ : World T) h.length
    xs.length x (slotsOf xs c) (by simp) (by rw [slotsOf_length _ _ (by omega)]; exact hc)
  rw [hcon, slotsOf_set_push xs c x hc]
  simp [set_append_last]

/-- A `push_back` on a full vector that must not grow (the doubled capacity wrapped
around) writes past the end of its block. -/
theorem construct_at_full_ub [ElemSize T] (F : Nat → Bool) (v : vector) (x : T) (w : World T)
    (xs : List T)
    (hH : v.Holds w xs) (hfull : v.size_ = v.capacity_) :
    construct_at F v.data_ v.size_ x w = .ub := by
  obtain ⟨hsz, hcap, hmod, hS⟩ := hH
  cases hd : v.data_ with
  | none => simp [construct_at]
  | some a =>
    rw [hd] at hS
    simp only [Stores] at hS
    simp [construct_at, World.block, hS.2, slotsOf_length _ _ hcap, hfull]

/-- What a returning `push_back` did. -/
theorem push_back_ok_inv [ElemSize T] (F : Nat → Bool) (v : vector) (x : T) (w : World T)
    (xs : List T)
    (hH : v.Holds w xs) (v' : vector) (w' : World T)
    (hr : v.push_back F x w = .ok () (v', w')) :
    v'.Holds w' (xs ++ [x]) ∧ v'.size_ = v.size_ + 1 ∧
    ((v.size_ < v.capacity_ ∧ v'.data_ = v.data_ ∧ v'.capacity_ = v.capacity_) ∨
     (v.size_ = v.capacity_ ∧ (v.capacity_ = 0 ∨ 2 * v.capacity_ < SIZE_MOD) ∧
       v'.capacity_ = (if v.capacity_ = 0 then 1 else 2 * v.capacity_) ∧
       v'.data_ = some w.heap.length)) := by
  have hsz := hH.1
  have hcap := hH.2.1
  have hmod := hH.2.2.1
  by_cases hfull : v.size_ = v.capacity_
  · simp only [vector.push_back, hfull, if_true, copy_temp] at hr
    by_cases hF0 : F w.tick = true
    · simp [hF0] at hr
    · simp only [hF0, Bool.false_eq_true, if_false] at hr
      have hH1 : v.Holds (⟨w.heap, w.tick + 1, w.trace⟩ : World T) xs :=
        Holds_of_heap_eq v w _ xs hH rfl
      cases he : v.ensure_capacity F (⟨w.heap, w.tick + 1, w.trace⟩ : World T) with
      | ub => rw [he] at hr; exact Res.noConfusion hr
      | thrown s => rw [he] at hr; exact Res.noConfusion hr
      | ok u s =>
        obtain ⟨v1, w2⟩ := s
        rw [he] at hr
        simp only at hr
        simp only [vector.ensure_capacity, hfull, if_true] at he
        rcases reserve_ok_inv F v _ _ xs hH1 v1 w2 he with
          ⟨_, hv1, hw2⟩ | ⟨hlt, hm, _, hv1, hw2⟩
        · rw [hv1, hw2, construct_at_full_ub F v x _ xs hH1 hfull] at hr
          exact Res.noConfusion hr
        · by_cases hshort : buffer_slots T
              (if v.capacity_ = 0 then 1 else 2 * v.capacity_ % SIZE_MOD) ≤ xs.length
          · exfalso
            rw [hv1, hw2] at hr
            simp only [hsz] at hr
            rw [construct_at_past_end F _ w.heap.length xs.length x
              (slotsOf xs (buffer_slots T
                (if v.capacity_ = 0 then 1 else 2 * v.capacity_ % SIZE_MOD)))
              (by
                have := freeBlock_length w.heap v.data_
                simp [← this])
              (by rw [slotsOf_length _ _ hm]; exact hshort)] at hr
            exact Res.noConfusion hr
          obtain ⟨htarget, hno, hfit⟩ := grow_target_eq v.capacity_ hmod hlt (by omega)
          rw [htarget] at hv1 hw2 hlt
          rw [buffer_slots_fit _ hfit, buffer_bytes_fit _ hfit] at hw2
          have hlt2 : xs.length < (if v.capacity_ = 0 then 1 else 2 * v.capacity_) := by omega
          have hbound := hfit
          subst hv1 hw2
          simp only [hsz] at hr
          have hcon := construct_after_reserve F xs x (freeBlock w.heap v.data_)
            (if v.capacity_ = 0 then 1 else 2 * v.capacity_) (w.tick + 1 + 1 + xs.length)
            (w.trace ++ (Event.alloc w.heap.length
              ((if v.capacity_ = 0 then 1 else 2 * v.capacity_) * ElemSize.bytes T)
              :: constructs w.heap.length 0 xs.length ++
                (destroysP v.data_ xs.length ++ releaseP v.data_))) hlt2
          rw [freeBlock_length] at hcon
          rw [hcon] at hr
          by_cases hF2 : F (w.tick + 1 + 1 + xs.length) = true
          · simp [hF2] at hr
          · simp only [hF2, Bool.false_eq_true, if_false] at hr
            injection hr with _ hr
            injection hr with hv hw
            subst hv hw
            have hm : (xs.length + 1) % SIZE_MOD = xs.length + 1 :=
              Nat.mod_eq_of_lt (by have := Nat.lt_of_le_of_lt (le_mul_bytes _) hfit; omega)
            refine ⟨?_, by simp [hm, hsz], Or.inr ⟨hfull, hno, rfl, rfl⟩⟩
            have := Holds_fresh (xs ++ [x]) (freeBlock w.heap v.data_)
              (w.tick + 1 + 1 + xs.length + 1)
              (w.trace ++ (Event.alloc w.heap.length
                ((if v.capacity_ = 0 then 1 else 2 * v.capacity_) * ElemSize.bytes T)
                :: constructs w.heap.length 0 xs.length ++
                  (destroysP v.data_ xs.length ++ releaseP v.data_)) ++
                [Event.construct w.heap.length xs.length])
              (if v.capacity_ = 0 then 1 else 2 * v.capacity_) (by simp; omega) (by omega) hbound
            rw [freeBlock_length] at this
            simpa [hm] using this
  · have hlt : v.size_ < v.capacity_ := by omega
    obtain ⟨a, hd, he⟩ := push_back_room F v x w xs hH hlt
    rw [he] at hr
    by_cases hF0 : F w.tick = true
    · simp [hF0] at hr
    · simp only [hF0, Bool.false_eq_true, if_false] at hr
      injection hr with _ hr
      injection hr with hv hw
      subst hv hw
      refine ⟨⟨by simp [hsz], by simp; omega, hmod, ?_⟩, rfl, Or.inl ⟨hlt, hd.symm, rfl⟩⟩
      have hS := hH.2.2.2
      rw [hd] at hS
      simp only [Stores] at hS ⊢
      exact ⟨hS.1, by simp [List.getElem?_set_self (lt_of_getElem?_some _ _ _ hS.2)]⟩

end PushBack2
section PushBack3
variable {T : Type}

/-- With no fault and no wrap-around of the byte count of the doubled capacity,
`push_back` returns. -/
theorem push_back_total [ElemSize T] (F : Nat → Bool) (v : vector) (x : T) (w : World T)
    (xs : List T)
    (hH : v.Holds w xs) (hNF : NoFault F)
    (hroom : v.size_ < v.capacity_ ∨ v.capacity_ = 0 ∨
      2 * v.capacity_ * ElemSize.bytes T < SIZE_MOD) :
    ∃ v' w', v.push_back F x w = .ok () (v', w') := by
  have hsz := hH.1
  have hcap := hH.2.1
  by_cases hfull : v.size_ = v.capacity_
  · have hno : v.capacity_ = 0 ∨ 2 * v.capacity_ < SIZE_MOD := by
      rcases hroom with h | h | h
      · omega
      · exact Or.inl h
      · exact Or.inr (Nat.lt_of_le_of_lt (le_mul_bytes _) h)
    have hfit : (if v.capacity_ = 0 then 1 else 2 * v.capacity_) * ElemSize.bytes T <
        SIZE_MOD := by
      by_cases h0 : v.capacity_ = 0
      · simp only [h0, if_true, Nat.one_mul]; exact ElemSize.lt
      · simp only [h0, if_false]
        rcases hroom with h | h | h
        · omega
        · exact absurd h h0
        · exact h
    have htarget : (if v.capacity_ = 0 then 1 else 2 * v.capacity_ % SIZE_MOD) =
        (if v.capacity_ = 0 then 1 else 2 * v.capacity_) := by
      by_cases h0 : v.capacity_ = 0
      · simp [h0]
      · simp only [h0, if_false]
        rcases hno with h1 | h2
        · exact absurd h1 h0
        · exact Nat.mod_eq_of_lt h2
    have hlt : v.capacity_ < (if v.capacity_ = 0 then 1 else 2 * v.capacity_) := by
      by_cases h0 : v.capacity_ = 0
      · simp [h0]
      · simp only [h0, if_false]; omega
    have hH1 : v.Holds (⟨w.heap, w.tick + 1, w.trace⟩ : World T) xs :=
      Holds_of_heap_eq v w _ xs hH rfl
    have hres := reserve_ok F v _ _ xs hH1 hlt hfit (fun j _ => hNF _)
    have hcon := construct_after_reserve F xs x (freeBlock w.heap v.data_)
      (if v.capacity_ = 0 then 1 else 2 * v.capacity_) (w.tick + 1 + 1 + xs.length)
      (w.trace ++ (Event.alloc w.heap.length
        ((if v.capacity_ = 0 then 1 else 2 * v.capacity_) * ElemSize.bytes T)
        :: constructs w.heap.length 0 xs.length ++
          (destroysP v.data_ xs.length ++ releaseP v.data_))) (by omega)
    rw [freeBlock_length] at hcon
    rw [vector.push_back, if_pos hfull]
    simp only [copy_temp, hNF w.tick, Bool.false_eq_true, if_false]
    rw [vector.ensure_capacity, if_pos hfull, htarget, hres]
    simp only [hsz, hcon]
    simp [hNF _]
  · obtain ⟨a, _, he⟩ := push_back_room F v x w xs hH (by omega)
    rw [he]
    simp [hNF w.tick]

theorem push_all_append [ElemSize T] (F : Nat → Bool) (ys zs : List T) :
    ∀ (v : vector) (w : World T),
      push_all F (ys ++ zs) v w =
        match push_all F ys v w with
        | .ok _ (v1, w1) => push_all F zs v1 w1
        | .thrown s => .thrown s
        | .ub => .ub := by
  induction ys with
  | nil => intro v w; rfl
  | cons y ys ih =>
    intro v w
    simp only [List.cons_append, push_all]
    cases hp : v.push_back F y w with
    | ok u s => obtain ⟨v1, w1⟩ := s; simp only; exact ih v1 w1
    | thrown s => rfl
    | ub => rfl

theorem push_all_ok_inv [ElemSize T] (F : Nat → Bool) (ys : List T) :
    ∀ (v : vector) (w : World T) (xs : List T), v.Holds w xs →
      ∀ v' w', push_all F ys v w = .ok () (v', w') → v'.Holds w' (xs ++ ys) := by
  induction ys with
  | nil =>
    intro v w xs hH v' w' hr
    simp only [push_all] at hr
    injection hr with _ hr
    injection hr with hv hw
    subst hv hw
    simpa using hH
  | cons y ys ih =>
    intro v w xs hH v' w' hr
    simp only [push_all] at hr
    cases hp : v.push_back F y w with
    | ub => rw [hp] at hr; exact Res.noConfusion hr
    | thrown s => rw [hp] at hr; exact Res.noConfusion hr
    | ok u s =>
      obtain ⟨v1, w1⟩ := s
      rw [hp] at hr
      have h1 := (push_back_ok_inv F v y w xs hH v1 w1 hp).1
      have := ih v1 w1 (xs ++ [y]) h1 v' w' hr
      simpa using this

theorem push_all_total [ElemSize T] (F : Nat → Bool) (hNF : NoFault F) (ys : List T) :
    ∀ (v : vector) (w : World T) (xs : List T), v.Holds w xs →
      (xs.length + ys.length) * ElemSize.bytes T ≤ SIZE_MOD / 2 →
      ∃ v' w', push_all F ys v w = .ok () (v', w') := by
  induction ys with
  | nil => intro v w xs _ _; exact ⟨v, w, rfl⟩
  | cons y ys ih =>
    intro v w xs hH hlen
    simp only [List.length_cons] at hlen
    have hhalf : SIZE_MOD / 2 * 2 = SIZE_MOD := by simp [SIZE_MOD]
    have hpos : 0 < ElemSize.bytes T := ElemSize.pos
    have hexp : (xs.length + (ys.length + 1)) * ElemSize.bytes T =
        xs.length * ElemSize.bytes T + ys.length * ElemSize.bytes T + ElemSize.bytes T := by
      ring
    obtain ⟨v1, w1, hp⟩ := push_back_total F v y w xs hH hNF (by
      have := hH.1; have := hH.2.1
      by_cases hfull : v.size_ = v.capacity_
      · right; right
        have hc : v.capacity_ = xs.length := by omega
        rw [hc, Nat.mul_assoc]
        omega
      · left; omega)
    have h1 := (push_back_ok_inv F v y w xs hH v1 w1 hp).1
    obtain ⟨v', w', hr⟩ := ih v1 w1 (xs ++ [y]) h1 (by
      simp only [List.length_append, List.length_singleton]
      rw [Nat.add_assoc, Nat.add_comm 1 ys.length]
      exact hlen)
    exact ⟨v', w', by simp only [push_all, hp, hr]⟩

theorem Holds_default [ElemSize T] (w : World T) : vector.vector_default.Holds w ([] : List T) :=
  ⟨rfl, Nat.le_refl _, by simp [vector.vector_default, SIZE_MOD], by
    simp [vector.vector_default, Stores]⟩

/-- C1: pushing `x1 … xN` onto a default-constructed vector, when every call returns,
gives `size () == N` and `operator[] (i) == x(i+1)`, and after each of the pushes the
capacity is at least the size.  The calls do all return when no step throws and the `N`
elements take at most half the range of `size_t` in bytes, the point up to which the byte
count of the doubled capacity cannot wrap. -/
theorem push_back_sequence [ElemSize T] (F : Nat → Bool) (w0 : World T) (xs : List T) :
    (NoFault F → xs.length * ElemSize.bytes T ≤ SIZE_MOD / 2 →
      ∃ v w, push_all F xs vector.vector_default w0 = .ok () (v, w)) ∧
    ∀ v w, push_all F xs vector.vector_default w0 = .ok () (v, w) →
      v.size = xs.length ∧ (∀ i, i < xs.length → v.operator_index w i = xs[i]?) ∧
      ∀ k, k ≤ xs.length →
        ∃ vk wk, push_all F (xs.take k) vector.vector_default w0 = .ok () (vk, wk) ∧
          vk.size = k ∧ vk.size ≤ vk.capacity ∧
          ∀ i, i < k → vk.operator_index wk i = xs[i]? := by
  constructor
  · intro hNF hlen
    exact push_all_total F hNF xs _ w0 [] (Holds_default w0) (by simpa using hlen)
  · intro v w hr
    have hH := push_all_ok_inv F xs _ w0 [] (Holds_default w0) v w hr
    simp only [List.nil_append] at hH
    refine ⟨hH.1, ?_, ?_⟩
    · intro i hi
      rw [Holds_index v w xs hH i hi, List.getElem?_eq_getElem hi]
    · intro k hk
      have happ := push_all_append F (xs.take k) (xs.drop k) vector.vector_default w0
      rw [List.take_append_drop, hr] at happ
      cases hp : push_all F (xs.take k) vector.vector_default w0 with
      | ub => rw [hp] at happ; exact Res.noConfusion happ
      | thrown s => rw [hp] at happ; exact Res.noConfusion happ
      | ok u s =>
        obtain ⟨vk, wk⟩ := s
        have hHk := push_all_ok_inv F (xs.take k) _ w0 [] (Holds_default w0) vk wk hp
        simp only [List.nil_append] at hHk
        have hlk : (xs.take k).length = k := by simp; omega
        refine ⟨vk, wk, rfl, by simp [vector.size, hHk.1, hlk], ?_, ?_⟩
        · have := hHk.2.1
          simp only [vector.size, vector.capacity, hHk.1]
          exact this
        · intro i hi
          rw [Holds_index vk wk _ hHk i (by omega)]
          simp [List.getElem?_eq_getElem (show i < xs.length by omega)]

/-- Witness for C1: pushing `1, 2, 3`. -/
theorem push_back_sequence_witness :
    push_all (fun _ => false) [1, 2, 3] vector.vector_default (World.init : World Nat) =
      .ok () (⟨some 2, 3, 4⟩, ⟨[none, none, some [some 1, some 2, some 3, none]], 12,
        [Event.alloc 0 4, Event.construct 0 0, Event.alloc 1 8, Event.construct 1 0,
          Event.destroy 0 0, Event.release 0, Event.construct 1 1, Event.alloc 2 16,
          Event.construct 2 0, Event.construct 2 1, Event.destroy 1 1, Event.destroy 1 0,
          Event.release 1, Event.construct 2 2]⟩) ∧
    vector.size ⟨some 2, 3, 4⟩ = 3 :=
  ⟨by decide, ((push_back_sequence (fun _ => false) (World.init : World Nat) [1, 2, 3]).2
    ⟨some 2, 3, 4⟩ ⟨[none, none, some [some 1, some 2, some 3, none]], 12,
        [Event.alloc 0 4, Event.construct 0 0, Event.alloc 1 8, Event.construct 1 0,
          Event.destroy 0 0, Event.release 0, Event.construct 1 1, Event.alloc 2 16,
          Event.construct 2 0, Event.construct 2 1, Event.destroy 1 1, Event.destroy 1 0,
          Event.release 1, Event.construct 2 2]⟩ (by decide)).1⟩

end PushBack3
section Insert
variable {T : Type}

/-- C2 fails on the code: a full vector `[1, 2]` of capacity `2` whose `push_back (3)`
copies the argument, grows and copies both elements, and then throws in the final
construction in place, is left with capacity `4` in a new block; the old block is gone. -/
theorem push_back_final_construct_throws :
    vector.push_back (fun t => t == 4) ⟨some 0, 2, 2⟩ 3
        (⟨[some [some 1, some 2]], 0, []⟩ : World Nat) =
      .thrown (⟨some 1, 2, 4⟩, ⟨[none, some [some 1, some 2, none, none]], 5,
        [Event.alloc 1 16, Event.construct 1 0, Event.construct 1 1,
          Event.destroy 0 1, Event.destroy 0 0, Event.release 0]⟩) := by
  decide

theorem std_swap_eq (F : Nat → Bool) (w : World T) (a i j cap : Nat) (zs : List T)
    (hc : zs.length ≤ cap) (hi : i < zs.length) (hj : j < zs.length)
    (h : w.heap[a]? = some (some (slotsOf zs cap))) :
    std_swap F (some a) i j w =
      if F w.tick then .thrown ⟨w.heap, w.tick + 1, w.trace⟩
      else if F (w.tick + 1) then .thrown ⟨w.heap, w.tick + 2, w.trace⟩
      else if F (w.tick + 2) then
        .thrown ⟨w.heap.set a (some (slotsOf (zs.set i zs[j]) cap)), w.tick + 3,
          w.trace ++ [Event.assign a i]⟩
      else
        .ok () ⟨w.heap.set a (some (slotsOf ((zs.set i zs[j]).set j zs[i]) cap)), w.tick + 3,
          w.trace ++ [Event.assign a i, Event.assign a j]⟩ := by
  have hri : w.read (some a) i = some zs[i] := read_eq w a i _ _ h (slotsOf_getElem?_lt zs cap i hi)
  have halt := lt_of_getElem?_some _ _ _ h
  simp only [std_swap, hri, copy_temp]
  by_cases hF0 : F w.tick = true
  · simp [hF0]
  · simp only [hF0, Bool.false_eq_true, if_false]
    have hrj : World.read (⟨w.heap, w.tick + 1, w.trace⟩ : World T) (some a) j = some zs[j] :=
      read_eq _ a j _ _ h (slotsOf_getElem?_lt zs cap j hj)
    have has1 := assign_at_eq F (⟨w.heap, w.tick + 1, w.trace⟩ : World T) a i zs[j] zs[i] _ h
      (slotsOf_getElem?_lt zs cap i hi)
    rw [slotsOf_set_lt zs cap i zs[j] hi hc] at has1
    simp only [hrj, has1]
    by_cases hF1 : F (w.tick + 1) = true
    · simp [hF1]
    · simp only [hF1, Bool.false_eq_true, if_false]
      have hj2 : j < (zs.set i zs[j]).length := by simpa using hj
      have has2 := assign_at_eq F
        (⟨w.heap.set a (some (slotsOf (zs.set i zs[j]) cap)), w.tick + 1 + 1,
          w.trace ++ [Event.assign a i]⟩ : World T) a j zs[i] (zs.set i zs[j])[j] _
        (by simp [List.getElem?_set_self halt])
        (slotsOf_getElem?_lt _ cap j hj2)
      rw [slotsOf_set_lt _ cap j zs[i] hj2 (by simpa using hc)] at has2
      rw [has2]
      by_cases hF2 : F (w.tick + 1 + 1) = true
      · simp [hF2, List.set_set]
      · simp [hF2, List.set_set]

theorem swap_adjacent (pre post : List T) (x y : T) :
    ((pre ++ y :: x :: post).set (pre.length + 1) y).set pre.length x = pre ++ x :: y :: post := by
  induction pre with
  | nil => simp
  | cons p pre ih => simp [ih]

end Insert

section Insert2
variable {T : Type}

/-- The swapping loop of `insert`: started at the slot that holds the new value `x`,
with `pre` before it and `post` after it, a returning loop leaves `x` at index `k`;
a throwing loop leaves the block holding as many elements as before. -/
theorem insert_loop_spec (F : Nat → Bool) (a cap k : Nat) (x : T) :
    ∀ (n : Nat) (pre post : List T) (w : World T), pre.length = n → k ≤ n →
      (pre ++ x :: post).length ≤ cap →
      w.heap[a]? = some (some (slotsOf (pre ++ x :: post) cap)) →
      (NoFault F → ∃ w', vector.insert_loop F (some a) k n w = .ok () w') ∧
      (∀ w', vector.insert_loop F (some a) k n w = .ok () w' →
        w'.heap = w.heap.set a (some (slotsOf (pre.take k ++ x :: (pre.drop k ++ post)) cap))) ∧
      (∀ w', vector.insert_loop F (some a) k n w = .thrown w' →
        ∃ zs : List T, zs.length = (pre ++ x :: post).length ∧
          w'.heap = w.heap.set a (some (slotsOf zs cap))) ∧
      vector.insert_loop F (some a) k n w ≠ .ub := by
  intro n
  induction n with
  | zero =>
    intro pre post w hn hk hc h
    have hpre : pre = [] := List.length_eq_zero.mp hn
    subst hpre
    simp only [vector.insert_loop]
    refine ⟨fun _ => ⟨w, rfl⟩, ?_, ?_, fun hc => Res.noConfusion hc⟩
    · intro w' hw
      injection hw with _ hw
      subst hw
      simpa using (set_same _ _ _ h).symm
    · intro w' hw
      exact Res.noConfusion hw
  | succ n ih =>
    intro pre post w hn hk hc h
    have halt := lt_of_getElem?_some _ _ _ h
    by_cases hgt : n + 1 > k
    · -- one swap, then the rest of the loop
      obtain ⟨pre1, y, rfl⟩ : ∃ pre1 y, pre = pre1 ++ [y] := by
        rcases List.eq_nil_or_concat pre with h0 | h1
        · rw [h0] at hn; simp at hn
        · obtain ⟨L, b, hL⟩ := h1
          exact ⟨L, b, by rw [hL, List.concat_eq_append]⟩
      have hlen : pre1.length = n := by simpa using hn
      have hzs : pre1 ++ [y] ++ x :: post = pre1 ++ y :: x :: post := by simp
      rw [hzs] at h hc
      have hi : n + 1 < (pre1 ++ y :: x :: post).length := by simp; omega
      have hj : n < (pre1 ++ y :: x :: post).length := by simp; omega
      have hxi : (pre1 ++ y :: x :: post)[n + 1] = x := by
        simp [List.getElem_append_right, hlen]
      have hxj : (pre1 ++ y :: x :: post)[n] = y := by
        simp [List.getElem_append_right, hlen]
      have hsw := std_swap_eq F w a (n + 1) n cap (pre1 ++ y :: x :: post) hc hi hj h
      rw [hxi, hxj] at hsw
      have hswapped : ((pre1 ++ y :: x :: post).set (n + 1) y).set n x =
          pre1 ++ x :: y :: post := by
        have := swap_adjacent pre1 post x y
        rw [hlen] at this
        exact this
      rw [hswapped] at hsw
      have hfin : pre1.take k ++ x :: (pre1.drop k ++ y :: post) =
          (pre1 ++ [y]).take k ++ x :: ((pre1 ++ [y]).drop k ++ post) := by
        have hk1 : k ≤ pre1.length := by omega
        rw [List.take_append_of_le_length hk1, List.drop_append_of_le_length hk1]
        simp
      have hlenzs : (pre1 ++ x :: y :: post).length = (pre1 ++ y :: x :: post).length := by
        simp
      simp only [vector.insert_loop, hgt, if_true, hsw, hzs]
      by_cases hF0 : F w.tick = true
      · simp only [hF0, if_true]
        refine ⟨fun hNF => by have := hNF w.tick; simp [hF0] at this,
          fun w1 hw => Res.noConfusion hw, ?_, fun hc => Res.noConfusion hc⟩
        intro w1 hw
        injection hw with hw
        subst hw
        exact ⟨pre1 ++ y :: x :: post, rfl, (set_same _ _ _ h).symm⟩
      · by_cases hF1 : F (w.tick + 1) = true
        · simp only [hF0, hF1, Bool.false_eq_true, if_false, if_true]
          refine ⟨fun hNF => by have := hNF (w.tick + 1); simp [hF1] at this,
            fun w1 hw => Res.noConfusion hw, ?_, fun hc => Res.noConfusion hc⟩
          intro w1 hw
          injection hw with hw
          subst hw
          exact ⟨pre1 ++ y :: x :: post, rfl, (set_same _ _ _ h).symm⟩
        · by_cases hF2 : F (w.tick + 2) = true
          · simp only [hF0, hF1, hF2, Bool.false_eq_true, if_false, if_true]
            refine ⟨fun hNF => by have := hNF (w.tick + 2); simp [hF2] at this,
              fun w1 hw => Res.noConfusion hw, ?_, fun hc => Res.noConfusion hc⟩
            intro w1 hw
            injection hw with hw
            subst hw
            exact ⟨(pre1 ++ y :: x :: post).set (n + 1) y, by simp, rfl⟩
          · simp only [hF0, hF1, hF2, Bool.false_eq_true, if_false]
            have hih := ih pre1 (y :: post)
              (⟨w.heap.set a (some (slotsOf (pre1 ++ x :: y :: post) cap)),
                w.tick + 3, w.trace ++ [Event.assign a (n + 1), Event.assign a n]⟩ : World T)
              hlen (by omega) (by rw [hlenzs]; exact hc)
              (by simp [List.getElem?_set_self halt])
            obtain ⟨h1, h2, h3, h4⟩ := hih
            refine ⟨h1, ?_, ?_, h4⟩
            · intro w1 hw
              rw [h2 w1 hw, hfin]
              simp [List.set_set]
            · intro w1 hw
              obtain ⟨zs, hz1, hz2⟩ := h3 w1 hw
              exact ⟨zs, by rw [hz1, hlenzs], by rw [hz2]; simp [List.set_set]⟩
    · have hkn : k = n + 1 := by omega
      simp only [vector.insert_loop, hgt, if_false]
      refine ⟨fun _ => ⟨w, rfl⟩, ?_, fun w' hw => Res.noConfusion hw, fun hc => Res.noConfusion hc⟩
      intro w' hw
      injection hw with _ hw
      subst hw
      have h1 : pre.take k = pre := List.take_of_length_le (by omega)
      have h2 : pre.drop k = [] := List.drop_of_length_le (by omega)
      rw [h1, h2]
      simpa using (set_same _ _ _ h).symm

end Insert2
section InsertClaim
variable {T : Type}

theorem Holds_data_some [ElemSize T] (v : vector) (w : World T) (xs : List T) (hH : v.Holds w xs)
    (hne : 0 < xs.length) :
    ∃ a, v.data_ = some a ∧ w.heap[a]? = some (some (slotsOf xs v.capacity_)) := by
  obtain ⟨_, hcap, _, hS⟩ := hH
  cases hd : v.data_ with
  | none => rw [hd] at hS; simp only [Stores] at hS; omega
  | some a => rw [hd] at hS; simp only [Stores] at hS; exact ⟨a, rfl, hS.2⟩

theorem Holds_set [ElemSize T] (v : vector) (w w' : World T) (zs zs' : List T) (a : Nat)
    (hH : v.Holds w zs) (hd : v.data_ = some a) (hlen : zs'.length = zs.length)
    (hw : w'.heap = w.heap.set a (some (slotsOf zs' v.capacity_))) : v.Holds w' zs' := by
  obtain ⟨h1, h2, h3, hS⟩ := hH
  refine ⟨by rw [h1, hlen], by rw [hlen]; exact h2, h3, ?_⟩
  rw [hd] at hS ⊢
  simp only [Stores] at hS ⊢
  refine ⟨hS.1, ?_⟩
  rw [hw, List.getElem?_set_self (lt_of_getElem?_some _ _ _ hS.2)]

theorem toSize_natCast (k : Nat) (hk : k < SIZE_MOD) : toSize (k : Int) = k := by
  unfold toSize
  rw [Int.emod_eq_of_lt (by omega) (by exact_mod_cast hk)]
  simp

theorem size_sub_one (n : Nat) : size_sub (n + 1) 1 = n := by
  simp [size_sub]

theorem insert_getElem_lt (xs : List T) (k : Nat) (x : T) (i : Nat) (hi : i < k)
    (hk : k ≤ xs.length) : (xs.take k ++ x :: xs.drop k)[i]? = xs[i]? := by
  rw [List.getElem?_append_left (by simp; omega), List.getElem?_take]
  simp [hi]

theorem insert_getElem_eq (xs : List T) (k : Nat) (x : T) (hk : k ≤ xs.length) :
    (xs.take k ++ x :: xs.drop k)[k]? = some x := by
  rw [List.getElem?_append_right (by simp)]
  simp [Nat.min_eq_left hk]

theorem insert_getElem_gt (xs : List T) (k : Nat) (x : T) (i : Nat) (hi : k ≤ i)
    (hk : k ≤ xs.length) : (xs.take k ++ x :: xs.drop k)[i + 1]? = xs[i]? := by
  rw [List.getElem?_append_right (by simp; omega)]
  have : i + 1 - (xs.take k).length = (i - k) + 1 := by simp [Nat.min_eq_left hk]; omega
  rw [this, List.getElem?_cons_succ, List.getElem?_drop]
  congr 1; omega

theorem Holds_index_opt [ElemSize T] (v : vector) (w : World T) (xs : List T) (hH : v.Holds w xs)
    (i : Nat) (hi : i < xs.length) : v.operator_index w i = xs[i]? := by
  rw [Holds_index v w xs hH i hi, List.getElem?_eq_getElem hi]

/-- The run of `insert` at index `k` of a vector holding `xs`, on a returning call. -/
theorem insert_ok_inv [ElemSize T] (F : Nat → Bool) (v : vector) (w : World T) (xs : List T)
    (k : Nat)
    (x : T) (hH : v.Holds w xs) (hk : k ≤ xs.length) (it : iterator) (v' : vector)
    (w' : World T) (hr : v.insert F ⟨v.data_, k⟩ x w = .ok it (v', w')) :
    v'.Holds w' (xs.take k ++ x :: xs.drop k) ∧ it = ⟨v'.data_, k⟩ := by
  have hsz := hH.1
  have hcap := hH.2.1
  have hmod := Holds_cap_lt _ _ _ hH
  simp only [vector.insert, ptr_diff, if_true, Int.sub_zero] at hr
  cases hp : v.push_back F x w with
  | ub => rw [hp] at hr; exact Res.noConfusion hr
  | thrown s => rw [hp] at hr; exact Res.noConfusion hr
  | ok u s =>
    obtain ⟨v1, w1⟩ := s
    rw [hp] at hr
    simp only at hr
    obtain ⟨hH1, hs1, _⟩ := push_back_ok_inv F v x w xs hH v1 w1 hp
    obtain ⟨a, hd, hblk⟩ := Holds_data_some v1 w1 _ hH1 (by simp)
    have hlen1 := hH1.2.1
    simp only [List.length_append, List.length_cons, List.length_nil] at hlen1
    have hm1 := Holds_cap_lt _ _ _ hH1
    have hpred : size_sub v1.size_ 1 = xs.length := by
      rw [hs1, hsz]; exact size_sub_one _
    rw [hpred, toSize_natCast k (by omega), hd] at hr
    obtain ⟨_, h2, _, _⟩ := insert_loop_spec F a v1.capacity_ k x xs.length xs [] w1 rfl hk
      (by simpa using hlen1) (by simpa using hblk)
    cases hl : vector.insert_loop F (some a) k xs.length w1 with
    | ub => rw [hl] at hr; exact Res.noConfusion hr
    | thrown s => rw [hl] at hr; exact Res.noConfusion hr
    | ok u2 w2 =>
      rw [hl] at hr
      injection hr with hit hr
      injection hr with hv hw
      subst hv hw hit
      have hheap := h2 w2 hl
      simp only [List.append_nil] at hheap
      exact ⟨Holds_set v1 w1 w2 _ _ a hH1 hd (by simp; omega) hheap, by rw [hd]⟩

theorem insert_total [ElemSize T] (F : Nat → Bool) (v : vector) (w : World T) (xs : List T)
    (k : Nat)
    (x : T) (hH : v.Holds w xs) (hk : k ≤ xs.length) (hNF : NoFault F)
    (hroom : v.size_ < v.capacity_ ∨ v.capacity_ = 0 ∨
      2 * v.capacity_ * ElemSize.bytes T < SIZE_MOD) :
    ∃ it v' w', v.insert F ⟨v.data_, k⟩ x w = .ok it (v', w') := by
  have hsz := hH.1
  have hcap := hH.2.1
  have hmod := Holds_cap_lt _ _ _ hH
  obtain ⟨v1, w1, hp⟩ := push_back_total F v x w xs hH hNF hroom
  obtain ⟨hH1, hs1, _⟩ := push_back_ok_inv F v x w xs hH v1 w1 hp
  obtain ⟨a, hd, hblk⟩ := Holds_data_some v1 w1 _ hH1 (by simp)
  have hlen1 := hH1.2.1
  simp only [List.length_append, List.length_cons, List.length_nil] at hlen1
  have hm1 := Holds_cap_lt _ _ _ hH1
  have hpred : size_sub v1.size_ 1 = xs.length := by
    rw [hs1, hsz]; exact size_sub_one _
  obtain ⟨h1, _, _, _⟩ := insert_loop_spec F a v1.capacity_ k x xs.length xs [] w1 rfl hk
    (by simpa using hlen1) (by simpa using hblk)
  obtain ⟨w2, hl⟩ := h1 hNF
  refine ⟨⟨v1.data_, k⟩, v1, w2, ?_⟩
  simp only [vector.insert, ptr_diff, if_true, Int.sub_zero, hp, hpred,
    toSize_natCast k (by omega), hd, hl]

/-- C5: a returning `insert (begin () + k, x)` with `k` at most the length leaves the
sequence `xs[0..k) ++ [x] ++ xs[k..n)`: the size is `n + 1`, elements below `k` stay, `x`
is at `k`, every element formerly at an index `i ≥ k` is at `i + 1`, and the returned
position is `begin () + k`.  The call returns when no step throws and the byte count of
the doubled capacity does not wrap around. -/
theorem insert_success [ElemSize T] (F : Nat → Bool) (v : vector) (w : World T) (xs : List T)
    (k : Nat)
    (x : T) (hH : v.Holds w xs) (hk : k ≤ xs.length) :
    (NoFault F →
      (v.size < v.capacity ∨ v.capacity = 0 ∨
        2 * v.capacity * ElemSize.bytes T < SIZE_MOD) →
      ∃ it v' w', v.insert F ⟨v.begin.base, v.begin.off + k⟩ x w = .ok it (v', w')) ∧
    ∀ it v' w', v.insert F ⟨v.begin.base, v.begin.off + k⟩ x w = .ok it (v', w') →
      v'.Holds w' (xs.take k ++ x :: xs.drop k) ∧ v'.size = xs.length + 1 ∧
      it = ⟨v'.begin.base, v'.begin.off + k⟩ ∧ v'.operator_index w' k = some x ∧
      (∀ i, i < k → v'.operator_index w' i = xs[i]?) ∧
      (∀ i, k ≤ i → i < xs.length → v'.operator_index w' (i + 1) = xs[i]?) := by
  simp only [vector.begin, Int.zero_add, vector.size, vector.capacity]
  refine ⟨fun hNF hroom => insert_total F v w xs k x hH hk hNF hroom, ?_⟩
  intro it v' w' hr
  obtain ⟨hH', hit⟩ := insert_ok_inv F v w xs k x hH hk it v' w' hr
  have hlen : (xs.take k ++ x :: xs.drop k).length = xs.length + 1 := by
    simp [Nat.min_eq_left hk]; omega
  refine ⟨hH', by rw [hH'.1, hlen], hit, ?_, ?_, ?_⟩
  · rw [Holds_index_opt v' w' _ hH' k (by omega), insert_getElem_eq xs k x hk]
  · intro i hi
    rw [Holds_index_opt v' w' _ hH' i (by omega), insert_getElem_lt xs k x i hi hk]
  · intro i hki hi
    rw [Holds_index_opt v' w' _ hH' (i + 1) (by omega), insert_getElem_gt xs k x i hki hk]

/-- Witness for C5: `insert (begin () + 1, 99)` on `[1, 2, 3]` with capacity `4`. -/
theorem insert_success_witness :
    vector.Holds ⟨some 0, 3, 4⟩
      (⟨[some [some 1, some 2, some 3, none]], 0, []⟩ : World Nat) [1, 2, 3] ∧
    vector.Holds ⟨some 0, 4, 4⟩
      (⟨[some [some 1, some 99, some 2, some 3]], 7,
        [Event.construct 0 3, Event.assign 0 3, Event.assign 0 2, Event.assign 0 2,
          Event.assign 0 1]⟩ : World Nat) [1, 99, 2, 3] :=
  ⟨by decide, ((insert_success (fun _ => false) ⟨some 0, 3, 4⟩
    (⟨[some [some 1, some 2, some 3, none]], 0, []⟩ : World Nat) [1, 2, 3] 1 99
    (by decide) (by decide)).2 ⟨some 0, 1⟩ ⟨some 0, 4, 4⟩
    (⟨[some [some 1, some 99, some 2, some 3]], 7,
        [Event.construct 0 3, Event.assign 0 3, Event.assign 0 2, Event.assign 0 2,
          Event.assign 0 1]⟩ : World Nat) (by decide)).1⟩

end InsertClaim
section Erase
variable {T : Type}

theorem shifted_length (xs : List T) (s d i : Nat) (hsi : s ≤ i) (hid : i + d ≤ xs.length) :
    (shifted xs s d i).length = xs.length := by
  simp [shifted]; omega

theorem shifted_getElem? (xs : List T) (s d i : Nat) (hsi : s ≤ i) (hid : i + d ≤ xs.length)
    (j : Nat) :
    (shifted xs s d i)[j]? = if j < s then xs[j]? else if j < i then xs[j + d]? else xs[j]? := by
  unfold shifted
  by_cases h1 : j < s
  · rw [List.getElem?_append_left (by simp; omega), List.getElem?_take]
    simp [h1]
  · rw [List.getElem?_append_right (by simp; omega)]
    have hl1 : (xs.take s).length = s := by simp; omega
    rw [hl1]
    by_cases h2 : j < i
    · rw [List.getElem?_append_left (by simp; omega), List.getElem?_take, List.getElem?_drop]
      simp only [h1, h2, if_false, if_true]
      rw [if_pos (by omega)]
      congr 1; omega
    · rw [List.getElem?_append_right (by simp; omega)]
      have hl2 : ((xs.drop (s + d)).take (i - s)).length = i - s := by simp; omega
      rw [hl2, List.getElem?_drop]
      simp only [h1, h2, if_false]
      congr 1; omega

theorem shifted_start (xs : List T) (s d : Nat) : shifted xs s d s = xs := by
  simp [shifted]

theorem shifted_step (xs : List T) (s d i : Nat) (hsi : s ≤ i) (hid : i + d < xs.length)
    (hd : 0 < d) :
    (shifted xs s d i).set i (xs[i + d]) = shifted xs s d (i + 1) := by
  apply List.ext_getElem?
  intro j
  rw [List.getElem?_set, shifted_length xs s d i hsi (by omega),
    shifted_getElem? xs s d i hsi (by omega), shifted_getElem? xs s d (i + 1) (by omega) (by omega)]
  by_cases h1 : i = j
  · subst h1
    have h2 : ¬ i < s := by omega
    simp [h2, List.getElem?_eq_getElem hid]
    omega
  · by_cases h2 : j < s
    · simp [h1, h2]
    · by_cases h3 : j < i
      · have h4 : j < i + 1 := by omega
        simp [h1, h2, h3, h4]
      · have h4 : ¬ j < i + 1 := by omega
        simp [h1, h2, h3, h4]

theorem shifted_final (xs : List T) (s d : Nat) (hsd : s + d ≤ xs.length) :
    (shifted xs s d (xs.length - d)).take (xs.length - d) = xs.take s ++ xs.drop (s + d) := by
  apply List.ext_getElem?
  intro j
  rw [List.getElem?_take, shifted_getElem? xs s d _ (by omega) (by omega)]
  by_cases h1 : j < s
  · have h2 : j < xs.length - d := by omega
    rw [List.getElem?_append_left (by simp; omega), List.getElem?_take]
    simp [h1, h2]
  · rw [List.getElem?_append_right (by simp; omega)]
    have hl1 : (xs.take s).length = s := by simp; omega
    rw [hl1, List.getElem?_drop]
    by_cases h2 : j < xs.length - d
    · simp only [h1, h2, if_true, if_false]
      congr 1; omega
    · simp only [h2, if_false]
      rw [List.getElem?_eq_none (by omega)]

end Erase
section Erase2
variable {T : Type}

/-- The assigning loop of `erase`, started at `i` with `m` iterations to run. -/
theorem erase_shift_spec (F : Nat → Bool) (a cap s d : Nat) (xs : List T) (hd : 0 < d)
    (hc : xs.length ≤ cap) (hmod : xs.length < SIZE_MOD) :
    ∀ (m i : Nat) (w : World T), s ≤ i → i + m + d = xs.length →
      w.heap[a]? = some (some (slotsOf (shifted xs s d i) cap)) →
      (NoFault F → ∃ w', vector.erase_shift F (some a) d m i w = .ok () w') ∧
      (∀ w', vector.erase_shift F (some a) d m i w = .ok () w' →
        w'.heap = w.heap.set a (some (slotsOf (shifted xs s d (xs.length - d)) cap))) ∧
      (∀ w', vector.erase_shift F (some a) d m i w = .thrown w' →
        ∃ zs : List T, zs.length = xs.length ∧ w'.heap = w.heap.set a (some (slotsOf zs cap))) ∧
      vector.erase_shift F (some a) d m i w ≠ .ub := by
  intro m
  induction m with
  | zero =>
    intro i w hsi him h
    have hi : i = xs.length - d := by omega
    subst hi
    simp only [vector.erase_shift]
    refine ⟨fun _ => ⟨w, rfl⟩, ?_, fun w' hw => Res.noConfusion hw, fun hc => Res.noConfusion hc⟩
    intro w' hw
    injection hw with _ hw
    subst hw
    exact (set_same _ _ _ h).symm
  | succ m ih =>
    intro i w hsi him h
    have halt := lt_of_getElem?_some _ _ _ h
    have hidm : (i + d) % SIZE_MOD = i + d := Nat.mod_eq_of_lt (by omega)
    have hlen := shifted_length xs s d i hsi (by omega)
    have hsrc : (slotsOf (shifted xs s d i) cap)[i + d]? = some (some xs[i + d]) := by
      rw [slotsOf_getElem?, if_pos (by omega), shifted_getElem? xs s d i hsi (by omega)]
      rw [if_neg (by omega), if_neg (by omega), List.getElem?_eq_getElem (by omega)]
      rfl
    have hrd : w.read (some a) (i + d) = some xs[i + d] := read_eq w a (i + d) _ _ h hsrc
    have hdst : (slotsOf (shifted xs s d i) cap)[i]? =
        some (some (shifted xs s d i)[i]) := slotsOf_getElem?_lt _ cap i (by omega)
    have has := assign_at_eq F w a i xs[i + d] _ _ h hdst
    rw [slotsOf_set_lt _ cap i _ (by omega) (by omega),
      shifted_step xs s d i hsi (by omega) hd] at has
    simp only [vector.erase_shift, hidm, hrd, has]
    by_cases hF0 : F w.tick = true
    · simp only [hF0, if_true]
      refine ⟨fun hNF => by have := hNF w.tick; simp [hF0] at this,
        fun w1 hw => Res.noConfusion hw, ?_, fun hc => Res.noConfusion hc⟩
      intro w1 hw
      injection hw with hw
      subst hw
      exact ⟨shifted xs s d i, hlen, (set_same _ _ _ h).symm⟩
    · simp only [hF0, Bool.false_eq_true, if_false]
      obtain ⟨h1, h2, h3, h4⟩ := ih (i + 1)
        (⟨w.heap.set a (some (slotsOf (shifted xs s d (i + 1)) cap)), w.tick + 1,
          w.trace ++ [Event.assign a i]⟩ : World T) (by omega) (by omega)
        (by simp [List.getElem?_set_self halt])
      refine ⟨h1, ?_, ?_, h4⟩
      · intro w1 hw
        rw [h2 w1 hw]
        simp [List.set_set]
      · intro w1 hw
        obtain ⟨zs, hz1, hz2⟩ := h3 w1 hw
        exact ⟨zs, hz1, by rw [hz2]; simp [List.set_set]⟩

theorem pop_back_spec [ElemSize T] (v : vector) (w : World T) (zs : List T) (z : T)
    (hH : v.Holds w (zs ++ [z])) :
    ∃ a, v.data_ = some a ∧
      v.pop_back w = some (⟨v.data_, zs.length, v.capacity_⟩,
        ⟨w.heap.set a (some (slotsOf zs v.capacity_)), w.tick,
          w.trace ++ [Event.destroy a zs.length]⟩) := by
  obtain ⟨a, hd, hblk⟩ := Holds_data_some v w _ hH (by simp)
  obtain ⟨hsz, hcap, hmod, _⟩ := hH
  simp only [List.length_append, List.length_cons, List.length_nil] at hsz hcap
  have hpred : size_sub v.size_ 1 = zs.length := by
    rw [hsz]; exact size_sub_one _
  refine ⟨a, hd, ?_⟩
  have hrd : (slotsOf (zs ++ [z]) v.capacity_)[zs.length]? = some (some z) := by
    rw [slotsOf_getElem?_lt _ _ _ (by simp)]
    simp
  have hdes := destroy_at_eq w a zs.length z _ hblk hrd
  rw [slotsOf_set_pop zs v.capacity_ z (by omega)] at hdes
  simp only [vector.pop_back, hpred, hd, hdes]

theorem pop_back_Holds [ElemSize T] (v : vector) (w : World T) (zs : List T) (z : T)
    (hH : v.Holds w (zs ++ [z])) :
    ∃ v' w', v.pop_back w = some (v', w') ∧ v'.Holds w' zs ∧ v'.data_ = v.data_ ∧
      v'.capacity_ = v.capacity_ := by
  obtain ⟨a, hd, hp⟩ := pop_back_spec v w zs z hH
  refine ⟨_, _, hp, ?_, rfl, rfl⟩
  obtain ⟨hsz, hcap, hmod, hS⟩ := hH
  simp only [List.length_append, List.length_cons, List.length_nil] at hsz hcap
  refine ⟨rfl, by simp; omega, hmod, ?_⟩
  rw [hd] at hS ⊢
  simp only [Stores] at hS ⊢
  exact ⟨hS.1, by simp [List.getElem?_set_self (lt_of_getElem?_some _ _ _ hS.2)]⟩

theorem erase_pops_spec [ElemSize T] :
    ∀ (d : Nat) (zs : List T) (v : vector) (w : World T), v.Holds w zs → d ≤ zs.length →
      ∃ v' w', vector.erase_pops d v w = some (v', w') ∧
        v'.Holds w' (zs.take (zs.length - d)) ∧ v'.data_ = v.data_ ∧
        v'.capacity_ = v.capacity_ := by
  intro d
  induction d with
  | zero =>
    intro zs v w hH _
    exact ⟨v, w, rfl, by simpa using hH, rfl, rfl⟩
  | succ d ih =>
    intro zs v w hH hd
    obtain ⟨zs1, z, rfl⟩ : ∃ zs1 z, zs = zs1 ++ [z] := by
      rcases List.eq_nil_or_concat zs with h0 | ⟨L, b, hL⟩
      · rw [h0] at hd; simp at hd
      · exact ⟨L, b, by rw [hL, List.concat_eq_append]⟩
    obtain ⟨v1, w1, hp, hH1, hd1, hc1⟩ := pop_back_Holds v w zs1 z hH
    simp only [List.length_append, List.length_cons, List.length_nil] at hd
    obtain ⟨v2, w2, he, hH2, hd2, hc2⟩ := ih zs1 v1 w1 hH1 (by omega)
    refine ⟨v2, w2, by simp only [vector.erase_pops, hp, he], ?_, by rw [hd2, hd1],
      by rw [hc2, hc1]⟩
    have : (zs1 ++ [z]).take ((zs1 ++ [z]).length - (d + 1)) = zs1.take (zs1.length - d) := by
      simp only [List.length_append, List.length_cons, List.length_nil]
      have h1 : zs1.length + 1 - (d + 1) = zs1.length - d := by omega
      rw [h1, List.take_append_of_le_length (by omega)]
    rw [this]
    exact hH2

end Erase2
section EraseClaim
variable {T : Type}

theorem size_sub_le (n d : Nat) (hd : d ≤ n) : size_sub n d = n - d := by
  simp [size_sub, hd]

theorem erase_nonpos (F : Nat → Bool) (v : vector) (w : World T) (s delta : Int)
    (hd : delta ≤ 0) :
    v.erase F ⟨v.data_, s⟩ ⟨v.data_, s + delta⟩ w = .ok ⟨v.data_, s⟩ (v, w) := by
  have h1 : s + delta - s = delta := by omega
  have h2 : ¬ delta > 0 := by omega
  simp [vector.erase, ptr_diff, h1, h2]

/-- The run of `erase` on the range `[s, s + d)` with `d` positive. -/
theorem erase_pos_spec [ElemSize T] (F : Nat → Bool) (v : vector) (w : World T) (xs : List T)
    (s d : Nat)
    (hH : v.Holds w xs) (hd : 0 < d) (hsd : s + d ≤ xs.length) :
    (NoFault F → ∃ it v' w',
      v.erase F ⟨v.data_, s⟩ ⟨v.data_, (s : Int) + (d : Int)⟩ w = .ok it (v', w')) ∧
    (∀ it v' w', v.erase F ⟨v.data_, s⟩ ⟨v.data_, (s : Int) + (d : Int)⟩ w = .ok it (v', w') →
      v'.Holds w' (xs.take s ++ xs.drop (s + d)) ∧ v'.capacity_ = v.capacity_ ∧
        it = ⟨v'.data_, s⟩) := by
  have hsz := hH.1
  have hcap := hH.2.1
  have hmod := Holds_cap_lt _ _ _ hH
  obtain ⟨a, hda, hblk⟩ := Holds_data_some v w xs hH (by omega)
  have h1 : (s : Int) + (d : Int) - (s : Int) = (d : Int) := by omega
  have h2 : (d : Int) > 0 := by omega
  have hbound : size_sub v.size_ d - s = xs.length - d - s := by
    rw [hsz, size_sub_le _ _ (by omega)]
  have heq : v.erase F ⟨v.data_, s⟩ ⟨v.data_, (s : Int) + (d : Int)⟩ w =
      match vector.erase_shift F (some a) d (xs.length - d - s) s w with
      | .ok _ w1 =>
        match vector.erase_pops d v w1 with
        | some (v1, w2) => .ok ⟨v1.data_, s⟩ (v1, w2)
        | none => .ub
      | .thrown w1 => .thrown (v, w1)
      | .ub => .ub := by
    simp only [vector.erase, ptr_diff, if_true, h1, h2, Int.sub_zero,
      toSize_natCast d (by omega), toSize_natCast s (by omega), hbound, hda]
  obtain ⟨e1, e2, _, _⟩ := erase_shift_spec F a v.capacity_ s d xs hd hcap (by omega)
    (xs.length - d - s) s w (Nat.le_refl _) (by omega) (by rw [shifted_start]; exact hblk)
  have hafter : ∀ w1, vector.erase_shift F (some a) d (xs.length - d - s) s w = .ok () w1 →
      ∃ v' w', vector.erase_pops d v w1 = some (v', w') ∧
        v'.Holds w' (xs.take s ++ xs.drop (s + d)) ∧ v'.data_ = v.data_ ∧
        v'.capacity_ = v.capacity_ := by
    intro w1 hw1
    have hH1 : v.Holds w1 (shifted xs s d (xs.length - d)) :=
      Holds_set v w w1 xs _ a hH hda (shifted_length xs s d _ (by omega) (by omega)) (e2 w1 hw1)
    obtain ⟨v', w', hp, hH', hd', hc'⟩ := erase_pops_spec d _ v w1 hH1
      (by rw [shifted_length xs s d _ (by omega) (by omega)]; omega)
    rw [shifted_length xs s d _ (by omega) (by omega), shifted_final xs s d hsd] at hH'
    exact ⟨v', w', hp, hH', hd', hc'⟩
  constructor
  · intro hNF
    obtain ⟨w1, hw1⟩ := e1 hNF
    obtain ⟨v', w', hp, _⟩ := hafter w1 hw1
    exact ⟨⟨v'.data_, s⟩, v', w', by rw [heq]; simp only [hw1, hp]⟩
  · intro it v' w' hr
    rw [heq] at hr
    cases hs : vector.erase_shift F (some a) d (xs.length - d - s) s w with
    | ub => rw [hs] at hr; exact Res.noConfusion hr
    | thrown s1 => rw [hs] at hr; exact Res.noConfusion hr
    | ok u w1 =>
      rw [hs] at hr
      obtain ⟨v2, w2, hp, hH2, hd2, hc2⟩ := hafter w1 hs
      simp only [hp] at hr
      injection hr with hit hr
      injection hr with hv hw
      subst hv hw hit
      exact ⟨hH2, hc2, rfl⟩

/-- C6: `erase (first, last)` with `first = begin () + s` and `last = first + delta`,
`s + delta` at most the length.  With `delta ≤ 0` the call returns and nothing changes.
With `delta > 0` a returning call leaves `xs[0..s) ++ xs[s+delta..n)`, of length
`n - delta`, with the capacity unchanged, and the call returns when no step throws.  The
returned position is `begin () + s` in both cases, and erasing the whole vector leaves it
empty. -/
theorem erase_range [ElemSize T] (F : Nat → Bool) (v : vector) (w : World T) (xs : List T) (s : Nat)
    (delta : Int) (hH : v.Holds w xs) (hsd : (s : Int) + delta ≤ xs.length) :
    (delta ≤ 0 →
      v.erase F ⟨v.begin.base, v.begin.off + s⟩ ⟨v.begin.base, v.begin.off + s + delta⟩ w =
        .ok ⟨v.begin.base, v.begin.off + s⟩ (v, w)) ∧
    (0 < delta → NoFault F → ∃ it v' w',
      v.erase F ⟨v.begin.base, v.begin.off + s⟩ ⟨v.begin.base, v.begin.off + s + delta⟩ w =
        .ok it (v', w')) ∧
    (0 < delta → ∀ it v' w',
      v.erase F ⟨v.begin.base, v.begin.off + s⟩ ⟨v.begin.base, v.begin.off + s + delta⟩ w =
        .ok it (v', w') →
      v'.Holds w' (xs.take s ++ xs.drop (s + delta.toNat)) ∧
      v'.size = xs.length - delta.toNat ∧ v'.capacity = v.capacity ∧
      it = ⟨v'.begin.base, v'.begin.off + s⟩ ∧
      (s = 0 → delta = xs.length → v'.empty = true ∧ v'.size = 0)) := by
  simp only [vector.begin, Int.zero_add, vector.size, vector.capacity, vector.empty]
  refine ⟨fun hd => erase_nonpos F v w s delta hd, ?_, ?_⟩
  · intro hd hNF
    obtain ⟨d, rfl⟩ : ∃ d : Nat, delta = d := ⟨delta.toNat, (Int.toNat_of_nonneg (by omega)).symm⟩
    exact (erase_pos_spec F v w xs s d hH (by omega) (by omega)).1 hNF
  · intro hd it v' w' hr
    obtain ⟨d, rfl⟩ : ∃ d : Nat, delta = d := ⟨delta.toNat, (Int.toNat_of_nonneg (by omega)).symm⟩
    obtain ⟨hH', hc', hit⟩ :=
      (erase_pos_spec F v w xs s d hH (by omega) (by omega)).2 it v' w' hr
    simp only [Int.toNat_ofNat]
    have hlen : (xs.take s ++ xs.drop (s + d)).length = xs.length - d := by
      simp; omega
    refine ⟨hH', by rw [hH'.1, hlen], hc', hit, ?_⟩
    intro hs0 hall
    have hdn : d = xs.length := by exact_mod_cast hall
    have : v'.size_ = 0 := by rw [hH'.1, hlen]; omega
    simp [this]

/-- Witness for C6: erasing `[begin () + 1, begin () + 3)` from `[1, 2, 3, 4, 5]`. -/
theorem erase_range_witness :
    vector.Holds ⟨some 0, 5, 8⟩
      (⟨[some [some 1, some 2, some 3, some 4, some 5, none, none, none]], 0, []⟩ : World Nat)
      [1, 2, 3, 4, 5] ∧
    vector.Holds ⟨some 0, 3, 8⟩
      (⟨[some [some 1, some 4, some 5, none, none, none, none, none]], 2,
        [Event.assign 0 1, Event.assign 0 2, Event.destroy 0 4, Event.destroy 0 3]⟩ : World Nat)
      [1, 4, 5] :=
  ⟨by decide, ((erase_range (fun _ => false) ⟨some 0, 5, 8⟩
    (⟨[some [some 1, some 2, some 3, some 4, some 5, none, none, none]], 0, []⟩ : World Nat)
    [1, 2, 3, 4, 5] 1 2 (by decide) (by decide)).2.2 (by decide) ⟨some 0, 1⟩ ⟨some 0, 3, 8⟩
    (⟨[some [some 1, some 4, some 5, none, none, none, none, none]], 2,
      [Event.assign 0 1, Event.assign 0 2, Event.destroy 0 4, Event.destroy 0 3]⟩ : World Nat)
    (by decide)).1⟩

end EraseClaim
section RoundTrip
variable {T : Type}

theorem insert_then_remove (xs : List T) (k : Nat) (x : T) (hk : k ≤ xs.length) :
    (xs.take k ++ x :: xs.drop k).take k ++ (xs.take k ++ x :: xs.drop k).drop (k + 1) = xs := by
  have hl : (xs.take k).length = k := by simp; omega
  have h1 : (xs.take k ++ x :: xs.drop k).take k = xs.take k := by
    rw [List.take_append_of_le_length (by omega), List.take_of_length_le (by omega)]
  have h2 : (xs.take k ++ x :: xs.drop k).drop (k + 1) = xs.drop k := by
    rw [List.drop_append_eq_append_drop, List.drop_of_length_le (by omega), hl]
    simp
  rw [h1, h2, List.take_append_drop]

theorem erase_pos_eq (F : Nat → Bool) (v : vector) (w : World T) (k : Nat) :
    v.erase_pos F ⟨v.data_, k⟩ w =
      v.erase F ⟨v.data_, k⟩ ⟨v.data_, (k : Int) + ((1 : Nat) : Int)⟩ w := by
  simp [vector.erase_pos]

/-- C7: `erase (begin () + k)` after a returning `insert (begin () + k, x)`, when it
returns, gives back the element sequence and the length the vector had before the
insertion.  Both calls return when no step throws and the byte count of the doubled
capacity does not wrap around. -/
theorem insert_erase_roundtrip [ElemSize T] (F : Nat → Bool) (v : vector) (w : World T)
    (xs : List T)
    (k : Nat) (x : T) (hH : v.Holds w xs) (hk : k ≤ xs.length) :
    (NoFault F →
      (v.size < v.capacity ∨ v.capacity = 0 ∨
        2 * v.capacity * ElemSize.bytes T < SIZE_MOD) →
      ∃ it v1 w1 it2 v2 w2,
        v.insert F ⟨v.begin.base, v.begin.off + k⟩ x w = .ok it (v1, w1) ∧
        v1.erase_pos F ⟨v1.begin.base, v1.begin.off + k⟩ w1 = .ok it2 (v2, w2)) ∧
    ∀ it v1 w1 it2 v2 w2,
      v.insert F ⟨v.begin.base, v.begin.off + k⟩ x w = .ok it (v1, w1) →
      v1.erase_pos F ⟨v1.begin.base, v1.begin.off + k⟩ w1 = .ok it2 (v2, w2) →
      v2.Holds w2 xs ∧ v2.size = v.size ∧
      ∀ i, i < v.size → v2.operator_index w2 i = v.operator_index w i := by
  simp only [vector.begin, Int.zero_add, vector.size, vector.capacity]
  have hlen : (xs.take k ++ x :: xs.drop k).length = xs.length + 1 := by
    simp [Nat.min_eq_left hk]; omega
  constructor
  · intro hNF hroom
    obtain ⟨it, v1, w1, hi⟩ := insert_total F v w xs k x hH hk hNF hroom
    obtain ⟨hH1, _⟩ := insert_ok_inv F v w xs k x hH hk it v1 w1 hi
    obtain ⟨it2, v2, w2, he⟩ := (erase_pos_spec F v1 w1 _ k 1 hH1 (by omega)
      (by rw [hlen]; omega)).1 hNF
    exact ⟨it, v1, w1, it2, v2, w2, hi, by rw [erase_pos_eq]; exact he⟩
  · intro it v1 w1 it2 v2 w2 hi he
    obtain ⟨hH1, _⟩ := insert_ok_inv F v w xs k x hH hk it v1 w1 hi
    rw [erase_pos_eq] at he
    obtain ⟨hH2, _, _⟩ := (erase_pos_spec F v1 w1 _ k 1 hH1 (by omega)
      (by rw [hlen]; omega)).2 it2 v2 w2 he
    rw [insert_then_remove xs k x hk] at hH2
    refine ⟨hH2, by rw [hH2.1, hH.1], ?_⟩
    intro i hi
    rw [hH.1] at hi
    rw [Holds_index v2 w2 xs hH2 i hi, Holds_index v w xs hH i hi]

/-- Witness for C7: `[1, 2, 3]`, insert `99` at index `1`, erase at index `1`. -/
theorem insert_erase_roundtrip_witness :
    vector.Holds ⟨some 0, 3, 4⟩
      (⟨[some [some 1, some 2, some 3, none]], 0, []⟩ : World Nat) [1, 2, 3] ∧
    vector.Holds ⟨some 0, 3, 4⟩
      (⟨[some [some 1, some 2, some 3, none]], 9,
        [Event.construct 0 3, Event.assign 0 3, Event.assign 0 2, Event.assign 0 2,
          Event.assign 0 1, Event.assign 0 1, Event.assign 0 2, Event.destroy 0 3]⟩ :
        World Nat) [1, 2, 3] :=
  ⟨by decide, ((insert_erase_roundtrip (fun _ => false) ⟨some 0, 3, 4⟩
    (⟨[some [some 1, some 2, some 3, none]], 0, []⟩ : World Nat) [1, 2, 3] 1 99
    (by decide) (by decide)).2 ⟨some 0, 1⟩ ⟨some 0, 4, 4⟩
    (⟨[some [some 1, some 99, some 2, some 3]], 7,
        [Event.construct 0 3, Event.assign 0 3, Event.assign 0 2, Event.assign 0 2,
          Event.assign 0 1]⟩ : World Nat)
    ⟨some 0, 1⟩ ⟨some 0, 3, 4⟩
    (⟨[some [some 1, some 2, some 3, none]], 9,
        [Event.construct 0 3, Event.assign 0 3, Event.assign 0 2, Event.assign 0 2,
          Event.assign 0 1, Event.assign 0 1, Event.assign 0 2, Event.destroy 0 3]⟩ :
        World Nat) (by decide) (by decide)).1⟩

end RoundTrip
section GrowthClaim
variable {T : Type}

/-- C11: a returning `push_back` on a full vector of capacity `c` leaves the capacity
`max (1, 2 c)` (`1` for `c = 0`, `2 c` otherwise; it can only return when neither `2 c`
nor the byte count of the new capacity wraps around), and a returning `push_back` into
spare capacity keeps the capacity and the storage pointer, allocates and releases nothing,
and only constructs the new element.  The call returns when no step throws and the byte
count `2 c * sizeof (T)` does not wrap around. -/
theorem push_back_growth [ElemSize T] (F : Nat → Bool) (v : vector) (x : T) (w : World T)
    (xs : List T)
    (hH : v.Holds w xs) :
    (NoFault F →
      (v.size < v.capacity ∨ v.capacity = 0 ∨
        2 * v.capacity * ElemSize.bytes T < SIZE_MOD) →
      ∃ v' w', v.push_back F x w = .ok () (v', w')) ∧
    ∀ v' w', v.push_back F x w = .ok () (v', w') →
      (v.size = v.capacity →
        (v.capacity = 0 ∨ 2 * v.capacity < SIZE_MOD) ∧ v'.capacity = max 1 (2 * v.capacity) ∧
        (v.capacity = 0 → v'.capacity = 1) ∧ (v.capacity ≠ 0 → v'.capacity = 2 * v.capacity) ∧
        v'.capacity * ElemSize.bytes T < SIZE_MOD) ∧
      (v.size < v.capacity →
        v'.capacity = v.capacity ∧ v'.data = v.data ∧ w'.heap.length = w.heap.length ∧
        ∃ a, v.data = some a ∧ w'.trace = w.trace ++ [Event.construct a v.size]) := by
  simp only [vector.size, vector.capacity, vector.data]
  refine ⟨fun hNF hroom => push_back_total F v x w xs hH hNF hroom, ?_⟩
  intro v' w' hr
  obtain ⟨hH', _, hcase⟩ := push_back_ok_inv F v x w xs hH v' w' hr
  constructor
  · intro hfull
    rcases hcase with ⟨hlt, _, _⟩ | ⟨_, hno, hc, _⟩
    · omega
    · refine ⟨hno, ?_, ?_, ?_, hH'.2.2.1⟩
      · rw [hc]; split <;> omega
      · intro h0; rw [hc, if_pos h0]
      · intro h0; rw [hc, if_neg h0]
  · intro hlt
    obtain ⟨a, hd, he⟩ := push_back_room F v x w xs hH hlt
    rw [he] at hr
    by_cases hF0 : F w.tick = true
    · simp [hF0] at hr
    · simp only [hF0, Bool.false_eq_true, if_false] at hr
      injection hr with _ hr
      injection hr with hv hw
      subst hv hw
      exact ⟨rfl, hd.symm, by simp, a, hd, rfl⟩

/-- Witness for C11: pushing onto the full vector `[1, 2]` doubles the capacity to `4`. -/
theorem push_back_growth_witness :
    vector.Holds ⟨some 0, 2, 2⟩ (⟨[some [some 1, some 2]], 0, []⟩ : World Nat) [1, 2] ∧
    vector.capacity ⟨some 1, 3, 4⟩ = max 1 (2 * 2) :=
  ⟨by decide, (((push_back_growth (fun _ => false) ⟨some 0, 2, 2⟩ 3
    (⟨[some [some 1, some 2]], 0, []⟩ : World Nat) [1, 2] (by decide)).2 ⟨some 1, 3, 4⟩
    (⟨[none, some [some 1, some 2, some 3, none]], 5,
      [Event.alloc 1 16, Event.construct 1 0, Event.construct 1 1, Event.destroy 0 1,
        Event.destroy 0 0, Event.release 0, Event.construct 1 2]⟩ : World Nat)
    (by decide)).1 rfl).2.1⟩

end GrowthClaim
section Assign
variable {T : Type}

theorem Holds_null [ElemSize T] (w : World T) : vector.Holds ⟨none, 0, 0⟩ w ([] : List T) :=
  ⟨rfl, Nat.le_refl _, by simp [SIZE_MOD], by simp [Stores]⟩

theorem Holds_copy [ElemSize T] (ys : List T) (h : List (Option (List (Option T)))) (k t : Nat)
    (tr : List Event) (hk : h.length = k) (hm : ys.length * ElemSize.bytes T < SIZE_MOD) :
    vector.Holds ⟨copyPtr k ys.length, ys.length, ys.length⟩
      (⟨h ++ copyBlock ys, t, tr⟩ : World T) ys := by
  by_cases hne : ys.length = 0
  · have hnil : ys = [] := List.length_eq_zero.mp hne
    subst hnil
    simpa [copyPtr] using Holds_null _
  · simp only [copyPtr, copyBlock, hne, if_false]
    rw [← hk]
    exact Holds_fresh ys h t tr ys.length (Nat.le_refl _) (by omega) hm

/-- The two ways a copy construction can end: with a vector of exactly the source's
length in a block appended to the heap (no block for length `0`), or with an exception
that leaves every old block as it was. -/
theorem vector_copy_cases [ElemSize T] (F : Nat → Bool) (that : vector) (w : World T) (ys : List T)
    (hH : that.Holds w ys) :
    (∃ t tr, vector.vector_copy F that w =
        .ok ⟨copyPtr w.heap.length ys.length, ys.length, ys.length⟩
          ⟨w.heap ++ copyBlock ys, t, tr⟩) ∨
    (¬ NoFault F ∧ ∃ l t tr, vector.vector_copy F that w = .thrown ⟨w.heap ++ l, t, tr⟩) := by
  by_cases hne : ys.length = 0
  · left
    refine ⟨w.tick, w.trace, ?_⟩
    rw [vector_copy_nil F that w (by rw [hH.1]; exact hne)]
    simp [hne, copyPtr, copyBlock]
  · rcases fault_dichotomy F w.tick (ys.length + 1) with hF | ⟨j, hj, hFi, hFj⟩
    · left
      refine ⟨w.tick + 1 + ys.length,
        w.trace ++ (Event.alloc w.heap.length (ys.length * ElemSize.bytes T) ::
          constructs w.heap.length 0 ys.length), ?_⟩
      rw [vector_copy_ok F that w ys hH hne hF]
      simp [hne, copyPtr, copyBlock]
    · right
      refine ⟨fun hNF => by have := hNF (w.tick + j); simp [hFj] at this, ?_⟩
      cases j with
      | zero =>
        refine ⟨[], w.tick + 1, w.trace, ?_⟩
        rw [vector_copy_alloc_fail F that w (by rw [hH.1]; exact hne) (by simpa using hFj)]
        simp
      | succ j =>
        exact ⟨[none], _, _, vector_copy_thrown F that w ys hH j (by omega) hFi hFj⟩

/-- The destructor of a vector whose storage lies in the old part of the heap. -/
theorem destructor_spec [ElemSize T] (v : vector) (xs : List T) (h l : List (Option (List
    (Option T))))
    (t t1 : Nat) (tr tr1 : List Event) (hH : v.Holds (⟨h, t, tr⟩ : World T) xs) :
    v.destructor (⟨h ++ l, t1, tr1⟩ : World T) =
      some ⟨freeBlock h v.data_ ++ l, t1,
        tr1 ++ (destroysP v.data_ xs.length ++ releaseP v.data_)⟩ := by
  obtain ⟨hsz, hcap, _, hS⟩ := hH
  obtain ⟨w3, hrem, hdel⟩ := remove_and_delete xs v.data_ v.capacity_ h l t1 tr1 hcap
    (by cases hd : v.data_ <;> simpa [Stores, hd] using hS)
  simp only [vector.destructor, vector.clear, hsz, hrem, hdel]

theorem Stores_freeBlock (h l : List (Option (List (Option T)))) (t t1 : Nat)
    (tr tr1 : List Event) (p q : Ptr) (cap : Nat) (ys : List T)
    (hS : Stores (⟨h, t, tr⟩ : World T) q cap ys) (hsep : p = none ∨ p ≠ q) :
    Stores (⟨freeBlock h p ++ l, t1, tr1⟩ : World T) q cap ys := by
  cases q with
  | none => simpa [Stores] using hS
  | some b =>
    simp only [Stores] at hS ⊢
    refine ⟨hS.1, ?_⟩
    have hb := lt_of_getElem?_some _ _ _ hS.2
    rw [List.getElem?_append_left (by rw [freeBlock_length]; exact hb)]
    cases p with
    | none => simpa [freeBlock] using hS.2
    | some a =>
      have hab : a ≠ b := by
        rcases hsep with h1 | h1
        · exact absurd h1 (by simp)
        · intro hc; exact h1 (by rw [hc])
      simp only [freeBlock]
      rw [List.getElem?_set_ne hab]
      exact hS.2

theorem Holds_freeBlock [ElemSize T] (that : vector) (h l : List (Option (List (Option T))))
    (t t1 : Nat)
    (tr tr1 : List Event) (p : Ptr) (ys : List T)
    (hH : that.Holds (⟨h, t, tr⟩ : World T) ys) (hsep : p = none ∨ p ≠ that.data_) :
    that.Holds (⟨freeBlock h p ++ l, t1, tr1⟩ : World T) ys :=
  ⟨hH.1, hH.2.1, hH.2.2.1, Stores_freeBlock h l t t1 tr tr1 p _ _ ys hH.2.2.2 hsep⟩

/-- The copy-and-swap of `operator=`: every way it can end. -/
theorem operator_assign_cases [ElemSize T] (F : Nat → Bool) (v that : vector) (w : World T)
    (xs ys : List T) (hv : v.Holds w xs) (hb : that.Holds w ys) :
    (∃ t tr, v.operator_assign F that w =
        .ok () (⟨copyPtr w.heap.length ys.length, ys.length, ys.length⟩,
          ⟨freeBlock w.heap v.data_ ++ copyBlock ys, t, tr⟩)) ∨
    (¬ NoFault F ∧ ∃ l t tr, v.operator_assign F that w = .thrown (v, ⟨w.heap ++ l, t, tr⟩)) := by
  obtain ⟨h, t0, tr0⟩ := w
  rcases vector_copy_cases F that _ ys hb with ⟨t, tr, hc⟩ | ⟨hnf, l, t, tr, hc⟩
  · left
    have hdes := destructor_spec v xs h (copyBlock ys) t0 t tr0 tr hv
    refine ⟨t, tr ++ (destroysP v.data_ xs.length ++ releaseP v.data_), ?_⟩
    simp only [vector.operator_assign, hc, vector.swap]
    have : (⟨v.data_, v.size_, v.capacity_⟩ : vector) = v := rfl
    rw [this, hdes]
  · right
    exact ⟨hnf, l, t, tr, by simp only [vector.operator_assign, hc]⟩

theorem shrink_to_fit_eq [ElemSize T] (F : Nat → Bool) (v : vector) (w : World T) :
    v.shrink_to_fit F w =
      if v.size_ = v.capacity_ then .ok () (v, w) else v.operator_assign F v w := rfl

end Assign
section AssignClaims
variable {T : Type}

theorem Holds_unique [ElemSize T] (v : vector) (w : World T) (xs ys : List T) (hx : v.Holds w xs)
    (hy : v.Holds w ys) : xs = ys := by
  have hlen : xs.length = ys.length := by rw [← hx.1, ← hy.1]
  cases hd : v.data_ with
  | none =>
    have h1 := hx.2.2.2
    rw [hd] at h1
    simp only [Stores] at h1
    have h2 := hx.2.1
    have h3 : xs.length = 0 := by omega
    have h4 : ys.length = 0 := by omega
    rw [List.length_eq_zero.mp h3, List.length_eq_zero.mp h4]
  | some a =>
    have h1 := hx.2.2.2
    have h2 := hy.2.2.2
    rw [hd] at h1 h2
    simp only [Stores] at h1 h2
    have h3 : slotsOf xs v.capacity_ = slotsOf ys v.capacity_ := by
      have := h1.2.symm.trans h2.2
      simpa using this
    unfold slotsOf at h3
    have h4 := (List.append_inj h3 (by simp [hlen])).1
    exact List.map_injective_iff.mpr (Option.some_injective T) h4

theorem Holds_old_blocks [ElemSize T] (v : vector) (h l : List (Option (List (Option T))))
    (t t1 : Nat)
    (tr tr1 : List Event) (xs : List T) (hH : v.Holds (⟨h, t, tr⟩ : World T) xs) :
    v.Holds (⟨h ++ l, t1, tr1⟩ : World T) xs ∧
      ∀ p, p < h.length → (h ++ l)[p]? = h[p]? :=
  ⟨Holds_append v h t t1 tr tr1 l xs hH, fun _ hp => List.getElem?_append_left hp⟩

/-- C12: a returning `shrink_to_fit ()` leaves capacity equal to the length with the same
elements; with length equal to capacity it returns at once with the same vector and the
same world; if the fresh copy cannot be built the call throws and the vector, its
elements and every old block are as before.  The call returns when no step throws. -/
theorem shrink_to_fit_spec [ElemSize T] (F : Nat → Bool) (v : vector) (w : World T) (xs : List T)
    (hH : v.Holds w xs) :
    (v.size = v.capacity → v.shrink_to_fit F w = .ok () (v, w)) ∧
    (NoFault F → ∃ v' w', v.shrink_to_fit F w = .ok () (v', w')) ∧
    (∀ v' w', v.shrink_to_fit F w = .ok () (v', w') →
      v'.capacity = v'.size ∧ v'.size = v.size ∧ v'.Holds w' xs ∧
      ∀ i, i < v.size → v'.operator_index w' i = v.operator_index w i) ∧
    (∀ v' w', v.shrink_to_fit F w = .thrown (v', w') →
      v' = v ∧ v.Holds w' xs ∧ ∀ p, p < w.heap.length → w'.heap[p]? = w.heap[p]?) := by
  simp only [vector.size, vector.capacity]
  have hsz := hH.1
  have hm := Holds_len_bytes v w xs hH
  by_cases hfull : v.size_ = v.capacity_
  · have hr : v.shrink_to_fit F w = .ok () (v, w) := by rw [shrink_to_fit_eq, if_pos hfull]
    refine ⟨fun _ => hr, fun _ => ⟨v, w, hr⟩, ?_, ?_⟩
    · intro v' w' h
      rw [hr] at h
      injection h with _ h
      injection h with h1 h2
      subst h1 h2
      exact ⟨hfull.symm, rfl, hH, fun _ _ => rfl⟩
    · intro v' w' h
      rw [hr] at h
      exact Res.noConfusion h
  · have he : v.shrink_to_fit F w = v.operator_assign F v w := by
      rw [shrink_to_fit_eq, if_neg hfull]
    rw [he]
    refine ⟨fun h => absurd h hfull, ?_, ?_, ?_⟩
    · intro hNF
      rcases operator_assign_cases F v v w xs xs hH hH with ⟨t, tr, hr⟩ | ⟨hnf, _⟩
      · exact ⟨_, _, hr⟩
      · exact absurd hNF hnf
    · intro v' w' h
      rcases operator_assign_cases F v v w xs xs hH hH with ⟨t, tr, hr⟩ | ⟨_, l, t, tr, hr⟩
      · rw [hr] at h
        injection h with _ h
        injection h with h1 h2
        subst h1 h2
        have hnew := Holds_copy xs (freeBlock w.heap v.data_) w.heap.length t tr
          (freeBlock_length _ _) hm
        refine ⟨rfl, hsz.symm, hnew, ?_⟩
        intro i hi
        rw [hsz] at hi
        rw [Holds_index _ _ xs hnew i hi, Holds_index _ _ xs hH i hi]
      · rw [hr] at h
        exact Res.noConfusion h
    · intro v' w' h
      rcases operator_assign_cases F v v w xs xs hH hH with ⟨t, tr, hr⟩ | ⟨_, l, t, tr, hr⟩
      · rw [hr] at h
        exact Res.noConfusion h
      · rw [hr] at h
        injection h with h
        injection h with h1 h2
        subst h1 h2
        obtain ⟨h3, h4⟩ := Holds_old_blocks v w.heap l w.tick t w.trace tr xs hH
        exact ⟨rfl, h3, h4⟩

/-- Witness for C12: `[1, 2, 3]` with capacity `8` shrinks to capacity `3`. -/
theorem shrink_to_fit_spec_witness :
    vector.Holds ⟨some 0, 3, 8⟩
      (⟨[some [some 1, some 2, some 3, none, none, none, none, none]], 0, []⟩ : World Nat)
      [1, 2, 3] ∧
    vector.capacity ⟨some 1, 3, 3⟩ = vector.size ⟨some 1, 3, 3⟩ ∧
    vector.Holds ⟨some 1, 3, 3⟩
      (⟨[none, some [some 1, some 2, some 3]], 4,
        [Event.alloc 1 12, Event.construct 1 0, Event.construct 1 1, Event.construct 1 2,
          Event.destroy 0 2, Event.destroy 0 1, Event.destroy 0 0, Event.release 0]⟩ :
        World Nat) [1, 2, 3] :=
  have h := (shrink_to_fit_spec (fun _ => false) ⟨some 0, 3, 8⟩
    (⟨[some [some 1, some 2, some 3, none, none, none, none, none]], 0, []⟩ : World Nat)
    [1, 2, 3] (by decide)).2.2.1 ⟨some 1, 3, 3⟩
    (⟨[none, some [some 1, some 2, some 3]], 4,
        [Event.alloc 1 12, Event.construct 1 0, Event.construct 1 1, Event.construct 1 2,
          Event.destroy 0 2, Event.destroy 0 1, Event.destroy 0 0, Event.release 0]⟩ :
        World Nat) (by decide)
  ⟨by decide, h.1, h.2.2.1⟩

end AssignClaims
section AssignClaims2
variable {T : Type}

/-- C13: copy assignment `a = b`, also when `b` is `a` itself.  A returning call leaves `a`
with the length and the elements `b` had; a `b` that is another object (separate storage)
still holds its elements, and in a self-assignment `a` holds the elements and the length
it had.  If building the temporary throws, the call throws and `a` has the same fields,
the same elements, and every old block is untouched.  The call returns when no step
throws. -/
theorem copy_assign_spec [ElemSize T] (F : Nat → Bool) (a b : vector) (w : World T) (xs ys : List T)
    (ha : a.Holds w xs) (hb : b.Holds w ys) :
    (NoFault F → ∃ a' w', a.operator_assign F b w = .ok () (a', w')) ∧
    (∀ a' w', a.operator_assign F b w = .ok () (a', w') →
      a'.size = b.size ∧ a'.Holds w' ys ∧
      (∀ i, i < b.size → a'.operator_index w' i = b.operator_index w i) ∧
      ((a.data = none ∨ a.data ≠ b.data) → b.Holds w' ys) ∧
      (b = a → a'.Holds w' xs ∧ a'.size = a.size)) ∧
    (∀ a' w', a.operator_assign F b w = .thrown (a', w') →
      a' = a ∧ a.Holds w' xs ∧ ∀ p, p < w.heap.length → w'.heap[p]? = w.heap[p]?) := by
  simp only [vector.size, vector.data]
  have hm := Holds_len_bytes b w ys hb
  refine ⟨?_, ?_, ?_⟩
  · intro hNF
    rcases operator_assign_cases F a b w xs ys ha hb with ⟨t, tr, hr⟩ | ⟨hnf, _⟩
    · exact ⟨_, _, hr⟩
    · exact absurd hNF hnf
  · intro a' w' h
    rcases operator_assign_cases F a b w xs ys ha hb with ⟨t, tr, hr⟩ | ⟨_, l, t, tr, hr⟩
    · rw [hr] at h
      injection h with _ h
      injection h with h1 h2
      subst h1 h2
      have hnew := Holds_copy ys (freeBlock w.heap a.data_) w.heap.length t tr
        (freeBlock_length _ _) hm
      refine ⟨hb.1.symm, hnew, ?_, ?_, ?_⟩
      · intro i hi
        rw [hb.1] at hi
        rw [Holds_index _ _ ys hnew i hi, Holds_index _ _ ys hb i hi]
      · intro hsep
        exact Holds_freeBlock b w.heap (copyBlock ys) w.tick t w.trace tr a.data_ ys hb hsep
      · intro hba
        subst hba
        have hxy : xs = ys := Holds_unique b w xs ys ha hb
        subst hxy
        exact ⟨hnew, ha.1.symm⟩
    · rw [hr] at h
      exact Res.noConfusion h
  · intro a' w' h
    rcases operator_assign_cases F a b w xs ys ha hb with ⟨t, tr, hr⟩ | ⟨_, l, t, tr, hr⟩
    · rw [hr] at h
      exact Res.noConfusion h
    · rw [hr] at h
      injection h with h
      injection h with h1 h2
      subst h1 h2
      obtain ⟨h3, h4⟩ := Holds_old_blocks a w.heap l w.tick t w.trace tr xs ha
      exact ⟨rfl, h3, h4⟩

/-- Witness for C13: assigning `[7, 8]` to a vector holding `[1, 2, 3]`. -/
theorem copy_assign_spec_witness :
    vector.Holds ⟨some 0, 3, 4⟩
      (⟨[some [some 1, some 2, some 3, none], some [some 7, some 8]], 0, []⟩ : World Nat)
      [1, 2, 3] ∧
    vector.Holds ⟨some 1, 2, 2⟩
      (⟨[some [some 1, some 2, some 3, none], some [some 7, some 8]], 0, []⟩ : World Nat)
      [7, 8] ∧
    vector.Holds ⟨some 2, 2, 2⟩
      (⟨[none, some [some 7, some 8], some [some 7, some 8]], 3,
        [Event.alloc 2 8, Event.construct 2 0, Event.construct 2 1, Event.destroy 0 2,
          Event.destroy 0 1, Event.destroy 0 0, Event.release 0]⟩ : World Nat) [7, 8] :=
  ⟨by decide, by decide, ((copy_assign_spec (fun _ => false) ⟨some 0, 3, 4⟩ ⟨some 1, 2, 2⟩
    (⟨[some [some 1, some 2, some 3, none], some [some 7, some 8]], 0, []⟩ : World Nat)
    [1, 2, 3] [7, 8] (by decide) (by decide)).2.1 ⟨some 2, 2, 2⟩
    (⟨[none, some [some 7, some 8], some [some 7, some 8]], 3,
        [Event.alloc 2 8, Event.construct 2 0, Event.construct 2 1, Event.destroy 0 2,
          Event.destroy 0 1, Event.destroy 0 0, Event.release 0]⟩ : World Nat)
    (by decide)).2.1⟩

/-- C14: `swap` is a total function of the two field triples alone (it takes no world,
so it can neither fail nor touch an element): afterwards each vector has the other's
storage pointer, length and capacity, hence holds the other's elements; swapping twice
restores both, and swapping a vector with itself leaves it as it was. -/
theorem swap_exchanges [ElemSize T] (v that : vector) :
    ((v.swap that).1 = that ∧ (v.swap that).2 = v) ∧
    ((v.swap that).1.data = that.data ∧ (v.swap that).1.size = that.size ∧
      (v.swap that).1.capacity = that.capacity ∧ (v.swap that).2.data = v.data ∧
      (v.swap that).2.size = v.size ∧ (v.swap that).2.capacity = v.capacity) ∧
    (∀ (w : World T) (xs ys : List T), v.Holds w xs → that.Holds w ys →
      (v.swap that).1.Holds w ys ∧ (v.swap that).2.Holds w xs) ∧
    ((v.swap that).1.swap (v.swap that).2 = (v, that)) ∧
    (v.swap v = (v, v)) :=
  ⟨⟨rfl, rfl⟩, ⟨rfl, rfl, rfl, rfl, rfl, rfl⟩, fun _ _ _ hx hy => ⟨hy, hx⟩, rfl, rfl⟩

/-- C20: after a returning `a = b` the capacity of `a` is the length `b` had, whatever the
capacity of `a` was.  In a self-assignment with spare capacity the capacity drops to the
length and the storage pointer changes: for a non-empty vector it is the address of a
block that did not exist before and that now holds the elements, for an empty one it is
null; the block the vector had is released.  The call returns when no step throws. -/
theorem copy_assign_capacity [ElemSize T] (F : Nat → Bool) (a b : vector) (w : World T)
    (xs ys : List T)
    (ha : a.Holds w xs) (hb : b.Holds w ys) :
    (NoFault F → ∃ a' w', a.operator_assign F b w = .ok () (a', w')) ∧
    ∀ a' w', a.operator_assign F b w = .ok () (a', w') →
      a'.capacity = b.size ∧
      (b = a → a.size < a.capacity →
        a'.capacity = a.size ∧ a'.capacity < a.capacity ∧ a'.data ≠ a.data ∧
        w'.block a.data = none ∧
        (a.size ≠ 0 → a'.data = some w.heap.length ∧ w.heap[w.heap.length]? = none ∧
          w'.block a'.data = some (slotsOf xs a.size)) ∧
        (a.size = 0 → a'.data = none)) := by
  simp only [vector.size, vector.data, vector.capacity]
  constructor
  · intro hNF
    rcases operator_assign_cases F a b w xs ys ha hb with ⟨t, tr, hr⟩ | ⟨hnf, _⟩
    · exact ⟨_, _, hr⟩
    · exact absurd hNF hnf
  · intro a' w' h
    rcases operator_assign_cases F a b w xs ys ha hb with ⟨t, tr, hr⟩ | ⟨_, l, t, tr, hr⟩
    · rw [hr] at h
      injection h with _ h
      injection h with h1 h2
      subst h1 h2
      refine ⟨hb.1.symm, ?_⟩
      intro hba hspare
      subst hba
      have hxy : xs = ys := Holds_unique b w xs ys ha hb
      subst hxy
      have hsz := ha.1
      obtain ⟨hcap, _, hS⟩ := ha.2
      cases hd : b.data_ with
      | none => rw [hd] at hS; simp only [Stores] at hS; omega
      | some p =>
        rw [hd] at hS
        simp only [Stores] at hS
        have hp := lt_of_getElem?_some _ _ _ hS.2
        have hfree : World.block (⟨freeBlock w.heap (some p) ++ copyBlock xs, t, tr⟩ : World T)
            (some p) = none := by
          simp only [World.block, freeBlock]
          rw [List.getElem?_append_left (by simpa using hp), List.getElem?_set_self hp]
        refine ⟨hsz.symm, by show xs.length < b.capacity_; omega, ?_, hfree, ?_, ?_⟩
        · simp only [copyPtr]
          split
          · simp
          · intro hc
            injection hc with hc
            omega
        · intro hne
          have hne2 : xs.length ≠ 0 := by omega
          refine ⟨by simp [copyPtr, hne2], by simp, ?_⟩
          simp only [copyPtr, copyBlock, hne2, if_false, World.block, freeBlock]
          rw [List.getElem?_append_right (by simp), hsz]
          simp
        · intro h0
          have h02 : xs.length = 0 := by omega
          simp [copyPtr, h02]
    · rw [hr] at h
      exact Res.noConfusion h

/-- Witness for C20: self-assignment of `[1, 2]` with capacity `4`. -/
theorem copy_assign_capacity_witness :
    vector.Holds ⟨some 0, 2, 4⟩ (⟨[some [some 1, some 2, none, none]], 0, []⟩ : World Nat)
      [1, 2] ∧
    vector.capacity ⟨some 1, 2, 2⟩ = vector.size ⟨some 0, 2, 4⟩ :=
  ⟨by decide, ((copy_assign_capacity (fun _ => false) ⟨some 0, 2, 4⟩ ⟨some 0, 2, 4⟩
    (⟨[some [some 1, some 2, none, none]], 0, []⟩ : World Nat) [1, 2] [1, 2]
    (by decide) (by decide)).2 ⟨some 1, 2, 2⟩
    (⟨[none, some [some 1, some 2]], 3,
      [Event.alloc 1 8, Event.construct 1 0, Event.construct 1 1, Event.destroy 0 1,
        Event.destroy 0 0, Event.release 0]⟩ : World Nat) (by decide)).1⟩

end AssignClaims2
section EraseEnd
variable {T : Type}

/-- Witness for C14: swapping two concrete vectors. -/
theorem swap_exchanges_witness :
    vector.swap ⟨some 0, 2, 4⟩ ⟨some 1, 1, 1⟩ = (⟨some 1, 1, 1⟩, ⟨some 0, 2, 4⟩) :=
  Prod.ext (@swap_exchanges Nat _ ⟨some 0, 2, 4⟩ ⟨some 1, 1, 1⟩).1.1
    (@swap_exchanges Nat _ ⟨some 0, 2, 4⟩ ⟨some 1, 1, 1⟩).1.2

theorem toSize_one : toSize 1 = 1 := by
  have := toSize_natCast 1 (by simp [SIZE_MOD])
  simpa using this

/-- C19: on a non-empty vector of length `n`, `erase (end ())` is `erase (end (), end () + 1)`
with `delta = 1` and `start = n`; whatever the fault oracle, it returns, takes no fallible
step and assigns nothing, destroys exactly the last element, leaves the elements
`[0, n-1)` in place with length `n - 1`, and returns the position of index `n`, one past
the new `end ()`. -/
theorem erase_at_end [ElemSize T] (F : Nat → Bool) (v : vector) (w : World T) (xs : List T)
    (hH : v.Holds w xs) (hne : xs ≠ []) :
    ptr_diff ⟨v.end.base, v.end.off + 1⟩ v.end = some 1 ∧
    ptr_diff v.end v.begin = some (v.size : Int) ∧
    ∃ a, v.data = some a ∧
      v.erase_pos F v.end w =
        .ok ⟨v.data, v.size⟩ (⟨v.data, v.size - 1, v.capacity⟩,
          ⟨w.heap.set a (some (slotsOf xs.dropLast v.capacity)), w.tick,
            w.trace ++ [Event.destroy a (v.size - 1)]⟩) ∧
      vector.Holds ⟨v.data, v.size - 1, v.capacity⟩
        (⟨w.heap.set a (some (slotsOf xs.dropLast v.capacity)), w.tick,
          w.trace ++ [Event.destroy a (v.size - 1)]⟩ : World T) xs.dropLast ∧
      (v.size : Int) = ((v.size - 1 : Nat) : Int) + 1 ∧
      ∀ i, i < v.size - 1 →
        vector.operator_index ⟨v.data, v.size - 1, v.capacity⟩
          (⟨w.heap.set a (some (slotsOf xs.dropLast v.capacity)), w.tick,
            w.trace ++ [Event.destroy a (v.size - 1)]⟩ : World T) i = v.operator_index w i := by
  simp only [vector.size, vector.data, vector.capacity, vector.end, vector.begin]
  obtain ⟨zs, z, rfl⟩ : ∃ zs z, xs = zs ++ [z] := by
    rcases List.eq_nil_or_concat xs with h0 | ⟨L, b, hL⟩
    · exact absurd h0 hne
    · exact ⟨L, b, by rw [hL, List.concat_eq_append]⟩
  have hsz := hH.1
  have hcap := hH.2.1
  have hmod := Holds_cap_lt _ _ _ hH
  simp only [List.length_append, List.length_cons, List.length_nil] at hsz hcap
  obtain ⟨a, hd, hp⟩ := pop_back_spec v w zs z hH
  have hdl : (zs ++ [z]).dropLast = zs := by simp
  have hs1 : v.size_ - 1 = zs.length := by omega
  have hnew : vector.Holds ⟨v.data_, zs.length, v.capacity_⟩
      (⟨w.heap.set a (some (slotsOf zs v.capacity_)), w.tick,
        w.trace ++ [Event.destroy a zs.length]⟩ : World T) zs := by
    obtain ⟨v1, w1, hp1, hH1, _, _⟩ := pop_back_Holds v w zs z hH
    rw [hp] at hp1
    injection hp1 with hp1
    injection hp1 with h1 h2
    subst h1 h2
    exact hH1
  refine ⟨by simp [ptr_diff], by simp [ptr_diff], a, hd, ?_, ?_, by omega, ?_⟩
  · have h1 : (v.size_ : Int) + 1 - (v.size_ : Int) = 1 := by omega
    have h2 : (1 : Int) > 0 := by omega
    have hfuel : size_sub v.size_ 1 - v.size_ = 0 := by
      rw [hsz, size_sub_one]; omega
    simp only [vector.erase_pos, vector.erase, ptr_diff, if_true, h1, h2, Int.sub_zero,
      toSize_one, toSize_natCast v.size_ (by omega), hfuel, vector.erase_shift,
      vector.erase_pops, hp, hdl, hs1]
  · rw [hdl, hs1]; exact hnew
  · intro i hi
    rw [hdl, hs1] at *
    rw [Holds_index _ _ zs hnew i hi, Holds_index v w _ hH i (by simp; omega)]
    simp [List.getElem_append_left, hi]

/-- Witness for C19: `erase (end ())` on `[1, 2, 3]` with a fault oracle that throws at
every step. -/
theorem erase_at_end_witness :
    vector.erase_pos (fun _ => true) ⟨some 0, 3, 4⟩ (vector.end ⟨some 0, 3, 4⟩)
        (⟨[some [some 1, some 2, some 3, none]], 0, []⟩ : World Nat) =
      .ok ⟨some 0, 3⟩ (⟨some 0, 2, 4⟩,
        ⟨[some [some 1, some 2, none, none]], 0, [Event.destroy 0 2]⟩) := by
  obtain ⟨_, _, a, ha, h, _⟩ := erase_at_end (fun _ => true) ⟨some 0, 3, 4⟩
    (⟨[some [some 1, some 2, some 3, none]], 0, []⟩ : World Nat) [1, 2, 3] (by decide)
    (by decide)
  have ha0 : a = 0 := by
    simp only [vector.data] at ha
    injection ha with ha
    exact ha.symm
  subst ha0
  rw [h]
  decide

end EraseEnd
section Pow2
variable {T : Type}


theorem Pow2Cap_push (size cap cap1 : Nat) (h : Pow2Cap size cap)
    (hc : (size < cap ∧ cap1 = cap) ∨
      (size = cap ∧ cap1 = (if cap = 0 then 1 else 2 * cap))) :
    Pow2Cap (size + 1) cap1 := by
  right
  rcases hc with ⟨hlt, rfl⟩ | ⟨hfull, rfl⟩
  · rcases h with ⟨h1, h2⟩ | ⟨hj, h1, h2⟩
    · omega
    · exact ⟨hj, by omega, by omega⟩
  · rcases h with ⟨h1, h2⟩ | ⟨⟨j, hj⟩, h1, h2⟩
    · subst h2
      exact ⟨⟨0, by simp⟩, by simp [h1], by simp [h1]⟩
    · have hpos : cap ≠ 0 := by omega
      simp only [hpos, if_false]
      exact ⟨⟨j + 1, by rw [hj, Nat.pow_succ]; omega⟩, by omega, by omega⟩

theorem push_all_pow2 [ElemSize T] (F : Nat → Bool) (ys : List T) :
    ∀ (v : vector) (w : World T) (xs : List T), v.Holds w xs →
      Pow2Cap v.size_ v.capacity_ →
      ∀ v' w', push_all F ys v w = .ok () (v', w') → Pow2Cap v'.size_ v'.capacity_ := by
  induction ys with
  | nil =>
    intro v w xs _ hP v' w' hr
    simp only [push_all] at hr
    injection hr with _ hr
    injection hr with hv hw
    subst hv hw
    exact hP
  | cons y ys ih =>
    intro v w xs hH hP v' w' hr
    simp only [push_all] at hr
    cases hp : v.push_back F y w with
    | ub => rw [hp] at hr; exact Res.noConfusion hr
    | thrown s => rw [hp] at hr; exact Res.noConfusion hr
    | ok u s =>
      obtain ⟨v1, w1⟩ := s
      rw [hp] at hr
      obtain ⟨h1, h2, h3⟩ := push_back_ok_inv F v y w xs hH v1 w1 hp
      have hP1 : Pow2Cap v1.size_ v1.capacity_ := by
        rw [h2]
        apply Pow2Cap_push v.size_ v.capacity_ v1.capacity_ hP
        rcases h3 with ⟨ha, _, hb⟩ | ⟨ha, _, hb, _⟩
        · exact Or.inl ⟨ha, hb⟩
        · exact Or.inr ⟨ha, hb⟩
      exact ih v1 w1 (xs ++ [y]) h1 hP1 v' w' hr

theorem pow2_minimal (n cap j : Nat) (hj : cap = 2 ^ j) (h2 : cap < 2 * n) (m : Nat)
    (hm : n ≤ 2 ^ m) : cap ≤ 2 ^ m := by
  by_contra hcon
  have h1 : 2 ^ m < 2 ^ j := by omega
  have h3 : m < j := (Nat.pow_lt_pow_iff_right (by omega)).mp h1
  have h4 : 2 ^ (m + 1) ≤ 2 ^ j := Nat.pow_le_pow_right (by omega) h3
  rw [Nat.pow_succ] at h4
  omega

end Pow2
section Pow2Claim
variable {T : Type}

/-- C18: after `N` returning `push_back` calls on a default-constructed vector the capacity
is `0` for `N = 0` and otherwise the smallest power of two that is at least `N` (it is a
power of two, at least `N`, and at most every power of two that is at least `N`; it is
`2 ^ clog 2 N`), and it is less than twice the length.  The calls return when no step
throws and the `N` elements take at most half the range of `size_t` in bytes. -/
theorem push_back_capacity_pow2 [ElemSize T] (F : Nat → Bool) (w0 : World T) (xs : List T) :
    (NoFault F → xs.length * ElemSize.bytes T ≤ SIZE_MOD / 2 →
      ∃ v w, push_all F xs vector.vector_default w0 = .ok () (v, w)) ∧
    ∀ v w, push_all F xs vector.vector_default w0 = .ok () (v, w) →
      (xs.length = 0 → v.capacity = 0) ∧
      (0 < xs.length →
        (∃ j, v.capacity = 2 ^ j) ∧ xs.length ≤ v.capacity ∧
        (∀ m, xs.length ≤ 2 ^ m → v.capacity ≤ 2 ^ m) ∧
        v.capacity = 2 ^ Nat.clog 2 xs.length ∧
        (1 ≤ v.size → v.capacity < 2 * v.size)) := by
  simp only [vector.size, vector.capacity]
  constructor
  · intro hNF hlen
    exact push_all_total F hNF xs _ w0 [] (Holds_default w0) (by simpa using hlen)
  · intro v w hr
    have hH := push_all_ok_inv F xs _ w0 [] (Holds_default w0) v w hr
    simp only [List.nil_append] at hH
    have hP := push_all_pow2 F xs _ w0 [] (Holds_default w0)
      (Or.inl ⟨rfl, rfl⟩) v w hr
    have hsz := hH.1
    rw [hsz] at hP
    constructor
    · intro h0
      rcases hP with ⟨_, h2⟩ | ⟨_, h1, h2⟩
      · exact h2
      · omega
    · intro hpos
      rcases hP with ⟨h1, _⟩ | ⟨⟨j, hj⟩, h1, h2⟩
      · omega
      · have hmin := pow2_minimal xs.length v.capacity_ j hj h2
        refine ⟨⟨j, hj⟩, h1, hmin, ?_, fun _ => by rw [hsz]; exact h2⟩
        have hle : Nat.clog 2 xs.length ≤ j :=
          (Nat.le_pow_iff_clog_le (by omega)).mp (by rw [← hj]; exact h1)
        have hge : j ≤ Nat.clog 2 xs.length := by
          have := hmin (Nat.clog 2 xs.length) (Nat.le_pow_clog (by omega) _)
          rw [hj] at this
          exact (Nat.pow_le_pow_iff_right (by omega)).mp this
        rw [hj, Nat.le_antisymm hle hge]

/-- Witness for C18: five pushes leave capacity `8`. -/
theorem push_back_capacity_pow2_witness :
    vector.capacity ⟨some 3, 5, 8⟩ = 2 ^ Nat.clog 2 5 :=
  (((push_back_capacity_pow2 (fun _ => false) (World.init : World Nat) [1, 2, 3, 4, 5]).2
    ⟨some 3, 5, 8⟩
    (⟨[none, none, none, some [some 1, some 2, some 3, some 4, some 5, none, none, none]], 20,
      [Event.alloc 0 4, Event.construct 0 0, Event.alloc 1 8, Event.construct 1 0,
        Event.destroy 0 0, Event.release 0, Event.construct 1 1, Event.alloc 2 16,
        Event.construct 2 0, Event.construct 2 1, Event.destroy 1 1, Event.destroy 1 0,
        Event.release 1, Event.construct 2 2, Event.construct 2 3, Event.alloc 3 32,
        Event.construct 3 0, Event.construct 3 1, Event.construct 3 2, Event.construct 3 3,
        Event.destroy 2 3, Event.destroy 2 2, Event.destroy 2 1, Event.destroy 2 0,
        Event.release 2, Event.construct 3 4]⟩ : World Nat) (by decide)).2
    (by decide)).2.2.2.1

end Pow2Claim
section Weak
variable {T : Type}

theorem Holds_inv [ElemSize T] (v : vector) (w : World T) (xs : List T) (hH : v.Holds w xs) :
    Inv1 v w ∧ Inv2 v := by
  obtain ⟨hsz, hcap, _, hS⟩ := hH
  cases hd : v.data_ with
  | none =>
    rw [hd] at hS
    simp only [Stores] at hS
    exact ⟨⟨by omega, fun h => by omega⟩, fun _ => hd⟩
  | some a =>
    rw [hd] at hS
    simp only [Stores] at hS
    refine ⟨⟨by omega, fun _ => ⟨slotsOf xs v.capacity_, ?_, slotsOf_length _ _ hcap, ?_, ?_⟩⟩,
      fun h => by omega⟩
    · rw [hd]; exact block_eq w a _ hS.2
    · intro i hi
      exact ⟨xs[i], slotsOf_getElem?_lt xs _ i (by omega)⟩
    · intro i h1 h2
      exact slotsOf_getElem?_ge xs _ i (by omega) h2

/-- What a throwing `push_back` left behind: a well-formed vector with the same elements
(its capacity may have grown). -/
theorem push_back_thrown_inv [ElemSize T] (F : Nat → Bool) (v : vector) (x : T) (w : World T)
    (xs : List T)
    (hH : v.Holds w xs) (v' : vector) (w' : World T)
    (hr : v.push_back F x w = .thrown (v', w')) : v'.Holds w' xs := by
  have hsz := hH.1
  have hcap := hH.2.1
  have hmod := Holds_cap_lt _ _ _ hH
  by_cases hfull : v.size_ = v.capacity_
  · rw [vector.push_back, if_pos hfull] at hr
    simp only [copy_temp] at hr
    by_cases hF0 : F w.tick = true
    · simp only [hF0, if_true] at hr
      injection hr with hr
      injection hr with hv hw
      subst hv hw
      exact Holds_of_heap_eq v w _ xs hH rfl
    · simp only [hF0, Bool.false_eq_true, if_false] at hr
      have hH1 : v.Holds (⟨w.heap, w.tick + 1, w.trace⟩ : World T) xs :=
        Holds_of_heap_eq v w _ xs hH rfl
      cases he : v.ensure_capacity F (⟨w.heap, w.tick + 1, w.trace⟩ : World T) with
      | ub => rw [he] at hr; exact Res.noConfusion hr
      | thrown s =>
        obtain ⟨v1, w2⟩ := s
        rw [he] at hr
        injection hr with hr
        injection hr with hv hw
        subst hv hw
        rw [vector.ensure_capacity, if_pos hfull] at he
        obtain ⟨hv1, l, hl⟩ := reserve_thrown_inv F v _ _ xs hH1 v1 w2 he
        subst hv1
        obtain ⟨h2, t2, tr2⟩ := w2
        simp only at hl
        subst hl
        exact Holds_append v1 w.heap w.tick t2 w.trace tr2 l xs hH
      | ok u s =>
        obtain ⟨v1, w2⟩ := s
        rw [he] at hr
        simp only at hr
        rw [vector.ensure_capacity, if_pos hfull] at he
        rcases reserve_ok_inv F v _ _ xs hH1 v1 w2 he with
          ⟨_, hv1, hw2⟩ | ⟨hlt, hm, _, hv1, hw2⟩
        · rw [hv1, hw2, construct_at_full_ub F v x _ xs hH1 hfull] at hr
          exact Res.noConfusion hr
        · by_cases hshort : buffer_slots T
              (if v.capacity_ = 0 then 1 else 2 * v.capacity_ % SIZE_MOD) ≤ xs.length
          · exfalso
            rw [hv1, hw2] at hr
            simp only [hsz] at hr
            rw [construct_at_past_end F _ w.heap.length xs.length x
              (slotsOf xs (buffer_slots T
                (if v.capacity_ = 0 then 1 else 2 * v.capacity_ % SIZE_MOD)))
              (by
                have := freeBlock_length w.heap v.data_
                simp [← this])
              (by rw [slotsOf_length _ _ hm]; exact hshort)] at hr
            exact Res.noConfusion hr
          obtain ⟨htarget, hno, hbound⟩ := grow_target_eq v.capacity_ hH.2.2.1 hlt (by omega)
          rw [htarget] at hv1 hw2 hlt
          rw [buffer_slots_fit _ hbound, buffer_bytes_fit _ hbound] at hw2
          have hlt2 : xs.length < (if v.capacity_ = 0 then 1 else 2 * v.capacity_) := by omega
          subst hv1 hw2
          simp only [hsz] at hr
          have hcon := construct_after_reserve F xs x (freeBlock w.heap v.data_)
            (if v.capacity_ = 0 then 1 else 2 * v.capacity_) (w.tick + 1 + 1 + xs.length)
            (w.trace ++ (Event.alloc w.heap.length
              ((if v.capacity_ = 0 then 1 else 2 * v.capacity_) * ElemSize.bytes T)
              :: constructs w.heap.length 0 xs.length ++
                (destroysP v.data_ xs.length ++ releaseP v.data_))) hlt2
          rw [freeBlock_length] at hcon
          rw [hcon] at hr
          by_cases hF2 : F (w.tick + 1 + 1 + xs.length) = true
          · simp only [hF2, if_true] at hr
            injection hr with hr
            injection hr with hv hw
            subst hv hw
            have := Holds_after_reserve v (if v.capacity_ = 0 then 1 else 2 * v.capacity_) w xs hH
              hlt hbound (w.tick + 1 + 1 + xs.length + 1)
              (w.trace ++ (Event.alloc w.heap.length
                ((if v.capacity_ = 0 then 1 else 2 * v.capacity_) * ElemSize.bytes T)
                :: constructs w.heap.length 0 xs.length ++
                  (destroysP v.data_ xs.length ++ releaseP v.data_)))
            rw [hsz] at this
            exact this
          · simp [hF2] at hr
  · have hlt : v.size_ < v.capacity_ := by omega
    obtain ⟨a, hd, he⟩ := push_back_room F v x w xs hH hlt
    rw [he] at hr
    by_cases hF0 : F w.tick = true
    · simp only [hF0, if_true] at hr
      injection hr with hr
      injection hr with hv hw
      subst hv hw
      exact Holds_of_heap_eq v w _ xs hH rfl
    · simp [hF0] at hr

/-- What a throwing `insert` left behind. -/
theorem insert_thrown_inv [ElemSize T] (F : Nat → Bool) (v : vector) (w : World T) (xs : List T)
    (k : Nat)
    (x : T) (hH : v.Holds w xs) (hk : k ≤ xs.length) (v' : vector) (w' : World T)
    (hr : v.insert F ⟨v.data_, k⟩ x w = .thrown (v', w')) : ∃ zs, v'.Holds w' zs := by
  have hsz := hH.1
  have hcap := hH.2.1
  have hmod := Holds_cap_lt _ _ _ hH
  simp only [vector.insert, ptr_diff, if_true, Int.sub_zero] at hr
  cases hp : v.push_back F x w with
  | ub => rw [hp] at hr; exact Res.noConfusion hr
  | thrown s =>
    obtain ⟨v1, w1⟩ := s
    rw [hp] at hr
    injection hr with hr
    injection hr with hv hw
    subst hv hw
    exact ⟨xs, push_back_thrown_inv F v x w xs hH _ _ hp⟩
  | ok u s =>
    obtain ⟨v1, w1⟩ := s
    rw [hp] at hr
    simp only at hr
    obtain ⟨hH1, hs1, _⟩ := push_back_ok_inv F v x w xs hH v1 w1 hp
    obtain ⟨a, hd, hblk⟩ := Holds_data_some v1 w1 _ hH1 (by simp)
    have hlen1 := hH1.2.1
    simp only [List.length_append, List.length_cons, List.length_nil] at hlen1
    have hm1 := Holds_cap_lt _ _ _ hH1
    have hpred : size_sub v1.size_ 1 = xs.length := by
      rw [hs1, hsz]; exact size_sub_one _
    rw [hpred, toSize_natCast k (by omega), hd] at hr
    obtain ⟨_, _, h3, _⟩ := insert_loop_spec F a v1.capacity_ k x xs.length xs [] w1 rfl hk
      (by simpa using hlen1) (by simpa using hblk)
    cases hl : vector.insert_loop F (some a) k xs.length w1 with
    | ub => rw [hl] at hr; exact Res.noConfusion hr
    | ok u2 w2 => rw [hl] at hr; exact Res.noConfusion hr
    | thrown w2 =>
      rw [hl] at hr
      injection hr with hr
      injection hr with hv hw
      subst hv hw
      obtain ⟨zs, hz1, hz2⟩ := h3 w2 hl
      exact ⟨zs, Holds_set v1 w1 w2 _ zs a hH1 hd hz1 hz2⟩

/-- What a throwing `erase` left behind. -/
theorem erase_thrown_inv [ElemSize T] (F : Nat → Bool) (v : vector) (w : World T) (xs : List T)
    (s : Nat)
    (delta : Int) (hH : v.Holds w xs) (hsd : (s : Int) + delta ≤ xs.length) (v' : vector)
    (w' : World T)
    (hr : v.erase F ⟨v.data_, s⟩ ⟨v.data_, (s : Int) + delta⟩ w = .thrown (v', w')) :
    ∃ zs, v'.Holds w' zs := by
  by_cases hd : delta ≤ 0
  · rw [erase_nonpos F v w s delta hd] at hr
    exact Res.noConfusion hr
  · obtain ⟨d, rfl⟩ : ∃ d : Nat, delta = d :=
      ⟨delta.toNat, (Int.toNat_of_nonneg (by omega)).symm⟩
    have hsz := hH.1
    have hcap := hH.2.1
    have hmod := Holds_cap_lt _ _ _ hH
    have hdpos : 0 < d := by omega
    have hsd2 : s + d ≤ xs.length := by omega
    obtain ⟨a, hda, hblk⟩ := Holds_data_some v w xs hH (by omega)
    have h1 : (s : Int) + (d : Int) - (s : Int) = (d : Int) := by omega
    have h2 : (d : Int) > 0 := by omega
    have hbound : size_sub v.size_ d - s = xs.length - d - s := by
      rw [hsz, size_sub_le _ _ (by omega)]
    simp only [vector.erase, ptr_diff, if_true, h1, h2, Int.sub_zero,
      toSize_natCast d (by omega), toSize_natCast s (by omega), hbound, hda] at hr
    obtain ⟨_, e2, e3, _⟩ := erase_shift_spec F a v.capacity_ s d xs hdpos hcap (by omega)
      (xs.length - d - s) s w (Nat.le_refl _) (by omega) (by rw [shifted_start]; exact hblk)
    cases hs : vector.erase_shift F (some a) d (xs.length - d - s) s w with
    | ub => rw [hs] at hr; exact Res.noConfusion hr
    | thrown w1 =>
      rw [hs] at hr
      injection hr with hr
      injection hr with hv hw
      subst hv hw
      obtain ⟨zs, hz1, hz2⟩ := e3 w1 hs
      exact ⟨zs, Holds_set v w w1 xs zs a hH hda hz1 hz2⟩
    | ok u w1 =>
      rw [hs] at hr
      have hH1 : v.Holds w1 (shifted xs s d (xs.length - d)) :=
        Holds_set v w w1 xs _ a hH hda (shifted_length xs s d _ (by omega) (by omega)) (e2 w1 hs)
      obtain ⟨v2, w2, hp, _⟩ := erase_pops_spec d _ v w1 hH1
        (by rw [shifted_length xs s d _ (by omega) (by omega)]; omega)
      simp only [hp] at hr
      exact Res.noConfusion hr

end Weak
section WeakClaim
variable {T : Type}

/-- C15: when `insert` (at a position in `[begin (), end ()]`) or `erase` (of a range
inside the vector) throws, whether in `push_back`, in a swap of the shifting loop of
`insert` or in an assignment of the shifting loop of `erase`, the vector left behind
satisfies the invariants I1 and I2: it is a well-formed vector holding some sequence of
elements, which need not be the one before the call. -/
theorem insert_erase_weak [ElemSize T] (F : Nat → Bool) (v : vector) (w : World T) (xs : List T)
    (hH : v.Holds w xs) :
    (∀ (k : Nat) (x : T) v' w', k ≤ xs.length →
      v.insert F ⟨v.begin.base, v.begin.off + k⟩ x w = .thrown (v', w') →
      Inv1 v' w' ∧ Inv2 v' ∧ ∃ zs, v'.Holds w' zs) ∧
    (∀ (s : Nat) (delta : Int) v' w', (s : Int) + delta ≤ xs.length →
      v.erase F ⟨v.begin.base, v.begin.off + s⟩ ⟨v.begin.base, v.begin.off + s + delta⟩ w =
        .thrown (v', w') →
      Inv1 v' w' ∧ Inv2 v' ∧ ∃ zs, v'.Holds w' zs) := by
  simp only [vector.begin, Int.zero_add]
  constructor
  · intro k x v' w' hk hr
    obtain ⟨zs, hz⟩ := insert_thrown_inv F v w xs k x hH hk v' w' hr
    exact ⟨(Holds_inv v' w' zs hz).1, (Holds_inv v' w' zs hz).2, zs, hz⟩
  · intro s delta v' w' hsd hr
    obtain ⟨zs, hz⟩ := erase_thrown_inv F v w xs s delta hH hsd v' w' hr
    exact ⟨(Holds_inv v' w' zs hz).1, (Holds_inv v' w' zs hz).2, zs, hz⟩

/-- Witness for C15: `insert (begin () + 1, 99)` into `[1, 2, 3]` throws in the second
assignment of the first swap and leaves the well-formed vector `[1, 2, 3, 3]`. -/
theorem insert_erase_weak_witness :
    vector.insert (fun t => t == 3) ⟨some 0, 3, 4⟩ ⟨some 0, 1⟩ 99
        (⟨[some [some 1, some 2, some 3, none]], 0, []⟩ : World Nat) =
      .thrown (⟨some 0, 4, 4⟩, ⟨[some [some 1, some 2, some 3, some 3]], 4,
        [Event.construct 0 3, Event.assign 0 3]⟩) ∧
    Inv1 ⟨some 0, 4, 4⟩ (⟨[some [some 1, some 2, some 3, some 3]], 4,
        [Event.construct 0 3, Event.assign 0 3]⟩ : World Nat) :=
  ⟨by decide, ((insert_erase_weak (fun t => t == 3) ⟨some 0, 3, 4⟩
    (⟨[some [some 1, some 2, some 3, none]], 0, []⟩ : World Nat) [1, 2, 3] (by decide)).1
    1 99 ⟨some 0, 4, 4⟩ (⟨[some [some 1, some 2, some 3, some 3]], 4,
        [Event.construct 0 3, Event.assign 0 3]⟩ : World Nat) (by decide) (by decide)).1⟩

end WeakClaim
section InvariantClaims

/-- C16: invariant I1 does not hold in every reachable state.  On a default-constructed
vector with elements of four bytes, `reserve (2 ^ 62)` asks `operator new` for
`2 ^ 62 * 4 mod 2 ^ 64 = 0` bytes and returns with capacity `2 ^ 62` over a block without
slots, so the slots `[length, capacity)` of I1 are not there; the next `push_back` finds
spare capacity and builds its element past the end of that block, which is undefined
behaviour. -/
theorem reserve_wrapped_byte_count_breaks_I1 :
    vector.reserve (fun _ => false) vector.vector_default (2 ^ 62) (World.init : World Nat) =
      .ok () (⟨some 0, 0, 2 ^ 62⟩, ⟨[some []], 1, [Event.alloc 0 0]⟩) ∧
    ¬ Inv1 ⟨some 0, 0, 2 ^ 62⟩ (⟨[some []], 1, [Event.alloc 0 0]⟩ : World Nat) ∧
    vector.push_back (fun _ => false) ⟨some 0, 0, 2 ^ 62⟩ 7
      (⟨[some []], 1, [Event.alloc 0 0]⟩ : World Nat) = .ub := by
  refine ⟨by decide, ?_, by decide⟩
  intro hI
  obtain ⟨b, hb, hlen, _⟩ := hI.2 (by decide)
  have hb2 : b = [] := by
    simp only [World.block, List.getElem?_cons_zero] at hb
    exact (Option.some.inj hb).symm
  rw [hb2] at hlen
  exact absurd hlen (by decide)

/-- C17: the allocator is asked for a zero-sized region.  With elements of four bytes,
`new_buffer (2 ^ 62)` passes `2 ^ 62 * 4 mod 2 ^ 64 = 0` bytes to `operator new`, and so does
`reserve (2 ^ 62)` on a default-constructed vector, which then returns with a capacity
that is not `0` and a storage pointer that is not null; `new_buffer (0)` itself returns
null without allocating. -/
theorem reserve_wrapped_byte_count_allocates_zero_bytes :
    buffer_bytes Nat (2 ^ 62) = 0 ∧
    vector.new_buffer (fun _ => false) (2 ^ 62) (World.init : World Nat) =
      .ok (some 0) ⟨[some []], 1, [Event.alloc 0 0]⟩ ∧
    (∃ v w, vector.reserve (fun _ => false) vector.vector_default (2 ^ 62)
        (World.init : World Nat) = .ok () (v, w) ∧
      Event.alloc 0 0 ∈ w.trace ∧ v.capacity = 2 ^ 62 ∧ v.data = some 0) ∧
    vector.new_buffer (fun _ => false) 0 (World.init : World Nat) = .ok none World.init := by
  refine ⟨by decide, by decide, ⟨⟨some 0, 0, 2 ^ 62⟩, ⟨[some []], 1, [Event.alloc 0 0]⟩,
    by decide, by decide, by decide, by decide⟩, by decide⟩

end InvariantClaims
